import Mathlib

/-! ## Radix-lightning-sort: LSD radix sort of 32-bit signed integers

Shallow embedding of `src/radix_sort.c` and the properties proved about it.

* `int32_t` values are integers (`Int`) in the range `[-2^31, 2^31)`, `uint32_t` words and
  `size_t` values are natural numbers (`Nat`), with the wrap-around of the C arithmetic written
  out (`% 2^32`, `% 2^64`).
* C arrays are lists; an access outside the block makes the embedded function return `none`
  (undefined behaviour in C).
* A possibly null `int32_t*` is an `Option (List Int)`.
* `malloc` is a parameter (`Allocator`): it decides which requests succeed and what the fresh,
  uninitialised block contains.
-/

namespace RadixSort

/-! ## Constants and result codes (`radix_sort.h`, `radix_sort.c` lines 30-32) -/

/-- The macro `RADIX_BITS`. -/
def RADIX_BITS : Nat := 8

/-- The macro `RADIX_SIZE`. -/
def RADIX_SIZE : Nat := 256

/-- The macro `NUM_PASSES`. -/
def NUM_PASSES : Nat := 4

/-- Number of values of `size_t` (64-bit target): arithmetic on `size_t` is modulo this. -/
def SIZE_MODULUS : Nat := 2 ^ 64

/-- Number of values of `uint32_t`. -/
def U32_MODULUS : Nat := 2 ^ 32

/-- The value of `sizeof(uint32_t)`. -/
def SIZEOF_U32 : Nat := 4

/-- The enumeration `SortResult`. -/
inductive SortResult where
  | SORT_SUCCESS
  | SORT_ERROR_NULL
  | SORT_ERROR_SIZE
  | SORT_ERROR_MEMORY
  deriving DecidableEq, Repr

/-- The integer value of each enumerator of `SortResult`. -/
def SortResult.code : SortResult → Int
  | .SORT_SUCCESS => 0
  | .SORT_ERROR_NULL => -1
  | .SORT_ERROR_SIZE => -2
  | .SORT_ERROR_MEMORY => -3

/-! ## Machine integers and the key transform (`radixSort`, lines 150 and 171) -/

/-- A value representable as `int32_t`. -/
def isInt32 (x : Int) : Prop := -2147483648 ≤ x ∧ x ≤ 2147483647

instance (x : Int) : Decidable (isInt32 x) := by unfold isInt32; infer_instance

/-- A value representable as `uint32_t`. -/
def isUInt32 (u : Nat) : Prop := u < U32_MODULUS

instance (u : Nat) : Decidable (isUInt32 u) := by unfold isUInt32; infer_instance

/-- The cast `(uint32_t)x`: reduction modulo `2^32`. -/
def toUInt32 (x : Int) : Nat := (x % 4294967296).toNat

/-- The cast `(int32_t)u` of a `uint32_t` word: the two's complement reading of its 32 bits. -/
def toInt32 (u : Nat) : Int :=
  if u % U32_MODULUS < 2147483648 then ((u % U32_MODULUS : Nat) : Int)
  else ((u % U32_MODULUS : Nat) : Int) - 4294967296

/-- Line 150: `(uint32_t)arr[i] ^ 0x80000000U`. -/
def forwardTransform (x : Int) : Nat := toUInt32 x ^^^ 0x80000000

/-- Line 171: `(int32_t)(input[i] ^ 0x80000000U)`. -/
def inverseTransform (u : Nat) : Int := toInt32 (u ^^^ 0x80000000)

/-! ## Memory -/

/-- The allocator behind `malloc`: whether the `call`-th request (counted from 0) for `bytes`
bytes succeeds, and the content the fresh block happens to hold, word by word. -/
structure Allocator (β : Type) where
  succeeds : Nat → Nat → Bool
  garbage : Nat → Nat → β

/-- The call `malloc(bytes)`, as a block of `bytes / sizeof(uint32_t)` words, or `none` for
`NULL`. -/
def malloc {β : Type} (al : Allocator β) (call bytes : Nat) : Option (List β) :=
  if al.succeeds call bytes then
    some ((List.range (bytes / SIZEOF_U32)).map (al.garbage call))
  else none

/-- The store `buf[i] = v`; `none` when `i` is outside the block. -/
def writeAt {β : Type} (buf : List β) (i : Nat) (v : β) : Option (List β) :=
  if i < buf.length then some (buf.set i v) else none

/-- The two working buffers of `radixSort`. -/
inductive Buf where
  | temp1
  | temp2
  deriving DecidableEq, Repr

/-- Contents of the two working buffers. -/
structure Heap (β : Type) where
  temp1 : List β
  temp2 : List β
  deriving DecidableEq, Repr

/-- The block a buffer pointer designates. -/
def Heap.get {β : Type} (h : Heap β) : Buf → List β
  | .temp1 => h.temp1
  | .temp2 => h.temp2

/-- Replace the block a buffer pointer designates. -/
def Heap.put {β : Type} (h : Heap β) (p : Buf) (l : List β) : Heap β :=
  match p with
  | .temp1 => { h with temp1 := l }
  | .temp2 => { h with temp2 := l }

/-- What a call of `radixSort` leaves behind: the returned code, the caller's array (`none` for a
null pointer), the byte counts passed to `malloc` in call order, and the buffers passed to
`free` in call order. -/
structure Outcome (α : Type) where
  result : SortResult
  arr : Option (List α)
  mallocs : List Nat
  frees : List Buf
  deriving DecidableEq, Repr

/-! ## `countingSortByByte` (lines 42-72) -/

/-- Body of the histogram loop (lines 52-56) at index `i`. -/
def countStep (arr : List Nat) (shift : Nat) (count : List Nat) (i : Nat) :
    Option (List Nat) := do
  let x ← arr[i]?
  let digit := (x >>> shift) &&& 0xFF
  let c ← count[digit]?
  writeAt count digit ((c + 1) % SIZE_MODULUS)

/-- The histogram loop `for (i = 0; i < size; i++)` (lines 52-56). -/
def countLoop (arr : List Nat) (size shift : Nat) (count : List Nat) : Option (List Nat) :=
  (List.range size).foldlM (countStep arr shift) count

/-- Body of the cumulative-sum loop (lines 59-62) at index `i`. -/
def cumulStep (count : List Nat) (i : Nat) : Option (List Nat) := do
  let a ← count[i]?
  let b ← count[i - 1]?
  writeAt count i ((a + b) % SIZE_MODULUS)

/-- The cumulative-sum loop `for (i = 1; i < RADIX_SIZE; i++)` (lines 59-62). -/
def cumulLoop (count : List Nat) : Option (List Nat) :=
  (List.range' 1 (RADIX_SIZE - 1)).foldlM cumulStep count

/-- Body of the placement loop (lines 65-71) at loop variable `i` (so `idx = i - 1`), on the
pair of the histogram and the output buffer. -/
def placeStep (arr : List Nat) (shift : Nat) (st : List Nat × List Nat) (i : Nat) :
    Option (List Nat × List Nat) := do
  let idx := i - 1
  let x ← arr[idx]?
  let digit := (x >>> shift) &&& 0xFF
  let c ← st.1[digit]?
  let count ← writeAt st.1 digit ((c + SIZE_MODULUS - 1) % SIZE_MODULUS)
  let slot ← count[digit]?
  let output ← writeAt st.2 slot x
  pure (count, output)

/-- The placement loop `for (i = size; i > 0; i--)` (lines 65-71). -/
def placeLoop (arr : List Nat) (size shift : Nat) (st : List Nat × List Nat) :
    Option (List Nat × List Nat) :=
  (List.range' 1 size).reverse.foldlM (placeStep arr shift) st

/-- The function `countingSortByByte(arr, size, output, byteIndex)`: the content of `output`
after the call, `none` when the assertion on `byteIndex` fails or an access is out of bounds. -/
def countingSortByByte (arr : List Nat) (size : Nat) (output : List Nat) (byteIndex : Nat) :
    Option (List Nat) :=
  if byteIndex < NUM_PASSES then do
    let count := List.replicate RADIX_SIZE 0
    let shift := byteIndex * RADIX_BITS
    let count ← countLoop arr size shift count
    let count ← cumulLoop count
    let st ← placeLoop arr size shift (count, output)
    pure st.2
  else none

/-! ## `radixSort` (lines 83-184) -/

/-- Body of the forward transform loop (lines 147-151) at index `i`. -/
def transformStep (arr : List Int) (temp1 : List Nat) (i : Nat) : Option (List Nat) := do
  let x ← arr[i]?
  writeAt temp1 i (forwardTransform x)

/-- The forward transform loop (lines 147-151). -/
def transformLoop (arr : List Int) (size : Nat) (temp1 : List Nat) : Option (List Nat) :=
  (List.range size).foldlM (transformStep arr) temp1

/-- Body of the pass loop (lines 157-165) at `pass`, on the heap and the pointers `input` and
`output`. -/
def passStep (size : Nat) (st : Heap Nat × Buf × Buf) (pass : Nat) :
    Option (Heap Nat × Buf × Buf) := do
  let input := st.2.1
  let output := st.2.2
  let out ← countingSortByByte (st.1.get input) size (st.1.get output) pass
  pure (st.1.put output out, output, input)

/-- The pass loop `for (pass = 0; pass < NUM_PASSES; pass++)` (lines 157-165). -/
def passLoop (size : Nat) (st : Heap Nat × Buf × Buf) : Option (Heap Nat × Buf × Buf) :=
  (List.range NUM_PASSES).foldlM (passStep size) st

/-- Body of the inverse transform loop (lines 169-178) at index `i`. -/
def copyBackStep (input : List Nat) (arr : List Int) (i : Nat) : Option (List Int) := do
  let u ← input[i]?
  writeAt arr i (inverseTransform u)

/-- The inverse transform loop (lines 169-178). -/
def copyBackLoop (input : List Nat) (size : Nat) (arr : List Int) : Option (List Int) :=
  (List.range size).foldlM (copyBackStep input) arr

/-- The function `radixSort(arr, size)` run against the allocator `al`; `none` when an access is
out of bounds. -/
def radixSort (al : Allocator Nat) (arr : Option (List Int)) (size : Nat) :
    Option (Outcome Int) :=
  match arr with
  | none => some ⟨.SORT_ERROR_NULL, none, [], []⟩
  | some a =>
    if size = 0 then some ⟨.SORT_ERROR_SIZE, some a, [], []⟩
    else if size = 1 then some ⟨.SORT_SUCCESS, some a, [], []⟩
    else
      let bytes := (size * SIZEOF_U32) % SIZE_MODULUS
      match malloc al 0 bytes with
      | none => some ⟨.SORT_ERROR_MEMORY, some a, [bytes], []⟩
      | some temp1 =>
        match malloc al 1 bytes with
        | none => some ⟨.SORT_ERROR_MEMORY, some a, [bytes, bytes], [.temp1]⟩
        | some temp2 => do
          let temp1 ← transformLoop a size temp1
          let st ← passLoop size (⟨temp1, temp2⟩, .temp1, .temp2)
          let a ← copyBackLoop (st.1.get st.2.1) size a
          pure ⟨.SORT_SUCCESS, some a, [bytes, bytes], [.temp1, .temp2]⟩

/-! ## The test helper `isSorted` (`test_functions.c`, lines 350-368) -/

/-- The loop of `isSorted` over the indices it still has to visit: `false` at the first
descent, `true` when there is none, `none` on a read outside the array. -/
def isSortedLoop (arr : List Int) : List Nat → Option Bool
  | [] => some true
  | i :: rest =>
    match arr[i]?, arr[i + 1]? with
    | some a, some b => if a > b then some false else isSortedLoop arr rest
    | _, _ => none

/-- The function `isSorted(arr, size)`. -/
def isSorted (arr : List Int) (size : Nat) : Option Bool :=
  if size ≤ 1 then some true else isSortedLoop arr (List.range (size - 1))

/-! ## The same code on elements that carry a payload

The properties of `radixSort` that speak about *which* of two equal values comes first
(stability) need elements that can be told apart.  The definitions below are the loops above with
the element type left open: a working-buffer element is any `β` whose sort key is read by `key`,
an array element any `α`, and the two transforms of `radixSort` are parameters.  At `β = Nat`,
`key = id` they are the definitions above (`countingSortByByte_eq_keyed`, `radixSort_eq_keyed`).
-/

namespace Keyed

variable {α β : Type}

/-- Histogram loop body, see `RadixSort.countStep`. -/
def countStep (key : β → Nat) (arr : List β) (shift : Nat) (count : List Nat) (i : Nat) :
    Option (List Nat) := do
  let x ← arr[i]?
  let digit := (key x >>> shift) &&& 0xFF
  let c ← count[digit]?
  writeAt count digit ((c + 1) % SIZE_MODULUS)

/-- Histogram loop, see `RadixSort.countLoop`. -/
def countLoop (key : β → Nat) (arr : List β) (size shift : Nat) (count : List Nat) :
    Option (List Nat) :=
  (List.range size).foldlM (countStep key arr shift) count

/-- Placement loop body, see `RadixSort.placeStep`. -/
def placeStep (key : β → Nat) (arr : List β) (shift : Nat) (st : List Nat × List β) (i : Nat) :
    Option (List Nat × List β) := do
  let idx := i - 1
  let x ← arr[idx]?
  let digit := (key x >>> shift) &&& 0xFF
  let c ← st.1[digit]?
  let count ← writeAt st.1 digit ((c + SIZE_MODULUS - 1) % SIZE_MODULUS)
  let slot ← count[digit]?
  let output ← writeAt st.2 slot x
  pure (count, output)

/-- Placement loop, see `RadixSort.placeLoop`. -/
def placeLoop (key : β → Nat) (arr : List β) (size shift : Nat) (st : List Nat × List β) :
    Option (List Nat × List β) :=
  (List.range' 1 size).reverse.foldlM (placeStep key arr shift) st

/-- One counting-sort pass, see `RadixSort.countingSortByByte`. -/
def countingSortByByte (key : β → Nat) (arr : List β) (size : Nat) (output : List β)
    (byteIndex : Nat) : Option (List β) :=
  if byteIndex < NUM_PASSES then do
    let count := List.replicate RADIX_SIZE 0
    let shift := byteIndex * RADIX_BITS
    let count ← countLoop key arr size shift count
    let count ← cumulLoop count
    let st ← placeLoop key arr size shift (count, output)
    pure st.2
  else none

/-- Forward transform loop body, see `RadixSort.transformStep`. -/
def transformStep (fwd : α → β) (arr : List α) (temp1 : List β) (i : Nat) :
    Option (List β) := do
  let x ← arr[i]?
  writeAt temp1 i (fwd x)

/-- Forward transform loop, see `RadixSort.transformLoop`. -/
def transformLoop (fwd : α → β) (arr : List α) (size : Nat) (temp1 : List β) :
    Option (List β) :=
  (List.range size).foldlM (transformStep fwd arr) temp1

/-- Pass loop body, see `RadixSort.passStep`. -/
def passStep (key : β → Nat) (size : Nat) (st : Heap β × Buf × Buf) (pass : Nat) :
    Option (Heap β × Buf × Buf) := do
  let input := st.2.1
  let output := st.2.2
  let out ← countingSortByByte key (st.1.get input) size (st.1.get output) pass
  pure (st.1.put output out, output, input)

/-- Pass loop, see `RadixSort.passLoop`. -/
def passLoop (key : β → Nat) (size : Nat) (st : Heap β × Buf × Buf) :
    Option (Heap β × Buf × Buf) :=
  (List.range NUM_PASSES).foldlM (passStep key size) st

/-- Inverse transform loop body, see `RadixSort.copyBackStep`. -/
def copyBackStep (inv : β → α) (input : List β) (arr : List α) (i : Nat) :
    Option (List α) := do
  let u ← input[i]?
  writeAt arr i (inv u)

/-- Inverse transform loop, see `RadixSort.copyBackLoop`. -/
def copyBackLoop (inv : β → α) (input : List β) (size : Nat) (arr : List α) :
    Option (List α) :=
  (List.range size).foldlM (copyBackStep inv input) arr

/-- The sort with the element types and transforms left open, see `RadixSort.radixSort`. -/
def radixSort (fwd : α → β) (inv : β → α) (key : β → Nat) (al : Allocator β)
    (arr : Option (List α)) (size : Nat) : Option (Outcome α) :=
  match arr with
  | none => some ⟨.SORT_ERROR_NULL, none, [], []⟩
  | some a =>
    if size = 0 then some ⟨.SORT_ERROR_SIZE, some a, [], []⟩
    else if size = 1 then some ⟨.SORT_SUCCESS, some a, [], []⟩
    else
      let bytes := (size * SIZEOF_U32) % SIZE_MODULUS
      match malloc al 0 bytes with
      | none => some ⟨.SORT_ERROR_MEMORY, some a, [bytes], []⟩
      | some temp1 =>
        match malloc al 1 bytes with
        | none => some ⟨.SORT_ERROR_MEMORY, some a, [bytes, bytes], [.temp1]⟩
        | some temp2 => do
          let temp1 ← transformLoop fwd a size temp1
          let st ← passLoop key size (⟨temp1, temp2⟩, .temp1, .temp2)
          let a ← copyBackLoop inv (st.1.get st.2.1) size a
          pure ⟨.SORT_SUCCESS, some a, [bytes, bytes], [.temp1, .temp2]⟩

end Keyed

/-- The sort run on elements tagged with a payload of type `ι` (for instance the original index):
the value is transformed, sorted on and transformed back exactly as in `radixSort`, the tag is
carried along unchanged. -/
def radixSortTagged {ι : Type} (al : Allocator (Nat × ι)) (arr : Option (List (Int × ι)))
    (size : Nat) : Option (Outcome (Int × ι)) :=
  Keyed.radixSort (fun p => (forwardTransform p.1, p.2)) (fun q => (inverseTransform q.1, q.2))
    Prod.fst al arr size

/-! ## Functional description of one pass -/

/-- The digit of the word `x` selected by `shift`: `(x >> shift) & 0xFF`. -/
def digitAt (shift x : Nat) : Nat := (x >>> shift) &&& 0xFF

/-- What one counting-sort pass computes: for each digit value in increasing order, the
elements with that digit, in the order of the source. -/
def bucketPass {β : Type} (key : β → Nat) (shift : Nat) (l : List β) : List β :=
  (List.range RADIX_SIZE).flatMap (fun d => l.filter (fun x => digitAt shift (key x) == d))

/-- The four passes of `radixSort` in sequence. -/
def fourPasses {β : Type} (key : β → Nat) (l : List β) : List β :=
  bucketPass key (3 * RADIX_BITS) (bucketPass key (2 * RADIX_BITS)
    (bucketPass key (1 * RADIX_BITS) (bucketPass key (0 * RADIX_BITS) l)))

/-! ## Definitions used in the proofs and in the concrete runs -/

/-- The histogram of the digits of `l`, as the list the code holds in `count` after the
histogram loop. -/
def histogram {β : Type} (key : β → Nat) (shift : Nat) (l : List β) : List Nat :=
  (List.range RADIX_SIZE).map (fun d => l.countP (fun x => digitAt shift (key x) == d))

/-- The table the code holds in `count` after the cumulative-sum loop: entry `d` is the number
of elements whose digit is at most `d`. -/
def prefixTable {β : Type} (key : β → Nat) (shift : Nat) (l : List β) : List Nat :=
  (List.range RADIX_SIZE).map (fun d => l.countP (fun x => decide (digitAt shift (key x) ≤ d)))

/-- The content of `count` after the iterations `1..m` of the cumulative-sum loop. -/
def runningTable {β : Type} (key : β → Nat) (shift : Nat) (l : List β) (m : Nat) : List Nat :=
  (List.range RADIX_SIZE).map (fun d =>
    if d ≤ m then l.countP (fun x => decide (digitAt shift (key x) ≤ d))
    else l.countP (fun x => digitAt shift (key x) == d))

/-- The content of `count` once the placement loop has handled the source indices `k` and
above: entry `d` is the lowest destination slot already filled in the block of digit `d`. -/
def slotTable {β : Type} (key : β → Nat) (shift : Nat) (src : List β) (k : Nat) : List Nat :=
  (List.range RADIX_SIZE).map (fun d =>
    src.countP (fun x => decide (digitAt shift (key x) ≤ d))
      - (src.drop k).countP (fun x => digitAt shift (key x) == d))

/-- Loop invariant of the placement loop, when the source indices `k` and above have been
handled: the histogram is `slotTable`, the output keeps its length, and for every digit the
handled elements with that digit fill the top of the digit's block, in source order. -/
structure PlaceInv {β : Type} (key : β → Nat) (shift : Nat) (src : List β) (k : Nat)
    (st : List Nat × List β) : Prop where
  count_eq : st.1 = slotTable key shift src k
  length_eq : st.2.length = src.length
  placed : ∀ d, d < RADIX_SIZE →
    ∀ j, j < (src.drop k).countP (fun x => digitAt shift (key x) == d) →
      st.2[src.countP (fun x => decide (digitAt shift (key x) ≤ d))
          - (src.drop k).countP (fun x => digitAt shift (key x) == d) + j]?
        = ((src.drop k).filter (fun x => digitAt shift (key x) == d))[j]?

/-- An allocator that grants every request and hands out zeroed blocks. -/
def grantAll : Allocator Nat := ⟨fun _ _ => true, fun _ _ => 0⟩

/-- An allocator that refuses every request. -/
def refuseAll : Allocator Nat := ⟨fun _ _ => false, fun _ _ => 0⟩

/-- An allocator that grants the first request only. -/
def grantFirst : Allocator Nat := ⟨fun call _ => call == 0, fun _ _ => 0⟩

/-- The array with every element paired with its index. -/
def tagWithIndex (arr : List Int) : List (Int × Nat) := arr.zip (List.range arr.length)

/-- An allocator for tagged elements that grants every request. -/
def grantAllTagged : Allocator (Nat × Nat) := ⟨fun _ _ => true, fun _ _ => (0, 0)⟩

/-! ## `getSortResultString` (lines 186-201) -/

/-- The function `getSortResultString(result)`.  The argument is the integer value held by the
`SortResult` object, which in C need not be one of the four enumerators; the `switch` compares
it with each enumerator in turn and falls to `default` otherwise. -/
def getSortResultString (result : Int) : String :=
  if result = SortResult.SORT_SUCCESS.code then "Uspešno sortiranje"
  else if result = SortResult.SORT_ERROR_NULL.code then "Greška: NULL pokazivač"
  else if result = SortResult.SORT_ERROR_SIZE.code then "Greška: Veličina niza je 0"
  else if result = SortResult.SORT_ERROR_MEMORY.code then "Greška: Neuspela alokacija memorije"
  else "Nepoznata greška"

/-- An allocator with `capacity` bytes available: a request succeeds exactly when it asks for
no more than that. -/
def boundedAllocator (capacity : Nat) : Allocator Nat :=
  ⟨fun _ bytes => decide (bytes ≤ capacity), fun _ _ => 0⟩

/-- The first `m` passes in sequence, on the byte planes `0, .., m - 1`, as `bucketPass`es. -/
def lsdPasses {β : Type} (key : β → Nat) : Nat → List β → List β
  | 0, l => l
  | m + 1, l => bucketPass key (m * RADIX_BITS) (lsdPasses key m l)

/-- A buffer of words with every element paired with its index. -/
def withIndex (l : List Nat) : List (Nat × Nat) := l.zip (List.range l.length)

/-! ## Operation counts

The loops of `radixSort` and `countingSortByByte` run again with a tally of what each
iteration of each loop body does: reads of array elements, writes of array elements, updates
of a histogram counter, and calls of `countingSortByByte`. -/

/-- A tally of operations. -/
structure Cost where
  passes : Nat
  elementReads : Nat
  elementWrites : Nat
  counterUpdates : Nat
  deriving DecidableEq, Repr

/-- The empty tally. -/
def Cost.zero : Cost := ⟨0, 0, 0, 0⟩

/-- The sum of two tallies. -/
def Cost.add (a b : Cost) : Cost :=
  ⟨a.passes + b.passes, a.elementReads + b.elementReads, a.elementWrites + b.elementWrites,
    a.counterUpdates + b.counterUpdates⟩

/-- The tally of `n` repetitions. -/
def Cost.scale (n : Nat) (c : Cost) : Cost :=
  ⟨n * c.passes, n * c.elementReads, n * c.elementWrites, n * c.counterUpdates⟩

/-- A loop body together with the tally of one iteration: when the body returns, its
operations are added to the running tally. -/
def counted {σ : Type} (body : σ → Nat → Option σ) (c : Cost) (st : σ × Cost) (i : Nat) :
    Option (σ × Cost) :=
  (body st.1 i).map (fun s => (s, st.2.add c))

/-- The function `countingSortByByte` with its tally.  Per iteration: the histogram loop reads
`arr[i]` and updates one counter (lines 54-55); the cumulative-sum loop updates one counter
(line 61); the placement loop reads `arr[idx]` twice, updates one counter and writes one
element of `output` (lines 68-70). -/
def countingSortByByteCounted (arr : List Nat) (size : Nat) (output : List Nat)
    (byteIndex : Nat) : Option (List Nat × Cost) :=
  if byteIndex < NUM_PASSES then do
    let count := List.replicate RADIX_SIZE 0
    let shift := byteIndex * RADIX_BITS
    let s1 ← (List.range size).foldlM (counted (countStep arr shift) ⟨0, 1, 0, 1⟩)
      (count, Cost.zero)
    let s2 ← (List.range' 1 (RADIX_SIZE - 1)).foldlM (counted cumulStep ⟨0, 0, 0, 1⟩) s1
    let s3 ← (List.range' 1 size).reverse.foldlM (counted (placeStep arr shift) ⟨0, 2, 1, 1⟩)
      ((s2.1, output), s2.2)
    pure (s3.1.2, s3.2)
  else none

/-- The body of the pass loop with its tally: the tally of the call of `countingSortByByte`
and one pass. -/
def passStepCounted (size : Nat) (st : (Heap Nat × Buf × Buf) × Cost) (pass : Nat) :
    Option ((Heap Nat × Buf × Buf) × Cost) := do
  let input := st.1.2.1
  let output := st.1.2.2
  let r ← countingSortByByteCounted (st.1.1.get input) size (st.1.1.get output) pass
  pure ((st.1.1.put output r.1, output, input), (st.2.add r.2).add ⟨1, 0, 0, 0⟩)

/-- The function `radixSort` with its tally.  Each iteration of the two transform loops reads
one element and writes one (lines 150 and 171); the paths that return before the loops do no
counted work. -/
def radixSortCounted (al : Allocator Nat) (arr : Option (List Int)) (size : Nat) :
    Option (Outcome Int × Cost) :=
  match arr with
  | none => some (⟨.SORT_ERROR_NULL, none, [], []⟩, Cost.zero)
  | some a =>
    if size = 0 then some (⟨.SORT_ERROR_SIZE, some a, [], []⟩, Cost.zero)
    else if size = 1 then some (⟨.SORT_SUCCESS, some a, [], []⟩, Cost.zero)
    else
      let bytes := (size * SIZEOF_U32) % SIZE_MODULUS
      match malloc al 0 bytes with
      | none => some (⟨.SORT_ERROR_MEMORY, some a, [bytes], []⟩, Cost.zero)
      | some temp1 =>
        match malloc al 1 bytes with
        | none => some (⟨.SORT_ERROR_MEMORY, some a, [bytes, bytes], [.temp1]⟩, Cost.zero)
        | some temp2 => do
          let t ← (List.range size).foldlM (counted (transformStep a) ⟨0, 1, 1, 0⟩)
            (temp1, Cost.zero)
          let p ← (List.range NUM_PASSES).foldlM (passStepCounted size)
            ((⟨t.1, temp2⟩, .temp1, .temp2), t.2)
          let c ← (List.range size).foldlM
            (counted (copyBackStep (p.1.1.get p.1.2.1)) ⟨0, 1, 1, 0⟩) (a, p.2)
          pure (⟨.SORT_SUCCESS, some c.1, [bytes, bytes], [.temp1, .temp2]⟩, c.2)

/-- The tally of one call of `countingSortByByte` on `size` elements. -/
def passCost (size : Nat) : Cost := ⟨0, 3 * size, size, 2 * size + 255⟩

/-- The tally of a call of `radixSort` that runs the loops on `size` elements. -/
def sortCost (size : Nat) : Cost := ⟨4, 14 * size, 6 * size, 8 * size + 1020⟩

/-! ## The placement loop with a record of its writes -/

/-- What one iteration of the placement loop did: the source index `idx` it handled, the digit
of `arr[idx]`, the value of `count[digit]` before the decrement, its value after the decrement,
which is the destination index `slot` of the write, and the value written. -/
structure Placement where
  idx : Nat
  digit : Nat
  before : Nat
  slot : Nat
  value : Nat
  deriving DecidableEq, Repr

/-- Body of the placement loop (lines 65-71) as `placeStep`, appending the record of the
iteration to the records so far. -/
def placeStepTraced (arr : List Nat) (shift : Nat)
    (st : (List Nat × List Nat) × List Placement) (i : Nat) :
    Option ((List Nat × List Nat) × List Placement) := do
  let idx := i - 1
  let x ← arr[idx]?
  let digit := (x >>> shift) &&& 0xFF
  let c ← st.1.1[digit]?
  let count ← writeAt st.1.1 digit ((c + SIZE_MODULUS - 1) % SIZE_MODULUS)
  let slot ← count[digit]?
  let output ← writeAt st.1.2 slot x
  pure ((count, output), st.2 ++ [⟨idx, digit, c, slot, x⟩])

/-- The placement loop with the records of its iterations, in the order they ran. -/
def placeLoopTraced (arr : List Nat) (size shift : Nat)
    (st : (List Nat × List Nat) × List Placement) :
    Option ((List Nat × List Nat) × List Placement) :=
  (List.range' 1 size).reverse.foldlM (placeStepTraced arr shift) st

/-- The function `countingSortByByte` with the records of its placement loop. -/
def countingSortByByteTraced (arr : List Nat) (size : Nat) (output : List Nat)
    (byteIndex : Nat) : Option (List Nat × List Placement) :=
  if byteIndex < NUM_PASSES then do
    let count := List.replicate RADIX_SIZE 0
    let shift := byteIndex * RADIX_BITS
    let count ← countLoop arr size shift count
    let count ← cumulLoop count
    let st ← placeLoopTraced arr size shift ((count, output), [])
    pure (st.1.2, st.2)
  else none

/-- The record of the iteration that handles source index `k`, in closed form: with `d` the
digit of `src[k]`, `count[d]` is, before the decrement, the number of elements with digit at
most `d` less the number of elements with digit `d` at the indices above `k`. -/
def placementAt (src : List Nat) (shift k : Nat) : Placement :=
  ⟨k, digitAt shift (src.getD k 0),
    src.countP (fun y => decide (digitAt shift y ≤ digitAt shift (src.getD k 0)))
      - (src.drop (k + 1)).countP (fun y => digitAt shift y == digitAt shift (src.getD k 0)),
    src.countP (fun y => decide (digitAt shift y ≤ digitAt shift (src.getD k 0)))
      - (src.drop (k + 1)).countP (fun y => digitAt shift y == digitAt shift (src.getD k 0))
      - 1,
    src.getD k 0⟩

/-! ## The keyed definitions at `key = id` are the code -/

theorem countingSortByByte_eq_keyed (arr : List Nat) (size : Nat) (output : List Nat)
    (byteIndex : Nat) :
    countingSortByByte arr size output byteIndex
      = Keyed.countingSortByByte id arr size output byteIndex := rfl

theorem transformLoop_eq_keyed (arr : List Int) (size : Nat) (temp1 : List Nat) :
    transformLoop arr size temp1 = Keyed.transformLoop forwardTransform arr size temp1 := rfl

theorem passLoop_eq_keyed (size : Nat) (st : Heap Nat × Buf × Buf) :
    passLoop size st = Keyed.passLoop id size st := rfl

theorem copyBackLoop_eq_keyed (input : List Nat) (size : Nat) (arr : List Int) :
    copyBackLoop input size arr = Keyed.copyBackLoop inverseTransform input size arr := rfl

theorem radixSort_eq_keyed (al : Allocator Nat) (arr : Option (List Int)) (size : Nat) :
    radixSort al arr size
      = Keyed.radixSort forwardTransform inverseTransform id al arr size := by
  unfold radixSort Keyed.radixSort
  simp only [transformLoop_eq_keyed, passLoop_eq_keyed, copyBackLoop_eq_keyed]
  cases arr with
  | none => rfl
  | some a =>
    simp only
    split_ifs
    · rfl
    · rfl
    · cases malloc al 0 (size * SIZEOF_U32 % SIZE_MODULUS) with
      | none => rfl
      | some temp1 =>
        cases malloc al 1 (size * SIZEOF_U32 % SIZE_MODULUS) with
        | none => rfl
        | some temp2 => rfl

/-! ## The key transform -/

theorem xor_msb_of_lt (w : Nat) (h : w < 2147483648) : w ^^^ 0x80000000 = 2147483648 + w := by
  have h31 : (2147483648 : Nat) = 2 ^ 31 := by norm_num
  rw [h31]
  rw [h31] at h
  apply Nat.eq_of_testBit_eq
  intro i
  rw [Nat.testBit_xor, Nat.testBit_two_pow]
  rcases Nat.lt_trichotomy i 31 with hi | hi | hi
  · rw [Nat.testBit_two_pow_add_gt hi]
    have : ¬ (31 = i) := by omega
    simp [this]
  · subst hi
    rw [Nat.testBit_two_pow_add_eq, Nat.testBit_lt_two_pow h]
    simp
  · have hw : w < 2 ^ i := lt_of_lt_of_le h (Nat.pow_le_pow_right (by norm_num) (le_of_lt hi))
    have hs : 2 ^ 31 + w < 2 ^ i := by
      have : 2 ^ 32 ≤ 2 ^ i := Nat.pow_le_pow_right (by norm_num) hi
      omega
    rw [Nat.testBit_lt_two_pow hw, Nat.testBit_lt_two_pow hs]
    have : ¬ (31 = i) := by omega
    simp [this]

theorem xor_msb_of_ge (u : Nat) (h : 2147483648 ≤ u) (h2 : u < 4294967296) :
    u ^^^ 0x80000000 = u - 2147483648 := by
  have hw : u - 2147483648 < 2147483648 := by omega
  have e := xor_msb_of_lt (u - 2147483648) hw
  have e2 : 2147483648 + (u - 2147483648) = u := by omega
  rw [e2] at e
  have c := Nat.xor_cancel_right 2147483648 (u - 2147483648)
  rw [e] at c
  exact c

/-- Arithmetic form of the forward transform on `int32_t` values. -/
theorem forwardTransform_eq (x : Int) (hx : isInt32 x) :
    (forwardTransform x : Int) = x + 2147483648 := by
  obtain ⟨h1, h2⟩ := hx
  unfold forwardTransform toUInt32
  by_cases hneg : x < 0
  · have e : x % 4294967296 = x + 4294967296 := by omega
    have e2 : (x % 4294967296).toNat = (x + 4294967296).toNat := by rw [e]
    rw [e2, xor_msb_of_ge _ (by omega) (by omega)]
    omega
  · have e : x % 4294967296 = x := by omega
    rw [e, xor_msb_of_lt _ (by omega)]
    omega

theorem forwardTransform_lt (x : Int) : forwardTransform x < 4294967296 := by
  unfold forwardTransform toUInt32
  have h1 : (x % 4294967296).toNat < 2 ^ 32 := by omega
  have h2 : (0x80000000 : Nat) < 2 ^ 32 := by norm_num
  have := Nat.xor_lt_two_pow h1 h2
  omega

/-- Arithmetic form of the inverse transform on `uint32_t` words. -/
theorem inverseTransform_eq (u : Nat) (hu : u < 4294967296) :
    inverseTransform u = (u : Int) - 2147483648 := by
  unfold inverseTransform toInt32 U32_MODULUS
  by_cases h : u < 2147483648
  · rw [xor_msb_of_lt u h]
    have : (2147483648 + u) % 2 ^ 32 = 2147483648 + u := by omega
    rw [this]
    rw [if_neg (by omega)]
    omega
  · rw [xor_msb_of_ge u (by omega) hu]
    have : (u - 2147483648) % 2 ^ 32 = u - 2147483648 := by omega
    rw [this, if_pos (by omega)]
    omega

theorem inverseTransform_isInt32 (u : Nat) (hu : u < 4294967296) : isInt32 (inverseTransform u) := by
  rw [inverseTransform_eq u hu]; unfold isInt32; omega

theorem inverse_forward (x : Int) (hx : isInt32 x) : inverseTransform (forwardTransform x) = x := by
  rw [inverseTransform_eq _ (forwardTransform_lt x), forwardTransform_eq x hx]; omega

theorem forward_inverse (u : Nat) (hu : u < 4294967296) :
    forwardTransform (inverseTransform u) = u := by
  have h := forwardTransform_eq _ (inverseTransform_isInt32 u hu)
  have k := inverseTransform_eq u hu
  omega

/-! ## Loops that copy one array into another through a function -/

theorem writeAt_eq_some {β : Type} {buf : List β} {i : Nat} (v : β) (h : i < buf.length) :
    writeAt buf i v = some (buf.set i v) := by
  unfold writeAt; rw [if_pos h]

theorem writeAt_some_iff {β : Type} {buf r : List β} {i : Nat} {v : β} :
    writeAt buf i v = some r ↔ i < buf.length ∧ r = buf.set i v := by
  unfold writeAt
  split_ifs with h
  · simp [h, eq_comm]
  · simp [h]

/-- A loop `for (i = 0; i < n; i++) dst[i] = g(src[i])` with both blocks long enough writes the
images of the first `n` source elements and leaves the rest of `dst` alone. -/
theorem copyLoop_eq {α β : Type} (g : α → β) (src : List α) (n : Nat) (dst : List β)
    (hs : n ≤ src.length) (hd : n ≤ dst.length) :
    (List.range n).foldlM (fun t i => (src[i]?).bind (fun x => writeAt t i (g x))) dst
      = some ((src.take n).map g ++ dst.drop n) := by
  induction n with
  | zero => simp
  | succ n ih =>
    rw [List.range_succ, List.foldlM_append, ih (by omega) (by omega)]
    have hn : n < src.length := by omega
    simp only [Option.some_bind, List.foldlM_cons, List.foldlM_nil, Option.bind_eq_bind,
      Option.pure_def, List.getElem?_eq_getElem hn, Option.bind_some]
    rw [writeAt_eq_some _ (by simp; omega)]
    congr 1
    apply List.ext_getElem?
    intro j
    simp only [List.getElem?_set, List.length_append, List.length_map, List.length_take,
      List.length_drop, List.getElem?_append, List.getElem?_map, List.getElem?_take,
      List.getElem?_drop]
    rcases Nat.lt_trichotomy j n with hj | hj | hj
    · have h1 : ¬ n = j := by omega
      have h2 : j < n + 1 := by omega
      have h3 : j < min n src.length := by omega
      have h4 : j < min (n + 1) src.length := by omega
      simp [h1, h2, h3, h4, hj]
    · subst hj
      have h3 : ¬ j < min j src.length := by omega
      have h4 : j < min (j + 1) src.length := by omega
      have h5 : j < min j src.length + (dst.length - j) := by omega
      simp [h3, h4, h5, List.getElem?_eq_getElem hn]
    · have h1 : ¬ n = j := by omega
      have h2 : ¬ j < n + 1 := by omega
      have h3 : ¬ j < min n src.length := by omega
      have h4 : ¬ j < min (n + 1) src.length := by omega
      have e1 : min n src.length = n := by omega
      have e2 : min (n + 1) src.length = n + 1 := by omega
      simp only [h1, if_false, e1, e2]
      rw [if_neg (by omega), if_neg (by omega)]
      congr 1
      omega

/-- Such a loop only returns when both blocks have at least `n` elements. -/
theorem copyLoop_some {α β : Type} (g : α → β) (src : List α) (n : Nat) (dst r : List β)
    (h : (List.range n).foldlM (fun t i => (src[i]?).bind (fun x => writeAt t i (g x))) dst
      = some r) : n ≤ src.length ∧ n ≤ dst.length := by
  induction n generalizing r with
  | zero => simp
  | succ n ih =>
    rw [List.range_succ, List.foldlM_append] at h
    simp only [Option.bind_eq_bind, Option.bind_eq_some] at h
    obtain ⟨r1, h1, h2⟩ := h
    obtain ⟨hs, hd⟩ := ih r1 h1
    rw [copyLoop_eq g src n dst hs hd] at h1
    simp only [List.foldlM_cons, List.foldlM_nil, Option.bind_eq_bind, Option.pure_def,
      Option.bind_eq_some] at h2
    obtain ⟨r2, ⟨x, hx, hw⟩, _⟩ := h2
    rw [writeAt_some_iff] at hw
    have hl : r1.length = dst.length := by
      have := congrArg List.length (Option.some.inj h1).symm
      simp at this
      omega
    have := (List.getElem?_eq_some_iff.mp hx).1
    omega

/-! ## The histogram loop -/

theorem digitAt_lt (shift x : Nat) : digitAt shift x < RADIX_SIZE := by
  unfold digitAt RADIX_SIZE
  have h : (0xFF : Nat) < 2 ^ 8 := by norm_num
  have := Nat.and_lt_two_pow (x >>> shift) h
  omega

theorem histogram_length {β : Type} (key : β → Nat) (shift : Nat) (l : List β) :
    (histogram key shift l).length = RADIX_SIZE := by
  simp [histogram]

theorem histogram_getElem? {β : Type} (key : β → Nat) (shift : Nat) (l : List β) (d : Nat)
    (hd : d < RADIX_SIZE) :
    (histogram key shift l)[d]? = some (l.countP (fun x => digitAt shift (key x) == d)) := by
  simp [histogram, List.getElem?_range hd]

theorem histogram_nil {β : Type} (key : β → Nat) (shift : Nat) :
    histogram key shift ([] : List β) = List.replicate RADIX_SIZE 0 := by
  apply List.ext_getElem?
  intro j
  by_cases hj : j < RADIX_SIZE
  · rw [histogram_getElem? key shift [] j hj]
    simp [List.getElem?_replicate, hj]
  · rw [List.getElem?_eq_none (by rw [histogram_length]; omega),
      List.getElem?_eq_none (by simp; omega)]

theorem histogram_concat {β : Type} (key : β → Nat) (shift : Nat) (l : List β) (x : β) :
    histogram key shift (l ++ [x])
      = (histogram key shift l).set (digitAt shift (key x))
          (l.countP (fun y => digitAt shift (key y) == digitAt shift (key x)) + 1) := by
  apply List.ext_getElem?
  intro j
  rw [List.getElem?_set]
  by_cases hj : j < RADIX_SIZE
  · rw [histogram_getElem? key shift _ j hj, histogram_getElem? key shift _ j hj,
      histogram_length]
    by_cases hd : digitAt shift (key x) = j
    · subst hd
      simp [List.countP_append, List.countP_cons, hj]
    · have : ¬ j = digitAt shift (key x) := fun h => hd h.symm
      simp [List.countP_append, List.countP_cons, hd]
  · rw [List.getElem?_eq_none (by rw [histogram_length]; omega),
      List.getElem?_eq_none (by rw [histogram_length]; omega)]
    have := digitAt_lt shift (key x)
    have : ¬ digitAt shift (key x) = j := by omega
    simp [this]

theorem keyed_countLoop_eq {β : Type} (key : β → Nat) (arr : List β) (size shift : Nat)
    (hs : size ≤ arr.length) (hlt : size < SIZE_MODULUS) :
    Keyed.countLoop key arr size shift (List.replicate RADIX_SIZE 0)
      = some (histogram key shift (arr.take size)) := by
  unfold Keyed.countLoop
  induction size with
  | zero => simp [histogram_nil]
  | succ n ih =>
    have hn : n < arr.length := by omega
    rw [List.range_succ, List.foldlM_append, ih (by omega) (by omega)]
    simp only [Option.bind_eq_bind, Option.some_bind, List.foldlM_cons, List.foldlM_nil,
      Option.pure_def, Keyed.countStep, List.getElem?_eq_getElem hn]
    have hd := digitAt_lt shift (key arr[n])
    unfold digitAt at hd
    rw [histogram_getElem? key shift _ _ hd]
    simp only [Option.some_bind]
    have hc : (List.take n arr).countP
        (fun x => digitAt shift (key x) == (key arr[n] >>> shift) &&& 0xFF) ≤ n := by
      refine le_trans (List.countP_le_length _) ?_
      simp
    rw [Nat.mod_eq_of_lt (by omega)]
    rw [writeAt_eq_some _ (by rw [histogram_length]; exact hd)]
    simp only [Option.bind_some]
    rw [List.take_succ, List.getElem?_eq_getElem hn]
    simp only [Option.toList_some]
    rw [histogram_concat]
    rfl

/-! ## The cumulative-sum loop -/

theorem countP_le_succ {β : Type} (f : β → Nat) (l : List β) (d : Nat) :
    l.countP (fun x => decide (f x ≤ d + 1))
      = l.countP (fun x => decide (f x ≤ d)) + l.countP (fun x => f x == d + 1) := by
  induction l with
  | nil => simp
  | cons a t ih =>
    simp only [List.countP_cons, ih]
    by_cases h1 : f a ≤ d
    · have h2 : f a ≤ d + 1 := by omega
      have h3 : ¬ f a = d + 1 := by omega
      simp [h1, h2, h3]
      omega
    · by_cases h3 : f a = d + 1
      · have h2 : f a ≤ d + 1 := by omega
        simp [h1, h2, h3]
        omega
      · have h2 : ¬ f a ≤ d + 1 := by omega
        simp [h1, h2, h3]

theorem countP_le_zero {β : Type} (f : β → Nat) (l : List β) :
    l.countP (fun x => decide (f x ≤ 0)) = l.countP (fun x => f x == 0) := by
  congr 1
  funext x
  by_cases h : f x = 0 <;> simp [h]

theorem prefixTable_length {β : Type} (key : β → Nat) (shift : Nat) (l : List β) :
    (prefixTable key shift l).length = RADIX_SIZE := by
  simp [prefixTable]

theorem prefixTable_getElem? {β : Type} (key : β → Nat) (shift : Nat) (l : List β) (d : Nat)
    (hd : d < RADIX_SIZE) :
    (prefixTable key shift l)[d]?
      = some (l.countP (fun x => decide (digitAt shift (key x) ≤ d))) := by
  simp [prefixTable, List.getElem?_range hd]

theorem runningTable_length {β : Type} (key : β → Nat) (shift : Nat) (l : List β) (m : Nat) :
    (runningTable key shift l m).length = RADIX_SIZE := by
  simp [runningTable]

theorem runningTable_getElem? {β : Type} (key : β → Nat) (shift : Nat) (l : List β)
    (m d : Nat) (hd : d < RADIX_SIZE) :
    (runningTable key shift l m)[d]?
      = some (if d ≤ m then l.countP (fun x => decide (digitAt shift (key x) ≤ d))
          else l.countP (fun x => digitAt shift (key x) == d)) := by
  simp [runningTable, List.getElem?_range hd]

theorem runningTable_zero {β : Type} (key : β → Nat) (shift : Nat) (l : List β) :
    runningTable key shift l 0 = histogram key shift l := by
  apply List.ext_getElem?
  intro j
  by_cases hj : j < RADIX_SIZE
  · rw [runningTable_getElem? key shift l 0 j hj, histogram_getElem? key shift l j hj]
    by_cases h0 : j = 0
    · subst h0
      rw [if_pos (le_refl 0), countP_le_zero]
    · have : ¬ j ≤ 0 := by omega
      simp [this]
  · rw [List.getElem?_eq_none (by rw [runningTable_length]; omega),
      List.getElem?_eq_none (by rw [histogram_length]; omega)]

theorem runningTable_last {β : Type} (key : β → Nat) (shift : Nat) (l : List β) :
    runningTable key shift l (RADIX_SIZE - 1) = prefixTable key shift l := by
  apply List.ext_getElem?
  intro j
  by_cases hj : j < RADIX_SIZE
  · rw [runningTable_getElem? key shift l _ j hj, prefixTable_getElem? key shift l j hj]
    have : j ≤ RADIX_SIZE - 1 := by omega
    simp [this]
  · rw [List.getElem?_eq_none (by rw [runningTable_length]; omega),
      List.getElem?_eq_none (by rw [prefixTable_length]; omega)]

theorem runningTable_succ {β : Type} (key : β → Nat) (shift : Nat) (l : List β) (m : Nat) :
    runningTable key shift l (m + 1)
      = (runningTable key shift l m).set (m + 1)
          (l.countP (fun x => digitAt shift (key x) == m + 1)
            + l.countP (fun x => decide (digitAt shift (key x) ≤ m))) := by
  apply List.ext_getElem?
  intro j
  rw [List.getElem?_set, runningTable_length]
  by_cases hj : j < RADIX_SIZE
  · rw [runningTable_getElem? key shift l _ j hj, runningTable_getElem? key shift l _ j hj]
    by_cases h1 : m + 1 = j
    · subst h1
      simp [hj, countP_le_succ]
      omega
    · by_cases h2 : j ≤ m
      · have : j ≤ m + 1 := by omega
        simp [h1, h2, this]
      · have : ¬ j ≤ m + 1 := by omega
        simp [h1, h2, this]
  · rw [List.getElem?_eq_none (by rw [runningTable_length]; omega),
      List.getElem?_eq_none (by rw [runningTable_length]; omega)]
    by_cases h1 : m + 1 = j
    · subst h1
      rw [if_pos rfl, if_neg hj]
    · rw [if_neg h1]

theorem cumulLoop_upTo {β : Type} (key : β → Nat) (shift : Nat) (l : List β)
    (hlt : l.length < SIZE_MODULUS) (m : Nat) (hm : m < RADIX_SIZE) :
    (List.range' 1 m).foldlM cumulStep (histogram key shift l)
      = some (runningTable key shift l m) := by
  induction m with
  | zero => simp [runningTable_zero]
  | succ m ih =>
    rw [List.range'_concat, List.foldlM_append, ih (by omega)]
    have e : 1 + 1 * m = m + 1 := by omega
    simp only [e, Option.bind_eq_bind, Option.some_bind, List.foldlM_cons, List.foldlM_nil,
      Option.pure_def, cumulStep, Nat.add_sub_cancel]
    rw [runningTable_getElem? key shift l m (m + 1) hm,
      runningTable_getElem? key shift l m m (by omega)]
    simp only [Option.some_bind, le_refl, if_true]
    rw [if_neg (by omega)]
    have hb : l.countP (fun x => digitAt shift (key x) == m + 1)
        + l.countP (fun x => decide (digitAt shift (key x) ≤ m)) ≤ l.length := by
      have := countP_le_succ (fun x => digitAt shift (key x)) l m
      have := List.countP_le_length (fun x => decide (digitAt shift (key x) ≤ m + 1)) (l := l)
      omega
    rw [Nat.mod_eq_of_lt (by omega), writeAt_eq_some _ (by rw [runningTable_length]; exact hm)]
    simp only [Option.bind_some]
    rw [runningTable_succ]

theorem cumulLoop_eq {β : Type} (key : β → Nat) (shift : Nat) (l : List β)
    (hlt : l.length < SIZE_MODULUS) :
    cumulLoop (histogram key shift l) = some (prefixTable key shift l) := by
  unfold cumulLoop
  rw [cumulLoop_upTo key shift l hlt (RADIX_SIZE - 1) (by unfold RADIX_SIZE; omega),
    runningTable_last]

/-! ## The placement loop -/

theorem slotTable_length {β : Type} (key : β → Nat) (shift : Nat) (src : List β) (k : Nat) :
    (slotTable key shift src k).length = RADIX_SIZE := by
  simp [slotTable]

theorem slotTable_getElem? {β : Type} (key : β → Nat) (shift : Nat) (src : List β)
    (k d : Nat) (hd : d < RADIX_SIZE) :
    (slotTable key shift src k)[d]?
      = some (src.countP (fun x => decide (digitAt shift (key x) ≤ d))
          - (src.drop k).countP (fun x => digitAt shift (key x) == d)) := by
  simp [slotTable, List.getElem?_range hd]

theorem slotTable_at_length {β : Type} (key : β → Nat) (shift : Nat) (src : List β) :
    slotTable key shift src src.length = prefixTable key shift src := by
  simp [slotTable, prefixTable]

theorem countP_drop_le {β : Type} (p : β → Bool) (l : List β) (k : Nat) :
    (l.drop k).countP p ≤ l.countP p :=
  (List.drop_sublist k l).countP_le p

theorem countP_eq_le_countP_le {β : Type} (f : β → Nat) (l : List β) (d : Nat) :
    l.countP (fun x => f x == d) ≤ l.countP (fun x => decide (f x ≤ d)) := by
  apply List.countP_mono_left
  intro x _ hx
  simp only [beq_iff_eq] at hx
  simp [hx]

theorem countP_le_add_eq_le {β : Type} (f : β → Nat) (l : List β) (e d : Nat) (h : e < d) :
    l.countP (fun x => decide (f x ≤ e)) + l.countP (fun x => f x == d)
      ≤ l.countP (fun x => decide (f x ≤ d)) := by
  induction l with
  | nil => simp
  | cons a t ih =>
    simp only [List.countP_cons]
    by_cases h1 : f a ≤ e
    · have h2 : f a ≤ d := by omega
      have h3 : ¬ f a = d := by omega
      simp [h1, h2, h3]
      omega
    · by_cases h3 : f a = d
      · subst h3
        simp [h1]
        omega
      · by_cases h2 : f a ≤ d
        · simp [h1, h2, h3]
          omega
        · simp [h1, h2, h3]
          omega

theorem slotTable_step {β : Type} (key : β → Nat) (shift : Nat) (src : List β) (k : Nat)
    (hk : k < src.length) :
    slotTable key shift src k
      = (slotTable key shift src (k + 1)).set (digitAt shift (key src[k]))
          (src.countP (fun x => decide (digitAt shift (key x) ≤ digitAt shift (key src[k])))
            - (src.drop (k + 1)).countP
                (fun x => digitAt shift (key x) == digitAt shift (key src[k])) - 1) := by
  apply List.ext_getElem?
  intro j
  rw [List.getElem?_set, slotTable_length]
  have hdrop : src.drop k = src[k] :: src.drop (k + 1) := List.drop_eq_getElem_cons hk
  by_cases hj : j < RADIX_SIZE
  · rw [slotTable_getElem? key shift src _ j hj, slotTable_getElem? key shift src _ j hj]
    by_cases h1 : digitAt shift (key src[k]) = j
    · rw [if_pos h1, if_pos (by rw [h1]; exact hj), hdrop, List.countP_cons]
      simp only [h1, beq_self_eq_true, if_true]
      congr 1
    · rw [if_neg h1, hdrop, List.countP_cons]
      have : ¬ (digitAt shift (key src[k]) == j) = true := by simpa using h1
      simp [this]
  · rw [List.getElem?_eq_none (by rw [slotTable_length]; omega),
      List.getElem?_eq_none (by rw [slotTable_length]; omega)]
    have := digitAt_lt shift (key src[k])
    rw [if_neg (by omega)]

theorem keyed_placeStep_inv {β : Type} (key : β → Nat) (shift : Nat) (src : List β) (k : Nat)
    (hk : k < src.length) (hlt : src.length < SIZE_MODULUS) (st : List Nat × List β)
    (inv : PlaceInv key shift src (k + 1) st) :
    ∃ st', Keyed.placeStep key src shift st (k + 1) = some st'
      ∧ PlaceInv key shift src k st' := by
  obtain ⟨cnt, out⟩ := st
  obtain ⟨hc, hl, hp⟩ := inv
  simp only at hc hl hp
  subst hc
  have hdrop : src.drop k = src[k] :: src.drop (k + 1) := List.drop_eq_getElem_cons hk
  have he := digitAt_lt shift (key src[k])
  -- the counts for the digit of the element being placed
  have c1 := countP_drop_le (fun x => digitAt shift (key x) == digitAt shift (key src[k])) src k
  have c2 := countP_eq_le_countP_le (fun x => digitAt shift (key x)) src
    (digitAt shift (key src[k]))
  have c3 := List.countP_le_length
    (fun x => decide (digitAt shift (key x) ≤ digitAt shift (key src[k]))) (l := src)
  rw [hdrop, List.countP_cons] at c1
  simp only [beq_self_eq_true, if_true] at c1
  refine ⟨(slotTable key shift src k, out.set
    (src.countP (fun x => decide (digitAt shift (key x) ≤ digitAt shift (key src[k])))
      - (src.drop (k + 1)).countP
          (fun x => digitAt shift (key x) == digitAt shift (key src[k])) - 1) src[k]), ?_, ?_⟩
  · unfold Keyed.placeStep
    simp only [Nat.add_sub_cancel, List.getElem?_eq_getElem hk, Option.bind_eq_bind,
      Option.some_bind, Option.pure_def]
    have he' := he
    unfold digitAt at he'
    rw [show (key src[k] >>> shift) &&& 0xFF = digitAt shift (key src[k]) from rfl]
    rw [slotTable_getElem? key shift src (k + 1) _ he]
    simp only [Option.some_bind]
    have hm : (src.countP (fun x => decide (digitAt shift (key x) ≤ digitAt shift (key src[k])))
        - (src.drop (k + 1)).countP
            (fun x => digitAt shift (key x) == digitAt shift (key src[k]))
        + SIZE_MODULUS - 1) % SIZE_MODULUS
        = src.countP (fun x => decide (digitAt shift (key x) ≤ digitAt shift (key src[k])))
        - (src.drop (k + 1)).countP
            (fun x => digitAt shift (key x) == digitAt shift (key src[k])) - 1 := by
      have e : ∀ a m : Nat, 1 ≤ a → a < m → (a + m - 1) % m = a - 1 := by
        intro a m h1 h2
        have : a + m - 1 = (a - 1) + m := by omega
        rw [this, Nat.add_mod_right, Nat.mod_eq_of_lt (by omega)]
      exact e _ _ (by omega) (by omega)
    rw [hm, writeAt_eq_some _ (by rw [slotTable_length]; exact he)]
    simp only [Option.some_bind]
    rw [← slotTable_step key shift src k hk, slotTable_getElem? key shift src k _ he]
    simp only [Option.some_bind]
    rw [hdrop, List.countP_cons]
    simp only [beq_self_eq_true, if_true]
    rw [Nat.sub_add_eq, writeAt_eq_some _ (by omega)]
    rfl
  · refine ⟨rfl, by simp [hl], ?_⟩
    intro d hd j hj
    simp only
    rw [List.getElem?_set]
    by_cases hde : d = digitAt shift (key src[k])
    · subst hde
      rw [hdrop, List.countP_cons] at hj ⊢
      simp only [beq_self_eq_true, if_true] at hj ⊢
      rw [List.filter_cons_of_pos (by simp)]
      cases j with
      | zero =>
        rw [if_pos (by omega), if_pos (by omega), List.getElem?_cons_zero]
      | succ j =>
        rw [if_neg (by omega)]
        have := hp _ hd j (by omega)
        rw [List.getElem?_cons_succ, ← this]
        congr 1
        omega
    · have hne : ¬ (digitAt shift (key src[k]) == d) = true := by
        simp only [beq_iff_eq]; exact fun h => hde h.symm
      rw [hdrop, List.countP_cons] at hj ⊢
      simp only [hne, Bool.false_eq_true, if_false, Nat.add_zero] at hj ⊢
      have hf : List.filter (fun x => digitAt shift (key x) == d)
          (src[k] :: List.drop (k + 1) src)
          = List.filter (fun x => digitAt shift (key x) == d) (List.drop (k + 1) src) := by
        rw [List.filter_cons]
        simp only [hne, Bool.false_eq_true, if_false]
      rw [hf]
      have hq := hp d hd j hj
      rw [← hq]
      have d1 := countP_drop_le (fun x => digitAt shift (key x) == d) src (k + 1)
      have d2 := countP_eq_le_countP_le (fun x => digitAt shift (key x)) src d
      rcases Nat.lt_or_gt_of_ne hde with hlt2 | hgt
      · have d3 := countP_le_add_eq_le (fun x => digitAt shift (key x)) src d
          (digitAt shift (key src[k])) hlt2
        beta_reduce at d3
        have d4 := countP_drop_le
          (fun x => digitAt shift (key x) == digitAt shift (key src[k])) src (k + 1)
        rw [if_neg (by omega)]
      · have d3 := countP_le_add_eq_le (fun x => digitAt shift (key x)) src
          (digitAt shift (key src[k])) d hgt
        beta_reduce at d3
        rw [if_neg (by omega)]

theorem keyed_placeLoop_inv {β : Type} (key : β → Nat) (shift : Nat) (src : List β)
    (hlt : src.length < SIZE_MODULUS) (k : Nat) (hk : k ≤ src.length)
    (st : List Nat × List β) (inv : PlaceInv key shift src k st) :
    ∃ st', (List.range' 1 k).reverse.foldlM (Keyed.placeStep key src shift) st = some st'
      ∧ PlaceInv key shift src 0 st' := by
  induction k generalizing st with
  | zero => exact ⟨st, by simp, inv⟩
  | succ k ih =>
    obtain ⟨st1, h1, inv1⟩ := keyed_placeStep_inv key shift src k (by omega) hlt st inv
    obtain ⟨st2, h2, inv2⟩ := ih (by omega) st1 inv1
    refine ⟨st2, ?_, inv2⟩
    rw [List.range'_concat, List.reverse_append, List.reverse_singleton, List.singleton_append,
      List.foldlM_cons]
    have e : 1 + 1 * k = k + 1 := by omega
    rw [e, h1]
    exact h2

theorem placeInv_init {β : Type} (key : β → Nat) (shift : Nat) (src output : List β)
    (ho : output.length = src.length) :
    PlaceInv key shift src src.length (prefixTable key shift src, output) := by
  refine ⟨(slotTable_at_length key shift src).symm, ho, ?_⟩
  intro d _ j hj
  simp at hj

theorem countP_lt_succ {β : Type} (f : β → Nat) (l : List β) (m : Nat) :
    l.countP (fun x => decide (f x < m + 1))
      = l.countP (fun x => decide (f x < m)) + l.countP (fun x => f x == m) := by
  induction l with
  | nil => simp
  | cons a t ih =>
    simp only [List.countP_cons, ih]
    by_cases h1 : f a < m
    · have h2 : f a < m + 1 := by omega
      have h3 : ¬ f a = m := by omega
      simp [h1, h2, h3]
      omega
    · by_cases h3 : f a = m
      · have h2 : f a < m + 1 := by omega
        simp [h1, h2, h3]
        omega
      · have h2 : ¬ f a < m + 1 := by omega
        simp [h1, h2, h3]

theorem countP_le_eq_lt_succ {β : Type} (f : β → Nat) (l : List β) (m : Nat) :
    l.countP (fun x => decide (f x ≤ m)) = l.countP (fun x => decide (f x < m + 1)) := by
  congr 1
  funext x
  by_cases h : f x ≤ m
  · have : f x < m + 1 := by omega
    simp [h, this]
  · have : ¬ f x < m + 1 := by omega
    simp [h, this]

/-- When the placement loop is over, the output read up to the end of the block of digit
`m - 1` is the concatenation of the first `m` buckets. -/
theorem placeInv_take {β : Type} (key : β → Nat) (shift : Nat) (src : List β)
    (st : List Nat × List β) (inv : PlaceInv key shift src 0 st) (m : Nat)
    (hm : m ≤ RADIX_SIZE) :
    st.2.take (src.countP (fun x => decide (digitAt shift (key x) < m)))
      = (List.range m).flatMap
          (fun d => src.filter (fun x => digitAt shift (key x) == d)) := by
  induction m with
  | zero => simp
  | succ m ih =>
    rw [List.range_succ, List.flatMap_append, ← ih (by omega),
      countP_lt_succ (fun x => digitAt shift (key x)), List.take_add]
    congr 1
    simp only [List.flatMap_cons, List.flatMap_nil, List.append_nil]
    apply List.ext_getElem?
    intro j
    rw [List.getElem?_take, List.getElem?_drop]
    have hp := inv.placed m (by omega) j
    simp only [List.drop_zero] at hp
    have e1 := countP_le_eq_lt_succ (fun x => digitAt shift (key x)) src m
    have e2 := countP_lt_succ (fun x => digitAt shift (key x)) src m
    beta_reduce at e1 e2
    by_cases hj : j < src.countP (fun x => digitAt shift (key x) == m)
    · rw [if_pos hj, ← hp hj]
      congr 1
      omega
    · rw [if_neg hj, List.getElem?_eq_none]
      rw [← List.countP_eq_length_filter]
      omega

theorem countP_digit_lt_radix {β : Type} (key : β → Nat) (shift : Nat) (src : List β) :
    src.countP (fun x => decide (digitAt shift (key x) < RADIX_SIZE)) = src.length := by
  rw [List.countP_eq_length]
  intro x _
  simp [digitAt_lt]

theorem placeInv_final {β : Type} (key : β → Nat) (shift : Nat) (src : List β)
    (st : List Nat × List β) (inv : PlaceInv key shift src 0 st) :
    st.2 = bucketPass key shift src := by
  have h := placeInv_take key shift src st inv RADIX_SIZE (le_refl _)
  rw [countP_digit_lt_radix, ← inv.length_eq, List.take_length] at h
  exact h

theorem keyed_countingSortByByte_unfold {β : Type} (key : β → Nat) (arr output : List β)
    (size byteIndex : Nat) (hb : byteIndex < NUM_PASSES) :
    Keyed.countingSortByByte key arr size output byteIndex
      = (Keyed.countLoop key arr size (byteIndex * RADIX_BITS) (List.replicate RADIX_SIZE 0)).bind
          (fun c => (cumulLoop c).bind (fun c' =>
            (Keyed.placeLoop key arr size (byteIndex * RADIX_BITS) (c', output)).bind
              (fun st => some st.2))) := by
  unfold Keyed.countingSortByByte
  rw [if_pos hb]
  rfl

/-- One pass of the code computes `bucketPass`: on a source of `size` elements and a
destination of `size` elements, whatever the destination held before. -/
theorem keyed_countingSortByByte_eq {β : Type} (key : β → Nat) (arr output : List β)
    (size byteIndex : Nat) (ha : arr.length = size) (ho : output.length = size)
    (hlt : size < SIZE_MODULUS) (hb : byteIndex < NUM_PASSES) :
    Keyed.countingSortByByte key arr size output byteIndex
      = some (bucketPass key (byteIndex * RADIX_BITS) arr) := by
  subst ha
  have hlt2 : arr.length < SIZE_MODULUS := hlt
  rw [keyed_countingSortByByte_unfold key arr output _ _ hb,
    keyed_countLoop_eq key arr arr.length _ (le_refl _) hlt, List.take_length,
    Option.some_bind, cumulLoop_eq key _ arr hlt, Option.some_bind]
  obtain ⟨st', h1, inv⟩ := keyed_placeLoop_inv key (byteIndex * RADIX_BITS) arr hlt
    arr.length (le_refl _) _ (placeInv_init key (byteIndex * RADIX_BITS) arr output ho)
  unfold Keyed.placeLoop
  rw [h1, Option.some_bind, placeInv_final key _ arr st' inv]

/-! ## `bucketPass` is a stable sort on one digit -/

theorem filter_lt_succ_perm {β : Type} (f : β → Nat) (l : List β) (m : Nat) :
    (l.filter (fun x => decide (f x < m)) ++ l.filter (fun x => f x == m)).Perm
      (l.filter (fun x => decide (f x < m + 1))) := by
  induction l with
  | nil => simp
  | cons a t ih =>
    by_cases h1 : f a < m
    · have h2 : f a < m + 1 := by omega
      have h3 : ¬ f a = m := by omega
      simp only [List.filter_cons, h1, h2, h3, decide_True, if_true, beq_iff_eq, if_false,
        List.cons_append]
      exact ih.cons a
    · by_cases h3 : f a = m
      · subst h3
        have e1 : List.filter (fun x => decide (f x < f a)) (a :: t)
            = List.filter (fun x => decide (f x < f a)) t := by
          rw [List.filter_cons]; simp
        have e2 : List.filter (fun x => f x == f a) (a :: t)
            = a :: List.filter (fun x => f x == f a) t := by
          rw [List.filter_cons]; simp
        have e3 : List.filter (fun x => decide (f x < f a + 1)) (a :: t)
            = a :: List.filter (fun x => decide (f x < f a + 1)) t := by
          rw [List.filter_cons]; simp
        rw [e1, e2, e3]
        exact List.perm_middle.trans (ih.cons a)
      · have h2 : ¬ f a < m + 1 := by omega
        simp only [List.filter_cons, h1, h2, h3, decide_False, if_false, beq_iff_eq,
          Bool.false_eq_true]
        exact ih

theorem flatMap_range_perm {β : Type} (f : β → Nat) (l : List β) (m : Nat) :
    ((List.range m).flatMap (fun d => l.filter (fun x => f x == d))).Perm
      (l.filter (fun x => decide (f x < m))) := by
  induction m with
  | zero => simp
  | succ m ih =>
    rw [List.range_succ, List.flatMap_append]
    simp only [List.flatMap_cons, List.flatMap_nil, List.append_nil]
    exact (ih.append_right _).trans (filter_lt_succ_perm f l m)

theorem bucketPass_perm {β : Type} (key : β → Nat) (shift : Nat) (l : List β) :
    (bucketPass key shift l).Perm l := by
  have h := flatMap_range_perm (fun x => digitAt shift (key x)) l RADIX_SIZE
  have e : l.filter (fun x => decide (digitAt shift (key x) < RADIX_SIZE)) = l := by
    rw [List.filter_eq_self]
    intro x _
    simp [digitAt_lt]
  rw [e] at h
  exact h

theorem bucketPass_length {β : Type} (key : β → Nat) (shift : Nat) (l : List β) :
    (bucketPass key shift l).length = l.length :=
  (bucketPass_perm key shift l).length_eq

theorem fourPasses_perm {β : Type} (key : β → Nat) (l : List β) :
    (fourPasses key l).Perm l := by
  unfold fourPasses
  exact ((((bucketPass_perm key _ _).trans (bucketPass_perm key _ _)).trans
    (bucketPass_perm key _ _)).trans (bucketPass_perm key _ _))

theorem fourPasses_length {β : Type} (key : β → Nat) (l : List β) :
    (fourPasses key l).length = l.length :=
  (fourPasses_perm key l).length_eq

/-! ## The pass loop and the whole of `radixSort` -/

theorem keyed_passLoop_eq {β : Type} (key : β → Nat) (size : Nat) (t1 t2 : List β)
    (h1 : t1.length = size) (h2 : t2.length = size) (hlt : size < SIZE_MODULUS) :
    Keyed.passLoop key size (⟨t1, t2⟩, Buf.temp1, Buf.temp2)
      = some (⟨fourPasses key t1,
          bucketPass key (2 * RADIX_BITS) (bucketPass key (1 * RADIX_BITS)
            (bucketPass key (0 * RADIX_BITS) t1))⟩, Buf.temp1, Buf.temp2) := by
  unfold Keyed.passLoop
  have e : List.range NUM_PASSES = [0, 1, 2, 3] := by decide
  rw [e]
  simp only [List.foldlM_cons, List.foldlM_nil, Keyed.passStep, Heap.get, Heap.put,
    Option.bind_eq_bind, Option.pure_def]
  rw [keyed_countingSortByByte_eq key t1 t2 size 0 h1 h2 hlt (by decide)]
  simp only [Option.some_bind]
  rw [keyed_countingSortByByte_eq key _ t1 size 1 (by rw [bucketPass_length]; exact h1) h1 hlt
    (by decide)]
  simp only [Option.some_bind]
  rw [keyed_countingSortByByte_eq key _ _ size 2
    (by rw [bucketPass_length, bucketPass_length]; exact h1)
    (by rw [bucketPass_length]; exact h1) hlt (by decide)]
  simp only [Option.some_bind]
  rw [keyed_countingSortByByte_eq key _ _ size 3
    (by rw [bucketPass_length, bucketPass_length, bucketPass_length]; exact h1)
    (by rw [bucketPass_length, bucketPass_length]; exact h1) hlt (by decide)]
  simp only [Option.some_bind, fourPasses]

theorem malloc_length {β : Type} (al : Allocator β) (call bytes : Nat) (buf : List β)
    (h : malloc al call bytes = some buf) : buf.length = bytes / SIZEOF_U32 := by
  unfold malloc at h
  split_ifs at h
  cases h
  simp

/-- The size-`>= 2` path of the sort when nothing goes wrong: both allocations succeed, the
byte count does not wrap and the caller's array has at least `size` elements. -/
theorem keyed_radixSort_eq {α β : Type} (fwd : α → β) (inv : β → α) (key : β → Nat)
    (al : Allocator β) (a : List α) (size : Nat) (h2 : 2 ≤ size) (hs : size ≤ a.length)
    (hlt : size * SIZEOF_U32 < SIZE_MODULUS)
    (ok1 : al.succeeds 0 (size * SIZEOF_U32) = true)
    (ok2 : al.succeeds 1 (size * SIZEOF_U32) = true) :
    Keyed.radixSort fwd inv key al (some a) size
      = some ⟨.SORT_SUCCESS,
          some ((fourPasses key ((a.take size).map fwd)).map inv ++ a.drop size),
          [size * SIZEOF_U32, size * SIZEOF_U32], [.temp1, .temp2]⟩ := by
  unfold Keyed.radixSort
  simp only
  rw [if_neg (by omega), if_neg (by omega), Nat.mod_eq_of_lt hlt]
  have hdiv : size * SIZEOF_U32 / SIZEOF_U32 = size := by unfold SIZEOF_U32; omega
  have hsz : size < SIZE_MODULUS := by unfold SIZEOF_U32 at hlt; omega
  have m1 : malloc al 0 (size * SIZEOF_U32)
      = some ((List.range size).map (al.garbage 0)) := by
    unfold malloc; rw [if_pos ok1, hdiv]
  have m2 : malloc al 1 (size * SIZEOF_U32)
      = some ((List.range size).map (al.garbage 1)) := by
    unfold malloc; rw [if_pos ok2, hdiv]
  rw [m1, m2]
  simp only [Option.bind_eq_bind, Option.pure_def]
  have t : Keyed.transformLoop fwd a size ((List.range size).map (al.garbage 0))
      = some ((a.take size).map fwd) := by
    have := copyLoop_eq fwd a size ((List.range size).map (al.garbage 0)) hs (by simp)
    rw [List.drop_of_length_le (by simp), List.append_nil] at this
    exact this
  rw [t]
  simp only [Option.some_bind]
  rw [keyed_passLoop_eq key size _ _ (by simp; omega) (by simp) hsz]
  simp only [Option.some_bind, Heap.get]
  have c : Keyed.copyBackLoop inv (fourPasses key ((a.take size).map fwd)) size a
      = some ((fourPasses key ((a.take size).map fwd)).map inv ++ a.drop size) := by
    have hl : (fourPasses key ((a.take size).map fwd)).length = size := by
      rw [fourPasses_length]; simp; omega
    have := copyLoop_eq inv (fourPasses key ((a.take size).map fwd)) size a (by omega) hs
    have ht : (fourPasses key ((a.take size).map fwd)).take size
        = fourPasses key ((a.take size).map fwd) := List.take_of_length_le (by omega)
    rw [ht] at this
    exact this
  rw [c]
  rfl

theorem bucketPass_mem {β : Type} (key : β → Nat) (shift : Nat) (l : List β) (x : β) :
    x ∈ bucketPass key shift l ↔ x ∈ l :=
  (bucketPass_perm key shift l).mem_iff

theorem fourPasses_mem {β : Type} (key : β → Nat) (l : List β) (x : β) :
    x ∈ fourPasses key l ↔ x ∈ l :=
  (fourPasses_perm key l).mem_iff

/-- After a pass the digits are in non-decreasing order. -/
theorem bucketPass_pairwise_digit {β : Type} (key : β → Nat) (shift : Nat) (l : List β) :
    (bucketPass key shift l).Pairwise
      (fun a b => digitAt shift (key a) ≤ digitAt shift (key b)) := by
  unfold bucketPass
  rw [List.pairwise_flatMap]
  constructor
  · intro d _
    rw [List.pairwise_iff_forall_sublist]
    intro a b hab
    have ha : a ∈ l.filter (fun x => digitAt shift (key x) == d) := hab.subset (by simp)
    have hb : b ∈ l.filter (fun x => digitAt shift (key x) == d) := hab.subset (by simp)
    simp only [List.mem_filter, beq_iff_eq] at ha hb
    omega
  · refine (List.pairwise_lt_range RADIX_SIZE).imp ?_
    intro d1 d2 h x hx y hy
    simp only [List.mem_filter, beq_iff_eq] at hx hy
    omega

theorem filter_flatMap_range {β : Type} (f : β → Nat) (l : List β) (e m : Nat) :
    ((List.range m).flatMap (fun d => l.filter (fun x => f x == d))).filter (fun x => f x == e)
      = if e < m then l.filter (fun x => f x == e) else [] := by
  induction m with
  | zero => simp
  | succ m ih =>
    rw [List.range_succ, List.flatMap_append, List.filter_append, ih]
    simp only [List.flatMap_cons, List.flatMap_nil, List.append_nil, List.filter_filter]
    by_cases h1 : e < m
    · have h2 : e < m + 1 := by omega
      rw [if_pos h1, if_pos h2]
      have : l.filter (fun a => f a == e && f a == m) = [] := by
        rw [List.filter_eq_nil_iff]
        intro a _
        simp only [Bool.and_eq_true, beq_iff_eq]
        omega
      rw [this, List.append_nil]
    · rw [if_neg h1]
      by_cases h3 : e = m
      · subst h3
        rw [if_pos (by omega), List.nil_append]
        congr 1
        funext a
        simp
      · rw [if_neg (by omega), List.nil_append, List.filter_eq_nil_iff]
        intro a _
        simp only [Bool.and_eq_true, beq_iff_eq]
        omega

/-- A pass keeps, digit by digit, the elements with that digit in their source order. -/
theorem bucketPass_filter_digit {β : Type} (key : β → Nat) (shift : Nat) (l : List β)
    (e : Nat) :
    (bucketPass key shift l).filter (fun x => digitAt shift (key x) == e)
      = l.filter (fun x => digitAt shift (key x) == e) := by
  unfold bucketPass
  rw [filter_flatMap_range (fun x => digitAt shift (key x)) l e RADIX_SIZE]
  by_cases h : e < RADIX_SIZE
  · rw [if_pos h]
  · rw [if_neg h, eq_comm, List.filter_eq_nil_iff]
    intro a _
    have := digitAt_lt shift (key a)
    simp only [beq_iff_eq]
    omega

/-- A pass keeps the source order of any two elements with the same digit. -/
theorem bucketPass_sublist_pair {β : Type} (key : β → Nat) (shift : Nat) (l : List β)
    (a b : β) (hab : [a, b].Sublist (bucketPass key shift l))
    (hd : digitAt shift (key a) = digitAt shift (key b)) : [a, b].Sublist l := by
  have h1 := hab.filter (fun x => digitAt shift (key x) == digitAt shift (key b))
  rw [bucketPass_filter_digit] at h1
  have h2 : [a, b].filter (fun x => digitAt shift (key x) == digitAt shift (key b))
      = [a, b] := by
    simp [List.filter_cons, hd]
  rw [h2] at h1
  exact h1.trans (List.filter_sublist l)

/-- A pass keeps the source order of the elements that satisfy a predicate which fixes the
digit. -/
theorem bucketPass_filter_of_digit {β : Type} (key : β → Nat) (shift : Nat) (l : List β)
    (p : β → Bool) (e : Nat) (hp : ∀ x, p x = true → digitAt shift (key x) = e) :
    (bucketPass key shift l).filter p = l.filter p := by
  have h : ∀ L : List β, L.filter p
      = (L.filter (fun x => digitAt shift (key x) == e)).filter p := by
    intro L
    rw [List.filter_filter]
    apply List.filter_congr
    intro x _
    by_cases hx : p x = true
    · simp [hx, hp x hx]
    · simp [hx]
  rw [h (bucketPass key shift l), bucketPass_filter_digit, ← h l]

/-- The four passes keep the source order of the elements with a given key. -/
theorem fourPasses_filter_key {β : Type} (key : β → Nat) (l : List β) (v : Nat) :
    (fourPasses key l).filter (fun x => key x == v) = l.filter (fun x => key x == v) := by
  unfold fourPasses
  have hp : ∀ shift, ∀ x, (fun x => key x == v) x = true
      → digitAt shift (key x) = digitAt shift v := by
    intro shift x hx
    simp only [beq_iff_eq] at hx
    rw [hx]
  rw [bucketPass_filter_of_digit key _ _ _ _ (hp _),
    bucketPass_filter_of_digit key _ _ _ _ (hp _),
    bucketPass_filter_of_digit key _ _ _ _ (hp _),
    bucketPass_filter_of_digit key _ _ _ _ (hp _)]

/-! ## Four stable passes sort the 32-bit keys -/

theorem digitAt_eq (shift x : Nat) : digitAt shift x = x / 2 ^ shift % 256 := by
  unfold digitAt
  rw [Nat.shiftRight_eq_div_pow]
  exact Nat.and_pow_two_sub_one_eq_mod (x / 2 ^ shift) 8

theorem mod_pow_add_eight (shift x : Nat) :
    x % 2 ^ (shift + 8) = x % 2 ^ shift + 2 ^ shift * digitAt shift x := by
  rw [digitAt_eq, pow_add]
  exact Nat.mod_mul

/-- The step of the LSD argument: a stable pass on the next byte turns a list sorted on the
low `shift` bits into a list sorted on the low `shift + 8` bits. -/
theorem bucketPass_sorted_low {β : Type} (key : β → Nat) (shift : Nat) (l : List β)
    (h : l.Pairwise (fun a b => key a % 2 ^ shift ≤ key b % 2 ^ shift)) :
    (bucketPass key shift l).Pairwise
      (fun a b => key a % 2 ^ (shift + 8) ≤ key b % 2 ^ (shift + 8)) := by
  rw [List.pairwise_iff_forall_sublist]
  intro a b hab
  have hd := List.pairwise_iff_forall_sublist.mp (bucketPass_pairwise_digit key shift l) hab
  rw [mod_pow_add_eight, mod_pow_add_eight]
  rcases Nat.lt_or_eq_of_le hd with hlt | heq
  · have h1 : key a % 2 ^ shift < 2 ^ shift := Nat.mod_lt _ (by positivity)
    have h2 : 2 ^ shift * (digitAt shift (key a) + 1) ≤ 2 ^ shift * digitAt shift (key b) :=
      Nat.mul_le_mul_left _ hlt
    rw [Nat.mul_succ] at h2
    omega
  · have h1 := List.pairwise_iff_forall_sublist.mp h
      (bucketPass_sublist_pair key shift l a b hab heq)
    rw [heq]
    omega

/-- After the four passes the list is sorted on the low 32 bits of the keys. -/
theorem fourPasses_sorted_low {β : Type} (key : β → Nat) (l : List β) :
    (fourPasses key l).Pairwise (fun a b => key a % 2 ^ 32 ≤ key b % 2 ^ 32) := by
  unfold fourPasses
  have h0 : l.Pairwise (fun a b => key a % 2 ^ 0 ≤ key b % 2 ^ 0) := by
    rw [List.pairwise_iff_forall_sublist]
    intro a b _
    simp [Nat.mod_one]
  have e0 : 0 * RADIX_BITS = 0 := by decide
  have e1 : 1 * RADIX_BITS = 0 + 8 := by decide
  have e2 : 2 * RADIX_BITS = 0 + 8 + 8 := by decide
  have e3 : 3 * RADIX_BITS = 0 + 8 + 8 + 8 := by decide
  rw [e0, e1, e2, e3]
  exact bucketPass_sorted_low key _ _ (bucketPass_sorted_low key _ _
    (bucketPass_sorted_low key _ _ (bucketPass_sorted_low key _ _ h0)))

/-- After the four passes a list of 32-bit keys is sorted. -/
theorem fourPasses_sorted {β : Type} (key : β → Nat) (l : List β)
    (hk : ∀ x ∈ l, key x < 4294967296) :
    (fourPasses key l).Pairwise (fun a b => key a ≤ key b) := by
  have h := fourPasses_sorted_low key l
  rw [List.pairwise_iff_forall_sublist] at h ⊢
  intro a b hab
  have ha : a ∈ fourPasses key l := hab.subset (by simp)
  have hb : b ∈ fourPasses key l := hab.subset (by simp)
  rw [fourPasses_mem] at ha hb
  have h1 := h hab
  have h2 := hk a ha
  have h3 := hk b hb
  omega

/-! ## What `radixSort` returns -/

/-- The bytes of a request for `size` words do not wrap when the block obtained has room for
`size` words. -/
theorem no_wrap_of_le (size : Nat) (h : size ≤ size * SIZEOF_U32 % SIZE_MODULUS / SIZEOF_U32) :
    size * SIZEOF_U32 < SIZE_MODULUS := by
  unfold SIZEOF_U32 SIZE_MODULUS at *
  omega

/-- A call with `size >= 2` that returns `SORT_SUCCESS` had both allocations succeed, a byte
count that did not wrap, and an array of at least `size` elements. -/
theorem keyed_radixSort_success {α β : Type} (fwd : α → β) (inv : β → α) (key : β → Nat)
    (al : Allocator β) (a : List α) (size : Nat) (out : Outcome α) (h2 : 2 ≤ size)
    (h : Keyed.radixSort fwd inv key al (some a) size = some out)
    (hs : out.result = .SORT_SUCCESS) :
    al.succeeds 0 (size * SIZEOF_U32) = true ∧ al.succeeds 1 (size * SIZEOF_U32) = true
      ∧ size ≤ a.length ∧ size * SIZEOF_U32 < SIZE_MODULUS := by
  unfold Keyed.radixSort at h
  simp only at h
  rw [if_neg (by omega), if_neg (by omega)] at h
  cases m1 : malloc al 0 (size * SIZEOF_U32 % SIZE_MODULUS) with
  | none =>
    rw [m1] at h
    simp only [Option.some.injEq] at h
    rw [← h] at hs
    cases hs
  | some temp1 =>
    rw [m1] at h
    simp only at h
    cases m2 : malloc al 1 (size * SIZEOF_U32 % SIZE_MODULUS) with
    | none =>
      rw [m2] at h
      simp only [Option.some.injEq] at h
      rw [← h] at hs
      cases hs
    | some temp2 =>
      rw [m2] at h
      simp only [Option.bind_eq_bind, Option.bind_eq_some] at h
      obtain ⟨t, ht, _⟩ := h
      have hl := copyLoop_some fwd a size temp1 t ht
      rw [malloc_length al 0 _ temp1 m1] at hl
      have hw := no_wrap_of_le size hl.2
      rw [Nat.mod_eq_of_lt hw] at m1 m2
      unfold malloc at m1 m2
      refine ⟨?_, ?_, hl.1, hw⟩
      · by_contra hc
        rw [if_neg hc] at m1
        cases m1
      · by_contra hc
        rw [if_neg hc] at m2
        cases m2

/-- The array a successful call with `size >= 2` leaves behind. -/
theorem keyed_radixSort_success_arr {α β : Type} (fwd : α → β) (inv : β → α) (key : β → Nat)
    (al : Allocator β) (a : List α) (size : Nat) (out : Outcome α) (h2 : 2 ≤ size)
    (h : Keyed.radixSort fwd inv key al (some a) size = some out)
    (hs : out.result = .SORT_SUCCESS) :
    out.arr = some ((fourPasses key ((a.take size).map fwd)).map inv ++ a.drop size) := by
  obtain ⟨ok1, ok2, hl, hw⟩ := keyed_radixSort_success fwd inv key al a size out h2 h hs
  rw [keyed_radixSort_eq fwd inv key al a size h2 hl hw ok1 ok2] at h
  cases h
  rfl

/-- The array a successful call on a whole array of at least two elements leaves behind. -/
theorem radixSort_success_arr (al : Allocator Nat) (arr : List Int) (out : Outcome Int)
    (h2 : 2 ≤ arr.length) (h : radixSort al (some arr) arr.length = some out)
    (hs : out.result = .SORT_SUCCESS) :
    out.arr = some ((fourPasses id (arr.map forwardTransform)).map inverseTransform) := by
  rw [radixSort_eq_keyed] at h
  have := keyed_radixSort_success_arr forwardTransform inverseTransform id al arr arr.length
    out h2 h hs
  rw [List.take_length, List.drop_length, List.append_nil] at this
  exact this

/-- The array a successful call on a whole array of one element leaves behind. -/
theorem radixSort_one_arr (al : Allocator Nat) (arr : List Int) (out : Outcome Int)
    (h1 : arr.length = 1) (h : radixSort al (some arr) arr.length = some out) :
    out.arr = some arr := by
  rw [h1] at h
  unfold radixSort at h
  simp only [if_neg (show ¬ (1 = 0) by decide), if_pos rfl] at h
  cases h
  rfl

theorem inverseTransform_mono (u v : Nat) (hu : u < 4294967296) (hv : v < 4294967296)
    (h : u ≤ v) : inverseTransform u ≤ inverseTransform v := by
  rw [inverseTransform_eq u hu, inverseTransform_eq v hv]
  omega

theorem inverseTransform_inj (u v : Nat) (hu : u < 4294967296) (hv : v < 4294967296)
    (h : inverseTransform u = inverseTransform v) : u = v := by
  rw [inverseTransform_eq u hu, inverseTransform_eq v hv] at h
  omega

/-- The values the sort writes back are in non-decreasing order. -/
theorem sorted_values_pairwise (arr : List Int) :
    ((fourPasses id (arr.map forwardTransform)).map inverseTransform).Pairwise (· ≤ ·) := by
  rw [List.pairwise_map]
  have hk : ∀ x ∈ arr.map forwardTransform, id x < 4294967296 := by
    intro x hx
    rw [List.mem_map] at hx
    obtain ⟨y, _, rfl⟩ := hx
    exact forwardTransform_lt y
  refine (fourPasses_sorted id _ hk).imp_of_mem ?_
  intro a b ha hb hab
  rw [fourPasses_mem] at ha hb
  exact inverseTransform_mono a b (hk a ha) (hk b hb) hab

theorem adjacent_of_pairwise (l : List Int) (h : l.Pairwise (· ≤ ·)) :
    ∀ (i : Nat) (hi : i + 1 < l.length), l[i] ≤ l[i + 1] := by
  intro i hi
  exact List.pairwise_iff_getElem.mp h i (i + 1) (by omega) hi (by omega)

theorem isSortedLoop_eq_true (l : List Int)
    (h : ∀ (i : Nat) (hi : i + 1 < l.length), l[i] ≤ l[i + 1])
    (idxs : List Nat) (hin : ∀ i ∈ idxs, i + 1 < l.length) :
    isSortedLoop l idxs = some true := by
  induction idxs with
  | nil => rfl
  | cons i rest ih =>
    have hi : i + 1 < l.length := hin i (by simp)
    have hle := h i hi
    unfold isSortedLoop
    rw [List.getElem?_eq_getElem (by omega : i < l.length), List.getElem?_eq_getElem hi]
    simp only
    rw [if_neg (by omega)]
    exact ih (fun j hj => hin j (by simp [hj]))

/-- The test helper accepts every array whose adjacent pairs are in order. -/
theorem isSorted_eq_true (l : List Int)
    (h : ∀ (i : Nat) (hi : i + 1 < l.length), l[i] ≤ l[i + 1]) :
    isSorted l l.length = some true := by
  unfold isSorted
  split_ifs with h1
  · rfl
  · apply isSortedLoop_eq_true l h
    intro i hi
    rw [List.mem_range] at hi
    omega

/-- The values the sort writes back are the values of the array, rearranged. -/
theorem sorted_values_perm (arr : List Int) (hr : ∀ x ∈ arr, isInt32 x) :
    ((fourPasses id (arr.map forwardTransform)).map inverseTransform).Perm arr := by
  have h1 := (fourPasses_perm id (arr.map forwardTransform)).map inverseTransform
  have h2 : (arr.map forwardTransform).map inverseTransform = arr := by
    rw [List.map_map]
    conv_rhs => rw [← List.map_id arr]
    apply List.map_congr_left
    intro x hx
    exact inverse_forward x (hr x hx)
  rw [h2] at h1
  exact h1

/-! ## Stability of the whole sort -/

theorem bucketPass_map {β : Type} (key : β → Nat) (shift : Nat) (l : List β) :
    bucketPass id shift (l.map key) = (bucketPass key shift l).map key := by
  unfold bucketPass
  rw [List.map_flatMap]
  congr 1
  funext d
  rw [List.filter_map]
  rfl

theorem fourPasses_map {β : Type} (key : β → Nat) (l : List β) :
    fourPasses id (l.map key) = (fourPasses key l).map key := by
  unfold fourPasses
  rw [bucketPass_map, bucketPass_map, bucketPass_map, bucketPass_map]

/-- The four passes keep the source order of any two elements with the same key. -/
theorem fourPasses_sublist_pair {β : Type} (key : β → Nat) (l : List β) (a b : β)
    (hab : [a, b].Sublist (fourPasses key l)) (hk : key a = key b) : [a, b].Sublist l := by
  have h1 := hab.filter (fun x => key x == key b)
  rw [fourPasses_filter_key] at h1
  have h2 : [a, b].filter (fun x => key x == key b) = [a, b] := by
    simp [List.filter_cons, hk]
  rw [h2] at h1
  exact h1.trans (List.filter_sublist l)

theorem tagWithIndex_length (arr : List Int) : (tagWithIndex arr).length = arr.length := by
  simp [tagWithIndex]

theorem tagWithIndex_map_fst (arr : List Int) : (tagWithIndex arr).map Prod.fst = arr := by
  unfold tagWithIndex
  exact List.map_fst_zip _ _ (by simp)

theorem tagWithIndex_map_snd (arr : List Int) :
    (tagWithIndex arr).map Prod.snd = List.range arr.length := by
  unfold tagWithIndex
  exact List.map_snd_zip _ _ (by simp)

theorem tagWithIndex_fst_mem (arr : List Int) (p : Int × Nat) (hp : p ∈ tagWithIndex arr) :
    p.1 ∈ arr := by
  rw [← tagWithIndex_map_fst arr]
  exact List.mem_map_of_mem Prod.fst hp

/-- The tagged elements after the forward transform and the four passes: two elements with
the same key are in ascending tag order. -/
theorem tagged_passes_stable (arr : List Int) :
    (fourPasses Prod.fst
      ((tagWithIndex arr).map (fun p => (forwardTransform p.1, p.2)))).Pairwise
      (fun a b => a.1 = b.1 → a.2 < b.2) := by
  have hsrc : ((tagWithIndex arr).map (fun p => (forwardTransform p.1, p.2))).Pairwise
      (fun a b => a.2 < b.2) := by
    rw [List.pairwise_map]
    have h := List.pairwise_lt_range arr.length
    rw [← tagWithIndex_map_snd arr, List.pairwise_map] at h
    exact h
  rw [List.pairwise_iff_forall_sublist]
  intro a b hab hk
  exact List.pairwise_iff_forall_sublist.mp hsrc (fourPasses_sublist_pair Prod.fst _ a b hab hk)

/-! ## Concrete runs -/

set_option maxRecDepth 100000 in
theorem radixSort_run_three :
    radixSort grantAll (some [3, -1, 2]) 3
      = some ⟨.SORT_SUCCESS, some [-1, 2, 3], [12, 12], [.temp1, .temp2]⟩ := by
  rw [radixSort_eq_keyed,
    keyed_radixSort_eq forwardTransform inverseTransform id grantAll [3, -1, 2] 3 (by decide)
      (by decide) (by decide) rfl rfl]
  decide

set_option maxRecDepth 100000 in
theorem radixSort_run_duplicates :
    radixSort grantAll (some [5, 2, 8, 2, 9, 1, 5, 5]) 8
      = some ⟨.SORT_SUCCESS, some [1, 2, 2, 5, 5, 5, 8, 9], [32, 32], [.temp1, .temp2]⟩ := by
  rw [radixSort_eq_keyed,
    keyed_radixSort_eq forwardTransform inverseTransform id grantAll [5, 2, 8, 2, 9, 1, 5, 5] 8
      (by decide) (by decide) (by decide) rfl rfl]
  decide

/-! ## The claims -/

/-- Claim C1 (sortedness): when `radixSort`, called on a non-null array with `size` equal to
its length `n >= 1`, returns `SORT_SUCCESS`, the array it leaves behind has the same length,
every adjacent pair `arr[i]`, `arr[i+1]` with `i + 1 < n` is in non-decreasing signed order, and
the test helper `isSorted` returns `true` on it.  This holds for every allocator. -/
theorem radixSort_sorted (al : Allocator Nat) (arr : List Int) (hn : 1 ≤ arr.length)
    (out : Outcome Int) (h : radixSort al (some arr) arr.length = some out)
    (hs : out.result = .SORT_SUCCESS) :
    ∃ res, out.arr = some res ∧ res.length = arr.length
      ∧ (∀ (i : Nat) (hi : i + 1 < res.length), res[i] ≤ res[i + 1])
      ∧ isSorted res res.length = some true := by
  by_cases h1 : arr.length = 1
  · have hadj : ∀ (i : Nat) (hi : i + 1 < arr.length), arr[i] ≤ arr[i + 1] := by
      intro i hi
      omega
    exact ⟨arr, radixSort_one_arr al arr out h1 h, rfl, hadj, isSorted_eq_true arr hadj⟩
  · have hadj := adjacent_of_pairwise _ (sorted_values_pairwise arr)
    refine ⟨_, radixSort_success_arr al arr out (by omega) h hs, ?_, hadj,
      isSorted_eq_true _ hadj⟩
    rw [List.length_map, fourPasses_length, List.length_map]

theorem radixSort_sorted_witness :
    1 ≤ ([3, -1, 2] : List Int).length
      ∧ radixSort grantAll (some [3, -1, 2]) ([3, -1, 2] : List Int).length
          = some ⟨.SORT_SUCCESS, some [-1, 2, 3], [12, 12], [.temp1, .temp2]⟩
      ∧ ∃ res, (some [-1, 2, 3] : Option (List Int)) = some res ∧ res.length = 3
          ∧ (∀ (i : Nat) (hi : i + 1 < res.length), res[i] ≤ res[i + 1])
          ∧ isSorted res res.length = some true :=
  ⟨by decide, radixSort_run_three,
    radixSort_sorted grantAll [3, -1, 2] (by decide) _ radixSort_run_three rfl⟩

/-- Claim C2 (permutation): when `radixSort`, called on a non-null array of `int32_t` values
with `size` equal to its length `n >= 1`, returns `SORT_SUCCESS`, the array it leaves behind is
a rearrangement of the input: same length, and every value occurs exactly as many times as
before. -/
theorem radixSort_permutation (al : Allocator Nat) (arr : List Int)
    (hr : ∀ x ∈ arr, isInt32 x) (hn : 1 ≤ arr.length)
    (out : Outcome Int) (h : radixSort al (some arr) arr.length = some out)
    (hs : out.result = .SORT_SUCCESS) :
    ∃ res, out.arr = some res ∧ res.Perm arr ∧ res.length = arr.length
      ∧ ∀ v : Int, res.count v = arr.count v := by
  by_cases h1 : arr.length = 1
  · exact ⟨arr, radixSort_one_arr al arr out h1 h, List.Perm.refl _, rfl, fun _ => rfl⟩
  · have hp := sorted_values_perm arr hr
    exact ⟨_, radixSort_success_arr al arr out (by omega) h hs, hp, hp.length_eq,
      fun v => hp.count_eq v⟩

theorem radixSort_permutation_witness :
    (∀ x ∈ ([5, 2, 8, 2, 9, 1, 5, 5] : List Int), isInt32 x)
      ∧ radixSort grantAll (some [5, 2, 8, 2, 9, 1, 5, 5])
          ([5, 2, 8, 2, 9, 1, 5, 5] : List Int).length
          = some ⟨.SORT_SUCCESS, some [1, 2, 2, 5, 5, 5, 8, 9], [32, 32], [.temp1, .temp2]⟩
      ∧ ∃ res, (some [1, 2, 2, 5, 5, 5, 8, 9] : Option (List Int)) = some res
          ∧ res.Perm [5, 2, 8, 2, 9, 1, 5, 5] ∧ res.length = 8
          ∧ ∀ v : Int, res.count v = ([5, 2, 8, 2, 9, 1, 5, 5] : List Int).count v :=
  ⟨by decide, radixSort_run_duplicates,
    radixSort_permutation grantAll [5, 2, 8, 2, 9, 1, 5, 5] (by decide) (by decide) _
      radixSort_run_duplicates rfl⟩

/-- Claim C3 (stability of the whole sort): take an array of `n >= 2` `int32_t` values, pair
every element with its original index and run the sort on the pairs, the tag riding along
through the forward transform, the four passes and the inverse transform, with both
allocations succeeding (and `4 * n` bytes a representable `size_t`).  The run returns
`SORT_SUCCESS`; the pairs it leaves are the input pairs rearranged; erasing the tags gives
exactly the array any successful run of `radixSort` leaves; and any two output elements with
equal value are in ascending original-index order. -/
theorem radixSortTagged_stable (al : Allocator (Nat × Nat)) (arr : List Int)
    (hr : ∀ x ∈ arr, isInt32 x) (h2 : 2 ≤ arr.length)
    (hw : arr.length * SIZEOF_U32 < SIZE_MODULUS)
    (ok1 : al.succeeds 0 (arr.length * SIZEOF_U32) = true)
    (ok2 : al.succeeds 1 (arr.length * SIZEOF_U32) = true) :
    ∃ res : List (Int × Nat),
      radixSortTagged al (some (tagWithIndex arr)) arr.length
          = some ⟨.SORT_SUCCESS, some res,
              [arr.length * SIZEOF_U32, arr.length * SIZEOF_U32], [.temp1, .temp2]⟩
        ∧ res.Perm (tagWithIndex arr)
        ∧ (∀ (al' : Allocator Nat) (out : Outcome Int),
            radixSort al' (some arr) arr.length = some out → out.result = .SORT_SUCCESS →
              out.arr = some (res.map Prod.fst))
        ∧ ∀ (i j : Nat) (hij : i < j) (hj : j < res.length),
            (res[i]).1 = (res[j]).1 → (res[i]).2 < (res[j]).2 := by
  have hrun := keyed_radixSort_eq (fun p : Int × Nat => (forwardTransform p.1, p.2))
    (fun q : Nat × Nat => (inverseTransform q.1, q.2)) Prod.fst al (tagWithIndex arr)
    arr.length h2 (by rw [tagWithIndex_length]) hw ok1 ok2
  have ht : (tagWithIndex arr).take arr.length = tagWithIndex arr :=
    List.take_of_length_le (by rw [tagWithIndex_length])
  have hd : (tagWithIndex arr).drop arr.length = [] :=
    List.drop_of_length_le (by rw [tagWithIndex_length])
  rw [ht, hd, List.append_nil] at hrun
  refine ⟨_, hrun, ?_, ?_, ?_⟩
  · -- the output is the input rearranged
    have h1 := (fourPasses_perm Prod.fst
      ((tagWithIndex arr).map (fun p => (forwardTransform p.1, p.2)))).map
      (fun q : Nat × Nat => (inverseTransform q.1, q.2))
    have h3 : ((tagWithIndex arr).map (fun p => (forwardTransform p.1, p.2))).map
        (fun q : Nat × Nat => (inverseTransform q.1, q.2)) = tagWithIndex arr := by
      rw [List.map_map]
      conv_rhs => rw [← List.map_id (tagWithIndex arr)]
      apply List.map_congr_left
      intro p hp
      simp only [Function.comp_apply, id_eq]
      rw [inverse_forward p.1 (hr p.1 (tagWithIndex_fst_mem arr p hp))]
    rw [h3] at h1
    exact h1
  · -- erasing the tags gives the output of the untagged sort
    intro al' out hout hs
    rw [radixSort_success_arr al' arr out h2 hout hs]
    congr 1
    rw [List.map_map]
    have e : (Prod.fst ∘ fun q : Nat × Nat => (inverseTransform q.1, q.2))
        = inverseTransform ∘ Prod.fst := rfl
    rw [e, ← List.map_map, ← fourPasses_map, List.map_map]
    have e2 : (Prod.fst ∘ fun p : Int × Nat => (forwardTransform p.1, p.2))
        = forwardTransform ∘ Prod.fst := rfl
    rw [e2, ← List.map_map, tagWithIndex_map_fst]
  · -- ties keep the ascending order of the tags
    intro i j hij hj hv
    have hst := tagged_passes_stable arr
    rw [List.length_map] at hj
    have hi : i < (fourPasses Prod.fst
        ((tagWithIndex arr).map (fun p => (forwardTransform p.1, p.2)))).length := by omega
    have hp := List.pairwise_iff_getElem.mp hst i j hi hj hij
    simp only [List.getElem_map] at hv ⊢
    apply hp
    have hmem : ∀ q ∈ fourPasses Prod.fst
        ((tagWithIndex arr).map (fun p => (forwardTransform p.1, p.2))),
        q.1 < 4294967296 := by
      intro q hq
      rw [fourPasses_mem, List.mem_map] at hq
      obtain ⟨p, _, rfl⟩ := hq
      exact forwardTransform_lt p.1
    exact inverseTransform_inj _ _ (hmem _ (List.getElem_mem _)) (hmem _ (List.getElem_mem _)) hv

theorem radixSortTagged_stable_witness :
    (∀ x ∈ ([5, 2, 8, 2, 9, 1, 5, 5] : List Int), isInt32 x)
      ∧ 2 ≤ ([5, 2, 8, 2, 9, 1, 5, 5] : List Int).length
      ∧ ([5, 2, 8, 2, 9, 1, 5, 5] : List Int).length * SIZEOF_U32 < SIZE_MODULUS
      ∧ grantAllTagged.succeeds 0 (([5, 2, 8, 2, 9, 1, 5, 5] : List Int).length * SIZEOF_U32)
          = true
      ∧ grantAllTagged.succeeds 1 (([5, 2, 8, 2, 9, 1, 5, 5] : List Int).length * SIZEOF_U32)
          = true
      ∧ ∃ res : List (Int × Nat),
          radixSortTagged grantAllTagged (some (tagWithIndex [5, 2, 8, 2, 9, 1, 5, 5]))
              ([5, 2, 8, 2, 9, 1, 5, 5] : List Int).length
            = some ⟨.SORT_SUCCESS, some res,
                [([5, 2, 8, 2, 9, 1, 5, 5] : List Int).length * SIZEOF_U32,
                  ([5, 2, 8, 2, 9, 1, 5, 5] : List Int).length * SIZEOF_U32],
                [.temp1, .temp2]⟩
          ∧ res.Perm (tagWithIndex [5, 2, 8, 2, 9, 1, 5, 5])
          ∧ (∀ (al' : Allocator Nat) (out : Outcome Int),
              radixSort al' (some [5, 2, 8, 2, 9, 1, 5, 5])
                  ([5, 2, 8, 2, 9, 1, 5, 5] : List Int).length = some out →
                out.result = .SORT_SUCCESS → out.arr = some (res.map Prod.fst))
          ∧ ∀ (i j : Nat) (hij : i < j) (hj : j < res.length),
              (res[i]).1 = (res[j]).1 → (res[i]).2 < (res[j]).2 :=
  ⟨by decide, by decide, by decide, rfl, rfl,
    radixSortTagged_stable grantAllTagged [5, 2, 8, 2, 9, 1, 5, 5] (by decide) (by decide)
      (by decide) rfl rfl⟩

/-- Claim C4 (the forward transform preserves order): for two `int32_t` values `a < b` in
signed order, `(uint32_t)a ^ 0x80000000` is below `(uint32_t)b ^ 0x80000000` in unsigned
order. -/
theorem forwardTransform_preserves_order (a b : Int) (ha : isInt32 a) (hb : isInt32 b)
    (h : a < b) : forwardTransform a < forwardTransform b := by
  have e1 := forwardTransform_eq a ha
  have e2 := forwardTransform_eq b hb
  omega

theorem forwardTransform_preserves_order_witness :
    isInt32 (-1) ∧ isInt32 0 ∧ (-1 : Int) < 0 ∧ forwardTransform (-1) < forwardTransform 0 :=
  ⟨by decide, by decide, by decide,
    forwardTransform_preserves_order (-1) 0 (by decide) (by decide) (by decide)⟩

/-- Claim C5 (round trip of the key transform): for every `int32_t` value `x`, the extremes
and zero included, the inverse transform applied to the forward transform of `x` is `x`. -/
theorem transform_round_trip (x : Int) (hx : isInt32 x) :
    inverseTransform (forwardTransform x) = x :=
  inverse_forward x hx

theorem transform_round_trip_witness :
    (isInt32 (-2147483648) ∧ inverseTransform (forwardTransform (-2147483648)) = -2147483648)
      ∧ (isInt32 2147483647 ∧ inverseTransform (forwardTransform 2147483647) = 2147483647)
      ∧ (isInt32 0 ∧ inverseTransform (forwardTransform 0) = 0) :=
  ⟨⟨by decide, transform_round_trip (-2147483648) (by decide)⟩,
    ⟨by decide, transform_round_trip 2147483647 (by decide)⟩,
    ⟨by decide, transform_round_trip 0 (by decide)⟩⟩

/-- Claim C6 (the forward transform is a bijection): it maps `int32_t` values to `uint32_t`
words, it is injective on `int32_t` values, and every `uint32_t` word `u` is the image of the
`int32_t` value `inverseTransform u`. -/
theorem forwardTransform_bijection :
    (∀ x : Int, isUInt32 (forwardTransform x))
      ∧ (∀ a b : Int, isInt32 a → isInt32 b → forwardTransform a = forwardTransform b → a = b)
      ∧ (∀ u : Nat, isUInt32 u →
          isInt32 (inverseTransform u) ∧ forwardTransform (inverseTransform u) = u) := by
  refine ⟨fun x => forwardTransform_lt x, ?_, ?_⟩
  · intro a b ha hb h
    rw [← inverse_forward a ha, ← inverse_forward b hb, h]
  · intro u hu
    exact ⟨inverseTransform_isInt32 u hu, forward_inverse u hu⟩

theorem forwardTransform_bijection_witness :
    isUInt32 (forwardTransform 7)
      ∧ (isInt32 5 ∧ isInt32 5 ∧ forwardTransform 5 = forwardTransform 5 ∧ (5 : Int) = 5)
      ∧ (isUInt32 4294967295 ∧ isInt32 (inverseTransform 4294967295)
          ∧ forwardTransform (inverseTransform 4294967295) = 4294967295) :=
  ⟨forwardTransform_bijection.1 7,
    ⟨by decide, by decide, rfl,
      forwardTransform_bijection.2.1 5 5 (by decide) (by decide) rfl⟩,
    ⟨by decide, (forwardTransform_bijection.2.2 4294967295 (by decide)).1,
      (forwardTransform_bijection.2.2 4294967295 (by decide)).2⟩⟩

/-- Claim C7 (null rejection): called with a null array, `radixSort` returns
`SORT_ERROR_NULL` for every `size`, 0 and 1 included (so the null check comes before the size
checks), requests no memory and frees none; there is no array to read. -/
theorem radixSort_null (al : Allocator Nat) (size : Nat) :
    radixSort al none size = some ⟨.SORT_ERROR_NULL, none, [], []⟩ :=
  rfl

/-- Claim C8 (zero-size rejection): for every non-null array, `radixSort` with `size = 0`
returns `SORT_ERROR_SIZE` and leaves the array as it was, whatever the allocator would answer:
no memory is requested. -/
theorem radixSort_zero_size (al : Allocator Nat) (arr : List Int) :
    radixSort al (some arr) 0 = some ⟨.SORT_ERROR_SIZE, some arr, [], []⟩ :=
  rfl

/-- Claim C9 (single element): for every non-null array, `radixSort` with `size = 1` returns
`SORT_SUCCESS` and leaves the array as it was, whatever the allocator would answer: no memory
is requested. -/
theorem radixSort_single (al : Allocator Nat) (arr : List Int) :
    radixSort al (some arr) 1 = some ⟨.SORT_SUCCESS, some arr, [], []⟩ :=
  rfl

/-- Claim C10 (allocation failure is atomic): for every non-null array and `size >= 2`, when
the first `malloc` fails, or the first succeeds and the second fails, `radixSort` returns
`SORT_ERROR_MEMORY` and the caller's array is what it was before the call. -/
theorem radixSort_alloc_failure_atomic (al : Allocator Nat) (arr : List Int) (size : Nat)
    (h2 : 2 ≤ size)
    (hf : al.succeeds 0 (size * SIZEOF_U32 % SIZE_MODULUS) = false
      ∨ (al.succeeds 0 (size * SIZEOF_U32 % SIZE_MODULUS) = true
          ∧ al.succeeds 1 (size * SIZEOF_U32 % SIZE_MODULUS) = false)) :
    ∃ out, radixSort al (some arr) size = some out
      ∧ out.result = .SORT_ERROR_MEMORY ∧ out.arr = some arr := by
  unfold radixSort
  simp only
  rw [if_neg (by omega), if_neg (by omega)]
  rcases hf with h1 | ⟨h1, h3⟩
  · have m1 : malloc al 0 (size * SIZEOF_U32 % SIZE_MODULUS) = none := by
      unfold malloc; rw [h1]; rfl
    rw [m1]
    exact ⟨_, rfl, rfl, rfl⟩
  · have m1 : malloc al 0 (size * SIZEOF_U32 % SIZE_MODULUS)
        = some ((List.range (size * SIZEOF_U32 % SIZE_MODULUS / SIZEOF_U32)).map
            (al.garbage 0)) := by
      unfold malloc; rw [h1]; rfl
    have m2 : malloc al 1 (size * SIZEOF_U32 % SIZE_MODULUS) = none := by
      unfold malloc; rw [h3]; rfl
    rw [m1]
    simp only
    rw [m2]
    exact ⟨_, rfl, rfl, rfl⟩

theorem radixSort_alloc_failure_atomic_witness :
    (2 ≤ 3
      ∧ refuseAll.succeeds 0 (3 * SIZEOF_U32 % SIZE_MODULUS) = false
      ∧ ∃ out, radixSort refuseAll (some [3, -1, 2]) 3 = some out
          ∧ out.result = .SORT_ERROR_MEMORY ∧ out.arr = some [3, -1, 2])
      ∧ (grantFirst.succeeds 0 (3 * SIZEOF_U32 % SIZE_MODULUS) = true
          ∧ grantFirst.succeeds 1 (3 * SIZEOF_U32 % SIZE_MODULUS) = false
          ∧ ∃ out, radixSort grantFirst (some [3, -1, 2]) 3 = some out
              ∧ out.result = .SORT_ERROR_MEMORY ∧ out.arr = some [3, -1, 2]) :=
  ⟨⟨by decide, rfl,
      radixSort_alloc_failure_atomic refuseAll [3, -1, 2] 3 (by decide) (Or.inl rfl)⟩,
    ⟨rfl, rfl,
      radixSort_alloc_failure_atomic grantFirst [3, -1, 2] 3 (by decide) (Or.inr ⟨rfl, rfl⟩)⟩⟩

/-! ## Oversized requests -/

/-- A call with `size >= 2` whose two requests are granted only returns when the byte count
did not wrap and the array has at least `size` elements. -/
theorem keyed_radixSort_some_of_granted {α β : Type} (fwd : α → β) (inv : β → α)
    (key : β → Nat) (al : Allocator β) (a : List α) (size : Nat) (out : Outcome α)
    (h2 : 2 ≤ size)
    (ok1 : al.succeeds 0 (size * SIZEOF_U32 % SIZE_MODULUS) = true)
    (ok2 : al.succeeds 1 (size * SIZEOF_U32 % SIZE_MODULUS) = true)
    (h : Keyed.radixSort fwd inv key al (some a) size = some out) :
    size ≤ a.length ∧ size * SIZEOF_U32 < SIZE_MODULUS := by
  unfold Keyed.radixSort at h
  simp only at h
  rw [if_neg (by omega), if_neg (by omega)] at h
  have m1 : malloc al 0 (size * SIZEOF_U32 % SIZE_MODULUS)
      = some ((List.range (size * SIZEOF_U32 % SIZE_MODULUS / SIZEOF_U32)).map
          (al.garbage 0)) := by
    unfold malloc; rw [if_pos ok1]
  have m2 : malloc al 1 (size * SIZEOF_U32 % SIZE_MODULUS)
      = some ((List.range (size * SIZEOF_U32 % SIZE_MODULUS / SIZEOF_U32)).map
          (al.garbage 1)) := by
    unfold malloc; rw [if_pos ok2]
  rw [m1] at h
  simp only at h
  rw [m2] at h
  simp only [Option.bind_eq_bind, Option.bind_eq_some] at h
  obtain ⟨t, ht, _⟩ := h
  have hl := copyLoop_some fwd a size _ t ht
  rw [List.length_map, List.length_range] at hl
  exact ⟨hl.1, no_wrap_of_le size hl.2⟩

/-- The part of the oversized-request behaviour that holds: when `4 * size` is a representable
`size_t` and exceeds the capacity, the first request is refused, the call returns
`SORT_ERROR_MEMORY` and the array is untouched. -/
theorem radixSort_oversized_of_no_wrap (capacity : Nat) (arr : List Int) (size : Nat)
    (h2 : 2 ≤ size) (hnw : size * SIZEOF_U32 < SIZE_MODULUS)
    (hbig : capacity < size * SIZEOF_U32) :
    radixSort (boundedAllocator capacity) (some arr) size
      = some ⟨.SORT_ERROR_MEMORY, some arr, [size * SIZEOF_U32], []⟩ := by
  unfold radixSort
  simp only
  rw [if_neg (by omega), if_neg (by omega), Nat.mod_eq_of_lt hnw]
  have m1 : malloc (boundedAllocator capacity) 0 (size * SIZEOF_U32) = none := by
    unfold malloc boundedAllocator
    simp only [decide_eq_true_eq]
    rw [if_neg (by omega)]
  rw [m1]

/-- Claim C11 (oversized request), evaluated where it fails: with 1 GiB available and
`size = 2^62 + 1` the true requirement of `2^64 + 4` bytes exceeds the capacity, but the byte
count the code computes wraps to 4, both requests are granted, and the call does not return
`SORT_ERROR_MEMORY`: the transform loop runs off the end of the one-word buffer (and of the
three-element array), which the embedding reports as `none`. -/
theorem radixSort_oversized_wraps :
    1073741824 < 4 * 4611686018427387905
      ∧ 4611686018427387905 * SIZEOF_U32 % SIZE_MODULUS = 4
      ∧ malloc (boundedAllocator 1073741824) 0 4 = some [0]
      ∧ malloc (boundedAllocator 1073741824) 1 4 = some [0]
      ∧ radixSort (boundedAllocator 1073741824) (some [1, 2, 3]) 4611686018427387905
          = none := by
  refine ⟨by decide, by decide, by decide, by decide, ?_⟩
  cases h : radixSort (boundedAllocator 1073741824) (some [1, 2, 3]) 4611686018427387905 with
  | none => rfl
  | some out =>
    rw [radixSort_eq_keyed] at h
    have := keyed_radixSort_some_of_granted forwardTransform inverseTransform id
      (boundedAllocator 1073741824) [1, 2, 3] 4611686018427387905 out (by decide)
      (by decide) (by decide) h
    have h3 : ([1, 2, 3] : List Int).length = 3 := rfl
    omega

/-! ## Extremes of the transform, result strings, release of the buffers -/

/-- Claim C15 (extremes of the forward transform): `INT32_MIN` maps to 0, `INT32_MAX` to
`0xFFFFFFFF`, 0 to `0x80000000`, and the inverse transform maps 0 to `INT32_MIN`. -/
theorem forwardTransform_extremes :
    forwardTransform (-2147483648) = 0
      ∧ forwardTransform 2147483647 = 0xFFFFFFFF
      ∧ forwardTransform 0 = 0x80000000
      ∧ inverseTransform 0 = -2147483648 := by
  decide

/-- Claim C16 (`getSortResultString` is a total lookup): each of the four codes 0, -1, -2, -3
yields its own string, the four strings and the default string are pairwise distinct, and
every other integer yields the default string. -/
theorem getSortResultString_lookup :
    (SortResult.SORT_SUCCESS.code = 0 ∧ SortResult.SORT_ERROR_NULL.code = -1
        ∧ SortResult.SORT_ERROR_SIZE.code = -2 ∧ SortResult.SORT_ERROR_MEMORY.code = -3)
      ∧ getSortResultString 0 = "Uspešno sortiranje"
      ∧ getSortResultString (-1) = "Greška: NULL pokazivač"
      ∧ getSortResultString (-2) = "Greška: Veličina niza je 0"
      ∧ getSortResultString (-3) = "Greška: Neuspela alokacija memorije"
      ∧ [getSortResultString 0, getSortResultString (-1), getSortResultString (-2),
          getSortResultString (-3), "Nepoznata greška"].Pairwise (· ≠ ·)
      ∧ ∀ r : Int, r ≠ 0 → r ≠ -1 → r ≠ -2 → r ≠ -3 →
          getSortResultString r = "Nepoznata greška" := by
  refine ⟨⟨rfl, rfl, rfl, rfl⟩, by decide, by decide, by decide, by decide, by decide, ?_⟩
  intro r h0 h1 h2 h3
  unfold getSortResultString SortResult.code
  rw [if_neg h0, if_neg h1, if_neg h2, if_neg h3]

theorem getSortResultString_lookup_witness :
    (7 : Int) ≠ 0 ∧ (7 : Int) ≠ -1 ∧ (7 : Int) ≠ -2 ∧ (7 : Int) ≠ -3
      ∧ getSortResultString 7 = "Nepoznata greška" :=
  ⟨by decide, by decide, by decide, by decide,
    getSortResultString_lookup.2.2.2.2.2.2 7 (by decide) (by decide) (by decide) (by decide)⟩

/-- Claim C17 (scoped release of the working buffers): whenever `radixSort` returns, the
buffers it passed to `free` are exactly those it obtained from `malloc` in that call, each
once.  The null, zero-size and size-1 paths request and free nothing; a refused first request
frees nothing; a refused second request frees the first buffer; when both are granted both
buffers are freed and the call has succeeded. -/
theorem radixSort_release (al : Allocator Nat) (arr : Option (List Int)) (size : Nat)
    (out : Outcome Int) (h : radixSort al arr size = some out) :
    (arr = none ∨ size = 0 ∨ size = 1 → out.mallocs = [] ∧ out.frees = [])
      ∧ (arr ≠ none → 2 ≤ size →
          al.succeeds 0 (size * SIZEOF_U32 % SIZE_MODULUS) = false →
          out.mallocs = [size * SIZEOF_U32 % SIZE_MODULUS] ∧ out.frees = [])
      ∧ (arr ≠ none → 2 ≤ size →
          al.succeeds 0 (size * SIZEOF_U32 % SIZE_MODULUS) = true →
          al.succeeds 1 (size * SIZEOF_U32 % SIZE_MODULUS) = false →
          out.mallocs = [size * SIZEOF_U32 % SIZE_MODULUS, size * SIZEOF_U32 % SIZE_MODULUS]
            ∧ out.frees = [.temp1])
      ∧ (arr ≠ none → 2 ≤ size →
          al.succeeds 0 (size * SIZEOF_U32 % SIZE_MODULUS) = true →
          al.succeeds 1 (size * SIZEOF_U32 % SIZE_MODULUS) = true →
          out.mallocs = [size * SIZEOF_U32 % SIZE_MODULUS, size * SIZEOF_U32 % SIZE_MODULUS]
            ∧ out.frees = [.temp1, .temp2] ∧ out.result = .SORT_SUCCESS)
      ∧ out.frees.Nodup
      ∧ (Buf.temp1 ∈ out.frees ↔ arr ≠ none ∧ 2 ≤ size
          ∧ al.succeeds 0 (size * SIZEOF_U32 % SIZE_MODULUS) = true)
      ∧ (Buf.temp2 ∈ out.frees ↔ arr ≠ none ∧ 2 ≤ size
          ∧ al.succeeds 0 (size * SIZEOF_U32 % SIZE_MODULUS) = true
          ∧ al.succeeds 1 (size * SIZEOF_U32 % SIZE_MODULUS) = true) := by
  unfold radixSort at h
  cases arr with
  | none =>
    simp only [Option.some.injEq] at h
    subst h
    simp
  | some a =>
    simp only at h
    by_cases h0 : size = 0
    · rw [if_pos h0] at h
      simp only [Option.some.injEq] at h
      subst h
      simp [h0]
    · rw [if_neg h0] at h
      by_cases h1 : size = 1
      · rw [if_pos h1] at h
        simp only [Option.some.injEq] at h
        subst h
        simp [h1]
      · rw [if_neg h1] at h
        have h2 : 2 ≤ size := by omega
        cases ok1 : al.succeeds 0 (size * SIZEOF_U32 % SIZE_MODULUS) with
        | false =>
          have m1 : malloc al 0 (size * SIZEOF_U32 % SIZE_MODULUS) = none := by
            unfold malloc; rw [ok1]; rfl
          rw [m1] at h
          simp only [Option.some.injEq] at h
          subst h
          simp [h0, h1]
        | true =>
          have m1 : malloc al 0 (size * SIZEOF_U32 % SIZE_MODULUS)
              = some ((List.range (size * SIZEOF_U32 % SIZE_MODULUS / SIZEOF_U32)).map
                  (al.garbage 0)) := by
            unfold malloc; rw [ok1]; rfl
          rw [m1] at h
          simp only at h
          cases ok2 : al.succeeds 1 (size * SIZEOF_U32 % SIZE_MODULUS) with
          | false =>
            have m2 : malloc al 1 (size * SIZEOF_U32 % SIZE_MODULUS) = none := by
              unfold malloc; rw [ok2]; rfl
            rw [m2] at h
            simp only [Option.some.injEq] at h
            subst h
            simp [h0, h1, h2]
          | true =>
            have m2 : malloc al 1 (size * SIZEOF_U32 % SIZE_MODULUS)
                = some ((List.range (size * SIZEOF_U32 % SIZE_MODULUS / SIZEOF_U32)).map
                    (al.garbage 1)) := by
              unfold malloc; rw [ok2]; rfl
            rw [m2] at h
            simp only [Option.bind_eq_bind, Option.bind_eq_some, Option.pure_def,
              Option.some.injEq] at h
            obtain ⟨_, _, _, _, _, _, h⟩ := h
            subst h
            simp [h0, h1, h2]

theorem radixSort_release_witness :
    radixSort grantFirst (some [3, -1, 2]) 3
        = some ⟨.SORT_ERROR_MEMORY, some [3, -1, 2], [12, 12], [.temp1]⟩
      ∧ (Buf.temp1 ∈ [Buf.temp1] ↔ (some [3, -1, 2] : Option (List Int)) ≠ none ∧ 2 ≤ 3
          ∧ grantFirst.succeeds 0 (3 * SIZEOF_U32 % SIZE_MODULUS) = true) :=
  ⟨rfl, (radixSort_release grantFirst (some [3, -1, 2]) 3
    ⟨.SORT_ERROR_MEMORY, some [3, -1, 2], [12, 12], [.temp1]⟩ rfl).2.2.2.2.2.1⟩

/-! ## Sorted inputs, idempotence, the scenario at the extremes -/

/-- The whole-array run of `radixSort` on at least two elements when both requests are granted
and `4 * n` bytes is a representable `size_t`. -/
theorem radixSort_run (al : Allocator Nat) (arr : List Int) (h2 : 2 ≤ arr.length)
    (hw : arr.length * SIZEOF_U32 < SIZE_MODULUS)
    (ok1 : al.succeeds 0 (arr.length * SIZEOF_U32) = true)
    (ok2 : al.succeeds 1 (arr.length * SIZEOF_U32) = true) :
    radixSort al (some arr) arr.length
      = some ⟨.SORT_SUCCESS,
          some ((fourPasses id (arr.map forwardTransform)).map inverseTransform),
          [arr.length * SIZEOF_U32, arr.length * SIZEOF_U32], [.temp1, .temp2]⟩ := by
  rw [radixSort_eq_keyed,
    keyed_radixSort_eq forwardTransform inverseTransform id al arr arr.length h2 (le_refl _)
      hw ok1 ok2,
    List.take_length, List.drop_length, List.append_nil]

theorem pairwise_of_adjacent (l : List Int)
    (h : ∀ (i : Nat) (hi : i + 1 < l.length), l[i] ≤ l[i + 1]) : l.Pairwise (· ≤ ·) := by
  rw [← List.chain'_iff_pairwise, List.chain'_iff_get]
  intro i hi
  exact h i (by omega)

/-- Four passes leave a sorted list of 32-bit words as it is. -/
theorem fourPasses_of_sorted (l : List Nat) (hs : l.Pairwise (· ≤ ·))
    (hk : ∀ x ∈ l, x < 4294967296) : fourPasses id l = l := by
  have h1 : (fourPasses id l).Pairwise (· ≤ ·) := fourPasses_sorted id l hk
  exact List.eq_of_perm_of_sorted (fourPasses_perm id l) h1 hs

theorem forwardTransform_mono (a b : Int) (ha : isInt32 a) (hb : isInt32 b) (h : a ≤ b) :
    forwardTransform a ≤ forwardTransform b := by
  have e1 := forwardTransform_eq a ha
  have e2 := forwardTransform_eq b hb
  omega

/-- The values written back for a sorted array of `int32_t` values are the array itself. -/
theorem sorted_values_of_sorted (arr : List Int) (hr : ∀ x ∈ arr, isInt32 x)
    (hs : arr.Pairwise (· ≤ ·)) :
    (fourPasses id (arr.map forwardTransform)).map inverseTransform = arr := by
  have h1 : (arr.map forwardTransform).Pairwise (· ≤ ·) := by
    rw [List.pairwise_map]
    exact hs.imp_of_mem (fun ha hb hab => forwardTransform_mono _ _ (hr _ ha) (hr _ hb) hab)
  have h2 : ∀ x ∈ arr.map forwardTransform, x < 4294967296 := by
    intro x hx
    rw [List.mem_map] at hx
    obtain ⟨y, _, rfl⟩ := hx
    exact forwardTransform_lt y
  rw [fourPasses_of_sorted _ h1 h2, List.map_map]
  conv_rhs => rw [← List.map_id arr]
  apply List.map_congr_left
  intro x hx
  exact inverse_forward x (hr x hx)

/-- Sorting the values already written back gives them again. -/
theorem sorted_values_idem (arr : List Int) :
    (fourPasses id
        (((fourPasses id (arr.map forwardTransform)).map inverseTransform).map
          forwardTransform)).map inverseTransform
      = (fourPasses id (arr.map forwardTransform)).map inverseTransform := by
  have h2 : ∀ x ∈ arr.map forwardTransform, id x < 4294967296 := by
    intro x hx
    rw [List.mem_map] at hx
    obtain ⟨y, _, rfl⟩ := hx
    exact forwardTransform_lt y
  have h3 : ∀ x ∈ fourPasses id (arr.map forwardTransform), x < 4294967296 := by
    intro x hx
    rw [fourPasses_mem] at hx
    exact h2 x hx
  have e : ((fourPasses id (arr.map forwardTransform)).map inverseTransform).map
      forwardTransform = fourPasses id (arr.map forwardTransform) := by
    rw [List.map_map]
    conv_rhs => rw [← List.map_id (fourPasses id (arr.map forwardTransform))]
    apply List.map_congr_left
    intro x hx
    exact forward_inverse x (h3 x hx)
  rw [e, fourPasses_of_sorted _ (fourPasses_sorted id _ h2) h3]

/-- Claim C12 (already-sorted input is a fixed point), as amended: for every non-null array of
`n >= 1` `int32_t` values in non-decreasing order, when the two working buffers are granted
(no request is made for `n = 1`), `radixSort` returns `SORT_SUCCESS` and the array after the
call is the array before the call.  The bytes `4 * n` are a representable `size_t`, as for
every array that exists. -/
theorem radixSort_sorted_fixed_point (al : Allocator Nat) (arr : List Int)
    (hr : ∀ x ∈ arr, isInt32 x)
    (hs : ∀ (i : Nat) (hi : i + 1 < arr.length), arr[i] ≤ arr[i + 1])
    (hn : 1 ≤ arr.length) (hw : arr.length * SIZEOF_U32 < SIZE_MODULUS)
    (hok : 2 ≤ arr.length → al.succeeds 0 (arr.length * SIZEOF_U32) = true
      ∧ al.succeeds 1 (arr.length * SIZEOF_U32) = true) :
    ∃ out, radixSort al (some arr) arr.length = some out
      ∧ out.result = .SORT_SUCCESS ∧ out.arr = some arr := by
  by_cases h1 : arr.length = 1
  · rw [h1]
    exact ⟨_, rfl, rfl, rfl⟩
  · have h2 : 2 ≤ arr.length := by omega
    refine ⟨_, radixSort_run al arr h2 hw (hok h2).1 (hok h2).2, rfl, ?_⟩
    simp only
    rw [sorted_values_of_sorted arr hr (pairwise_of_adjacent arr hs)]

theorem radixSort_sorted_fixed_point_witness :
    (∀ x ∈ ([-7, -7, 0, 5] : List Int), isInt32 x)
      ∧ (∀ (i : Nat) (hi : i + 1 < ([-7, -7, 0, 5] : List Int).length),
          ([-7, -7, 0, 5] : List Int)[i] ≤ ([-7, -7, 0, 5] : List Int)[i + 1])
      ∧ ∃ out, radixSort grantAll (some [-7, -7, 0, 5]) ([-7, -7, 0, 5] : List Int).length
          = some out ∧ out.result = .SORT_SUCCESS ∧ out.arr = some [-7, -7, 0, 5] :=
  have hs : ∀ (i : Nat) (hi : i + 1 < ([-7, -7, 0, 5] : List Int).length),
      ([-7, -7, 0, 5] : List Int)[i] ≤ ([-7, -7, 0, 5] : List Int)[i + 1] :=
    adjacent_of_pairwise [-7, -7, 0, 5] (by decide)
  ⟨by decide, hs,
    radixSort_sorted_fixed_point grantAll [-7, -7, 0, 5] (by decide) hs (by decide) (by decide)
      (fun _ => ⟨rfl, rfl⟩)⟩

/-- Claim C12 as stated fails when a working buffer is refused: on the sorted array `[1, 2]`
with an allocator that refuses the first request, the call returns `SORT_ERROR_MEMORY`, not
`SORT_SUCCESS` (the array is unchanged). -/
theorem radixSort_sorted_fixed_point_counterexample :
    (∀ x ∈ ([1, 2] : List Int), isInt32 x)
      ∧ ([1, 2] : List Int).Pairwise (· ≤ ·)
      ∧ radixSort refuseAll (some [1, 2]) 2 = some ⟨.SORT_ERROR_MEMORY, some [1, 2], [8], []⟩
      ∧ ¬ ∃ out, radixSort refuseAll (some [1, 2]) 2 = some out
          ∧ out.result = .SORT_SUCCESS ∧ out.arr = some [1, 2] := by
  refine ⟨by decide, by decide, rfl, ?_⟩
  rintro ⟨out, h, hs, _⟩
  have e : radixSort refuseAll (some [1, 2]) 2
      = some ⟨.SORT_ERROR_MEMORY, some [1, 2], [8], []⟩ := rfl
  rw [e] at h
  cases h
  cases hs

/-- Claim C13 (idempotence): for every non-null array of size `n >= 1`, with the working
buffers granted in both calls (and `4 * n` bytes a representable `size_t`), `radixSort`
returns `SORT_SUCCESS`, and `radixSort` applied to the array it leaves returns `SORT_SUCCESS`
and leaves exactly that array again. -/
theorem radixSort_idempotent (al1 al2 : Allocator Nat) (arr : List Int)
    (hn : 1 ≤ arr.length) (hw : arr.length * SIZEOF_U32 < SIZE_MODULUS)
    (hok1 : 2 ≤ arr.length → al1.succeeds 0 (arr.length * SIZEOF_U32) = true
      ∧ al1.succeeds 1 (arr.length * SIZEOF_U32) = true)
    (hok2 : 2 ≤ arr.length → al2.succeeds 0 (arr.length * SIZEOF_U32) = true
      ∧ al2.succeeds 1 (arr.length * SIZEOF_U32) = true) :
    ∃ out1 res, radixSort al1 (some arr) arr.length = some out1
      ∧ out1.result = .SORT_SUCCESS ∧ out1.arr = some res ∧ res.length = arr.length
      ∧ ∃ out2, radixSort al2 (some res) res.length = some out2
          ∧ out2.result = .SORT_SUCCESS ∧ out2.arr = some res := by
  by_cases h1 : arr.length = 1
  · refine ⟨⟨.SORT_SUCCESS, some arr, [], []⟩, arr, ?_, rfl, rfl, rfl, ?_⟩
    · rw [h1]; rfl
    · rw [h1]
      exact ⟨_, rfl, rfl, rfl⟩
  · have h2 : 2 ≤ arr.length := by omega
    have hl : ((fourPasses id (arr.map forwardTransform)).map inverseTransform).length
        = arr.length := by
      rw [List.length_map, fourPasses_length, List.length_map]
    refine ⟨_, _, radixSort_run al1 arr h2 hw (hok1 h2).1 (hok1 h2).2, rfl, rfl, hl, ?_⟩
    have hrun := radixSort_run al2
      ((fourPasses id (arr.map forwardTransform)).map inverseTransform)
      (by rw [hl]; exact h2) (by rw [hl]; exact hw) (by rw [hl]; exact (hok2 h2).1)
      (by rw [hl]; exact (hok2 h2).2)
    rw [sorted_values_idem arr] at hrun
    exact ⟨_, hrun, rfl, rfl⟩

theorem radixSort_idempotent_witness :
    1 ≤ ([3, -1, 2] : List Int).length
      ∧ ([3, -1, 2] : List Int).length * SIZEOF_U32 < SIZE_MODULUS
      ∧ ∃ out1 res, radixSort grantAll (some [3, -1, 2]) ([3, -1, 2] : List Int).length
            = some out1
          ∧ out1.result = .SORT_SUCCESS ∧ out1.arr = some res
          ∧ res.length = ([3, -1, 2] : List Int).length
          ∧ ∃ out2, radixSort grantAll (some res) res.length = some out2
              ∧ out2.result = .SORT_SUCCESS ∧ out2.arr = some res :=
  ⟨by decide, by decide,
    radixSort_idempotent grantAll grantAll [3, -1, 2] (by decide) (by decide)
      (fun _ => ⟨rfl, rfl⟩) (fun _ => ⟨rfl, rfl⟩)⟩

set_option maxRecDepth 100000 in
/-- Claim C14 (end-to-end scenario at the domain extremes), as amended: when the two 28-byte
working buffers are granted, `radixSort` on the 7-element array
`[2147483647, -2147483648, 0, 2147483646, -2147483647, 1, -1]` returns `SORT_SUCCESS` and
leaves `[-2147483648, -2147483647, -1, 0, 1, 2147483646, 2147483647]`. -/
theorem radixSort_extremes_scenario (al : Allocator Nat)
    (ok1 : al.succeeds 0 28 = true) (ok2 : al.succeeds 1 28 = true) :
    radixSort al (some [2147483647, -2147483648, 0, 2147483646, -2147483647, 1, -1]) 7
      = some ⟨.SORT_SUCCESS,
          some [-2147483648, -2147483647, -1, 0, 1, 2147483646, 2147483647],
          [28, 28], [.temp1, .temp2]⟩ := by
  have h := radixSort_run al [2147483647, -2147483648, 0, 2147483646, -2147483647, 1, -1]
    (by decide) (by decide) ok1 ok2
  have e : (fourPasses id
      (([2147483647, -2147483648, 0, 2147483646, -2147483647, 1, -1] : List Int).map
        forwardTransform)).map inverseTransform
      = [-2147483648, -2147483647, -1, 0, 1, 2147483646, 2147483647] := by
    decide
  rw [e] at h
  exact h

theorem radixSort_extremes_scenario_witness :
    grantAll.succeeds 0 28 = true ∧ grantAll.succeeds 1 28 = true
      ∧ radixSort grantAll
          (some [2147483647, -2147483648, 0, 2147483646, -2147483647, 1, -1]) 7
        = some ⟨.SORT_SUCCESS,
            some [-2147483648, -2147483647, -1, 0, 1, 2147483646, 2147483647],
            [28, 28], [.temp1, .temp2]⟩ :=
  ⟨rfl, rfl, radixSort_extremes_scenario grantAll rfl rfl⟩

/-- Claim C14 as stated fails when a working buffer is refused: with an allocator that refuses
the first request the call on the 7-element array returns `SORT_ERROR_MEMORY` and leaves the
array in its input order. -/
theorem radixSort_extremes_scenario_counterexample :
    radixSort refuseAll
        (some [2147483647, -2147483648, 0, 2147483646, -2147483647, 1, -1]) 7
      = some ⟨.SORT_ERROR_MEMORY,
          some [2147483647, -2147483648, 0, 2147483646, -2147483647, 1, -1], [28], []⟩
      ∧ ¬ ∃ out, radixSort refuseAll
            (some [2147483647, -2147483648, 0, 2147483646, -2147483647, 1, -1]) 7 = some out
          ∧ out.result = .SORT_SUCCESS
          ∧ out.arr = some [-2147483648, -2147483647, -1, 0, 1, 2147483646, 2147483647] := by
  refine ⟨rfl, ?_⟩
  rintro ⟨out, h, hs, _⟩
  have e : radixSort refuseAll
      (some [2147483647, -2147483648, 0, 2147483646, -2147483647, 1, -1]) 7
      = some ⟨.SORT_ERROR_MEMORY,
          some [2147483647, -2147483648, 0, 2147483646, -2147483647, 1, -1], [28], []⟩ := rfl
  rw [e] at h
  cases h
  cases hs

/-! ## The passes one after the other -/

theorem passStep_eq_keyed (size : Nat) (st : Heap Nat × Buf × Buf) (pass : Nat) :
    passStep size st pass = Keyed.passStep id size st pass := rfl

theorem heap_get_put_self {β : Type} (h : Heap β) (p : Buf) (l : List β) :
    (h.put p l).get p = l := by
  cases p <;> rfl

theorem heap_get_put_of_ne {β : Type} (h : Heap β) (p q : Buf) (l : List β) (hne : q ≠ p) :
    (h.put p l).get q = h.get q := by
  cases p <;> cases q <;> first | rfl | exact absurd rfl hne

theorem lsdPasses_perm {β : Type} (key : β → Nat) (m : Nat) (l : List β) :
    (lsdPasses key m l).Perm l := by
  induction m with
  | zero => exact List.Perm.refl _
  | succ m ih => exact (bucketPass_perm key _ _).trans ih

theorem lsdPasses_length {β : Type} (key : β → Nat) (m : Nat) (l : List β) :
    (lsdPasses key m l).length = l.length :=
  (lsdPasses_perm key m l).length_eq

theorem lsdPasses_four {β : Type} (key : β → Nat) (l : List β) :
    lsdPasses key 4 l = fourPasses key l := rfl

/-- The first `m <= 4` iterations of the pass loop: they all return, the buffer `input`
designates afterwards holds `lsdPasses m` of the initial source, and `output` designates the
other buffer, still of `size` elements. -/
theorem keyed_passes_run {β : Type} (key : β → Nat) (size : Nat) (t1 t2 : List β)
    (h1 : t1.length = size) (h2 : t2.length = size) (hlt : size < SIZE_MODULUS) (m : Nat)
    (hm : m ≤ NUM_PASSES) :
    ∃ st, (List.range m).foldlM (Keyed.passStep key size) (⟨t1, t2⟩, Buf.temp1, Buf.temp2)
        = some st
      ∧ st.1.get st.2.1 = lsdPasses key m t1 ∧ (st.1.get st.2.2).length = size
      ∧ st.2.2 ≠ st.2.1 := by
  induction m with
  | zero =>
    exact ⟨_, rfl, rfl, h2, fun h => Buf.noConfusion h⟩
  | succ m ih =>
    obtain ⟨st, hst, hin, hout, hne⟩ := ih (by omega)
    rw [List.range_succ, List.foldlM_append, hst]
    simp only [Option.bind_eq_bind, Option.some_bind, List.foldlM_cons, List.foldlM_nil,
      Option.pure_def, Keyed.passStep]
    rw [keyed_countingSortByByte_eq key _ _ size m
      (by rw [hin, lsdPasses_length]; exact h1) hout hlt (by omega)]
    simp only [Option.some_bind, Option.bind_some]
    refine ⟨_, rfl, ?_, ?_, ?_⟩
    · simp only
      rw [heap_get_put_self, hin]
      rfl
    · simp only
      rw [heap_get_put_of_ne _ _ _ _ (Ne.symm hne), hin, lsdPasses_length]
      exact h1
    · exact Ne.symm hne

theorem succ_mul_radix_bits (m : Nat) : (m + 1) * RADIX_BITS = m * RADIX_BITS + 8 := by
  unfold RADIX_BITS; omega

/-- After `m` passes the list is sorted on the low `8 * m` bits of the keys. -/
theorem lsdPasses_sorted_low {β : Type} (key : β → Nat) (m : Nat) (l : List β) :
    (lsdPasses key m l).Pairwise
      (fun a b => key a % 2 ^ (m * RADIX_BITS) ≤ key b % 2 ^ (m * RADIX_BITS)) := by
  induction m with
  | zero =>
    rw [List.pairwise_iff_forall_sublist]
    intro a b _
    simp [Nat.mod_one]
  | succ m ih =>
    rw [succ_mul_radix_bits]
    exact bucketPass_sorted_low key _ _ ih

theorem digitAt_mod_pow (j m x : Nat) (hj : j < m) :
    digitAt (j * RADIX_BITS) (x % 2 ^ (m * RADIX_BITS)) = digitAt (j * RADIX_BITS) x := by
  rw [digitAt_eq, digitAt_eq]
  have e : m * RADIX_BITS = j * RADIX_BITS + (m - j) * RADIX_BITS := by
    rw [← Nat.add_mul]; congr 1; omega
  rw [e, pow_add, Nat.mod_mul_right_div_self]
  apply Nat.mod_mod_of_dvd
  have e2 : (m - j) * RADIX_BITS = 8 + (m - j - 1) * RADIX_BITS := by
    have : m - j = (m - j - 1) + 1 := by omega
    rw [this, succ_mul_radix_bits]
    simp
    omega
  rw [e2, pow_add]
  exact Dvd.intro _ rfl

/-- The first `j <= m` passes keep the source order of the elements whose keys have given low
`8 * m` bits. -/
theorem lsdPasses_filter_low {β : Type} (key : β → Nat) (m j : Nat) (hj : j ≤ m)
    (l : List β) (v : Nat) :
    (lsdPasses key j l).filter (fun x => key x % 2 ^ (m * RADIX_BITS) == v)
      = l.filter (fun x => key x % 2 ^ (m * RADIX_BITS) == v) := by
  induction j with
  | zero => rfl
  | succ j ih =>
    have hp : ∀ x, (fun x => key x % 2 ^ (m * RADIX_BITS) == v) x = true
        → digitAt (j * RADIX_BITS) (key x) = digitAt (j * RADIX_BITS) v := by
      intro x hx
      simp only [beq_iff_eq] at hx
      rw [← digitAt_mod_pow j m (key x) (by omega), hx]
    show (bucketPass key (j * RADIX_BITS) (lsdPasses key j l)).filter _ = _
    rw [bucketPass_filter_of_digit key _ _ _ _ hp, ih (by omega)]

/-- The first `m` passes keep the source order of any two elements whose keys agree on the
low `8 * m` bits. -/
theorem lsdPasses_sublist_pair {β : Type} (key : β → Nat) (m : Nat) (l : List β) (a b : β)
    (hab : [a, b].Sublist (lsdPasses key m l))
    (hk : key a % 2 ^ (m * RADIX_BITS) = key b % 2 ^ (m * RADIX_BITS)) :
    [a, b].Sublist l := by
  have h1 := hab.filter
    (fun x => key x % 2 ^ (m * RADIX_BITS) == key b % 2 ^ (m * RADIX_BITS))
  rw [lsdPasses_filter_low key m m (le_refl _)] at h1
  have h2 : [a, b].filter
      (fun x => key x % 2 ^ (m * RADIX_BITS) == key b % 2 ^ (m * RADIX_BITS)) = [a, b] := by
    simp [List.filter_cons, hk]
  rw [h2] at h1
  exact h1.trans (List.filter_sublist l)

theorem lsdPasses_map {β : Type} (key : β → Nat) (m : Nat) (l : List β) :
    lsdPasses id m (l.map key) = (lsdPasses key m l).map key := by
  induction m with
  | zero => rfl
  | succ m ih =>
    show bucketPass id _ (lsdPasses id m (l.map key)) = (bucketPass key _ _).map key
    rw [ih, bucketPass_map]

theorem withIndex_length (l : List Nat) : (withIndex l).length = l.length := by
  simp [withIndex]

theorem withIndex_map_fst (l : List Nat) : (withIndex l).map Prod.fst = l := by
  unfold withIndex
  exact List.map_fst_zip _ _ (by simp)

theorem withIndex_map_snd (l : List Nat) :
    (withIndex l).map Prod.snd = List.range l.length := by
  unfold withIndex
  exact List.map_snd_zip _ _ (by simp)

theorem withIndex_getElem (l : List Nat) (i : Nat) (hi : i < l.length) :
    (withIndex l)[i]? = some (l[i], i) := by
  unfold withIndex
  rw [List.getElem?_eq_getElem (by simp; exact hi)]
  simp [List.getElem_zip]

theorem withIndex_pairwise (l : List Nat) :
    (withIndex l).Pairwise (fun a b => a.2 < b.2) := by
  have h := List.pairwise_lt_range l.length
  rw [← withIndex_map_snd l, List.pairwise_map] at h
  exact h

theorem withIndex_nodup (l : List Nat) : (withIndex l).Nodup := by
  apply List.Nodup.of_map Prod.snd
  rw [withIndex_map_snd]
  exact List.nodup_range _

/-- In a pass over an indexed buffer, elements with the same digit are in ascending index
order. -/
theorem bucketPass_withIndex_ties (shift : Nat) (src : List Nat) :
    (bucketPass Prod.fst shift (withIndex src)).Pairwise
      (fun a b => digitAt shift a.1 = digitAt shift b.1 → a.2 < b.2) := by
  rw [List.pairwise_iff_forall_sublist]
  intro a b hab hd
  exact List.pairwise_iff_forall_sublist.mp (withIndex_pairwise src)
    (bucketPass_sublist_pair Prod.fst shift _ a b hab hd)

/-- Claim C20 (per-pass stability): run one pass of `countingSortByByte` on a source buffer
of `n` words, plane `p < 4`, and run the same code on the source with every element tagged
with its index.  Both return; erasing the tags of the tagged output gives the output of the
untagged run; the tagged output holds every tagged source element exactly once; and for two
source indices `i < j` whose elements have the same digit `(x >> 8p) & 0xFF`, the element
from index `i` sits at a strictly lower destination index than the element from index `j`. -/
theorem countingSortByByte_stable (src dst : List Nat) (dstT : List (Nat × Nat)) (p : Nat)
    (hp : p < NUM_PASSES) (hd : dst.length = src.length) (hdT : dstT.length = src.length)
    (hlt : src.length < SIZE_MODULUS) :
    ∃ (out : List Nat) (outT : List (Nat × Nat)),
      countingSortByByte src src.length dst p = some out
        ∧ Keyed.countingSortByByte Prod.fst (withIndex src) src.length dstT p = some outT
        ∧ outT.map Prod.fst = out
        ∧ outT.Perm (withIndex src) ∧ outT.Nodup
        ∧ ∀ (i j : Nat) (hij : i < j) (hj : j < src.length),
            (src[i] >>> (p * RADIX_BITS)) &&& 0xFF = (src[j] >>> (p * RADIX_BITS)) &&& 0xFF →
            ∃ a b : Nat, a < b ∧ outT[a]? = some (src[i], i) ∧ outT[b]? = some (src[j], j) := by
  have hperm := bucketPass_perm Prod.fst (p * RADIX_BITS) (withIndex src)
  refine ⟨bucketPass id (p * RADIX_BITS) src,
    bucketPass Prod.fst (p * RADIX_BITS) (withIndex src), ?_, ?_, ?_, hperm,
    (hperm.nodup_iff).mpr (withIndex_nodup src), ?_⟩
  · rw [countingSortByByte_eq_keyed]
    exact keyed_countingSortByByte_eq id src dst src.length p rfl hd hlt hp
  · exact keyed_countingSortByByte_eq Prod.fst (withIndex src) dstT src.length p
      (withIndex_length src) hdT hlt hp
  · rw [← bucketPass_map, withIndex_map_fst]
  · intro i j hij hj hdig
    have hi : i < src.length := by omega
    have mi : (src[i], i) ∈ bucketPass Prod.fst (p * RADIX_BITS) (withIndex src) := by
      rw [bucketPass_mem]
      exact List.getElem?_mem (withIndex_getElem src i hi)
    have mj : (src[j], j) ∈ bucketPass Prod.fst (p * RADIX_BITS) (withIndex src) := by
      rw [bucketPass_mem]
      exact List.getElem?_mem (withIndex_getElem src j hj)
    obtain ⟨a, ha, ea⟩ := List.getElem_of_mem mi
    obtain ⟨b, hb, eb⟩ := List.getElem_of_mem mj
    refine ⟨a, b, ?_, ?_, ?_⟩
    · have hties := List.pairwise_iff_getElem.mp (bucketPass_withIndex_ties (p * RADIX_BITS) src)
      rcases Nat.lt_trichotomy a b with h | h | h
      · exact h
      · subst h
        rw [ea] at eb
        have : i = j := congrArg Prod.snd eb
        omega
      · have := hties b a hb ha h
        rw [ea, eb] at this
        have := this hdig.symm
        simp only at this
        omega
    · rw [List.getElem?_eq_getElem ha, ea]
    · rw [List.getElem?_eq_getElem hb, eb]

set_option maxRecDepth 100000 in
theorem countingSortByByte_stable_witness :
    1 < NUM_PASSES ∧ ([0, 0, 0] : List Nat).length = ([258, 513, 256] : List Nat).length
      ∧ ([(0, 0), (0, 0), (0, 0)] : List (Nat × Nat)).length
          = ([258, 513, 256] : List Nat).length
      ∧ ([258, 513, 256] : List Nat).length < SIZE_MODULUS
      ∧ ∃ (out : List Nat) (outT : List (Nat × Nat)),
          countingSortByByte [258, 513, 256] ([258, 513, 256] : List Nat).length [0, 0, 0] 1
              = some out
            ∧ Keyed.countingSortByByte Prod.fst (withIndex [258, 513, 256])
                ([258, 513, 256] : List Nat).length [(0, 0), (0, 0), (0, 0)] 1 = some outT
            ∧ outT.map Prod.fst = out
            ∧ outT.Perm (withIndex [258, 513, 256]) ∧ outT.Nodup
            ∧ ∀ (i j : Nat) (hij : i < j) (hj : j < ([258, 513, 256] : List Nat).length),
                (([258, 513, 256] : List Nat)[i] >>> (1 * RADIX_BITS)) &&& 0xFF
                    = (([258, 513, 256] : List Nat)[j] >>> (1 * RADIX_BITS)) &&& 0xFF →
                ∃ a b : Nat, a < b ∧ outT[a]? = some (([258, 513, 256] : List Nat)[i], i)
                  ∧ outT[b]? = some (([258, 513, 256] : List Nat)[j], j) :=
  ⟨by decide, rfl, rfl, by decide,
    countingSortByByte_stable [258, 513, 256] [0, 0, 0] [(0, 0), (0, 0), (0, 0)] 1 (by decide)
      rfl rfl (by decide)⟩

/-- After `m` passes over an indexed buffer, elements that agree on the low `8 * m` bits are
in ascending index order. -/
theorem lsdPasses_withIndex_ties (m : Nat) (src : List Nat) :
    (lsdPasses Prod.fst m (withIndex src)).Pairwise
      (fun a b => a.1 % 2 ^ (m * RADIX_BITS) = b.1 % 2 ^ (m * RADIX_BITS) → a.2 < b.2) := by
  rw [List.pairwise_iff_forall_sublist]
  intro a b hab hd
  exact List.pairwise_iff_forall_sublist.mp (withIndex_pairwise src)
    (lsdPasses_sublist_pair Prod.fst m _ a b hab hd)

/-- Claim C19 (LSD pass invariant): run the first `k + 1` iterations of the pass loop, `k` in
`{0, 1, 2, 3}`, on a buffer of `uint32_t` words, and run the same code on the buffer with every
element tagged with its index.  All iterations return.  The buffer that `input` designates
afterwards is the source rearranged, erasing the tags of the tagged run gives the untagged
run, the buffer is in non-decreasing order of the low `(k + 1) * 8` bits, the elements with
given low `(k + 1) * 8` bits are in the order they had in the source (as a sublist of values,
and by ascending original index in the tagged run), and for `k = 3` the buffer is in
non-decreasing order of the whole words. -/
theorem lsd_pass_invariant (k : Nat) (hk : k < NUM_PASSES) (buf other : List Nat)
    (otherT : List (Nat × Nat)) (hu : ∀ x ∈ buf, isUInt32 x)
    (ho : other.length = buf.length) (hoT : otherT.length = buf.length)
    (hlt : buf.length < SIZE_MODULUS) :
    ∃ (st : Heap Nat × Buf × Buf) (stT : Heap (Nat × Nat) × Buf × Buf),
      (List.range (k + 1)).foldlM (passStep buf.length) (⟨buf, other⟩, .temp1, .temp2)
          = some st
        ∧ (List.range (k + 1)).foldlM (Keyed.passStep Prod.fst buf.length)
            (⟨withIndex buf, otherT⟩, .temp1, .temp2) = some stT
        ∧ (stT.1.get stT.2.1).map Prod.fst = st.1.get st.2.1
        ∧ (stT.1.get stT.2.1).Perm (withIndex buf)
        ∧ (st.1.get st.2.1).Perm buf
        ∧ (st.1.get st.2.1).Pairwise
            (fun a b => a % 2 ^ ((k + 1) * RADIX_BITS) ≤ b % 2 ^ ((k + 1) * RADIX_BITS))
        ∧ (∀ v : Nat,
            (st.1.get st.2.1).filter (fun x => x % 2 ^ ((k + 1) * RADIX_BITS) == v)
              = buf.filter (fun x => x % 2 ^ ((k + 1) * RADIX_BITS) == v))
        ∧ (∀ (i j : Nat) (hij : i < j) (hj : j < (stT.1.get stT.2.1).length),
            ((stT.1.get stT.2.1)[i]).1 % 2 ^ ((k + 1) * RADIX_BITS)
                = ((stT.1.get stT.2.1)[j]).1 % 2 ^ ((k + 1) * RADIX_BITS) →
              ((stT.1.get stT.2.1)[i]).2 < ((stT.1.get stT.2.1)[j]).2)
        ∧ (k = 3 → (st.1.get st.2.1).Pairwise (· ≤ ·)) := by
  have hm : k + 1 ≤ NUM_PASSES := hk
  obtain ⟨st, hst, hin, _, _⟩ := keyed_passes_run id buf.length buf other rfl ho hlt (k + 1) hm
  obtain ⟨stT, hstT, hinT, _, _⟩ := keyed_passes_run Prod.fst buf.length (withIndex buf) otherT
    (withIndex_length buf) hoT hlt (k + 1) hm
  have e : passStep buf.length = Keyed.passStep id buf.length := rfl
  refine ⟨st, stT, by rw [e]; exact hst, hstT, ?_, ?_, ?_, ?_, ?_, ?_, ?_⟩
  · rw [hin, hinT, ← lsdPasses_map, withIndex_map_fst]
  · rw [hinT]
    exact lsdPasses_perm _ _ _
  · rw [hin]
    exact lsdPasses_perm _ _ _
  · rw [hin]
    exact lsdPasses_sorted_low id (k + 1) buf
  · intro v
    rw [hin]
    exact lsdPasses_filter_low id (k + 1) (k + 1) (le_refl _) buf v
  · intro i j hij hj
    have hties := List.pairwise_iff_getElem.mp (lsdPasses_withIndex_ties (k + 1) buf)
    simp only [hinT] at hj ⊢
    exact hties i j (by omega) hj hij
  · intro h3
    subst h3
    rw [hin]
    have hs := lsdPasses_sorted_low id 4 buf
    refine hs.imp_of_mem ?_
    intro a b ha hb hab
    have ha' := hu a ((lsdPasses_perm id 4 buf).mem_iff.mp ha)
    have hb' := hu b ((lsdPasses_perm id 4 buf).mem_iff.mp hb)
    unfold isUInt32 U32_MODULUS at ha' hb'
    have e4 : 4 * RADIX_BITS = 32 := rfl
    rw [e4] at hab
    simp only [id] at hab
    omega

theorem lsd_pass_invariant_witness :
    1 < NUM_PASSES ∧ (∀ x ∈ ([258, 513, 256] : List Nat), isUInt32 x)
      ∧ ([258, 513, 256] : List Nat).length < SIZE_MODULUS
      ∧ ∃ (st : Heap Nat × Buf × Buf) (stT : Heap (Nat × Nat) × Buf × Buf),
          (List.range (1 + 1)).foldlM (passStep ([258, 513, 256] : List Nat).length)
              (⟨[258, 513, 256], [0, 0, 0]⟩, .temp1, .temp2) = some st
            ∧ (List.range (1 + 1)).foldlM
                (Keyed.passStep Prod.fst ([258, 513, 256] : List Nat).length)
                (⟨withIndex [258, 513, 256], [(0, 0), (0, 0), (0, 0)]⟩, .temp1, .temp2)
                = some stT
            ∧ (stT.1.get stT.2.1).map Prod.fst = st.1.get st.2.1
            ∧ (stT.1.get stT.2.1).Perm (withIndex [258, 513, 256])
            ∧ (st.1.get st.2.1).Perm [258, 513, 256]
            ∧ (st.1.get st.2.1).Pairwise
                (fun a b => a % 2 ^ ((1 + 1) * RADIX_BITS) ≤ b % 2 ^ ((1 + 1) * RADIX_BITS))
            ∧ (∀ v : Nat,
                (st.1.get st.2.1).filter (fun x => x % 2 ^ ((1 + 1) * RADIX_BITS) == v)
                  = ([258, 513, 256] : List Nat).filter
                      (fun x => x % 2 ^ ((1 + 1) * RADIX_BITS) == v))
            ∧ (∀ (i j : Nat) (hij : i < j) (hj : j < (stT.1.get stT.2.1).length),
                ((stT.1.get stT.2.1)[i]).1 % 2 ^ ((1 + 1) * RADIX_BITS)
                    = ((stT.1.get stT.2.1)[j]).1 % 2 ^ ((1 + 1) * RADIX_BITS) →
                  ((stT.1.get stT.2.1)[i]).2 < ((stT.1.get stT.2.1)[j]).2)
            ∧ ((1 : Nat) = 3 → (st.1.get st.2.1).Pairwise (· ≤ ·)) :=
  ⟨by decide, by decide, by decide,
    lsd_pass_invariant 1 (by decide) [258, 513, 256] [0, 0, 0] [(0, 0), (0, 0), (0, 0)]
      (by decide) rfl rfl (by decide)⟩

/-! ## Operation counts of the loops -/

theorem cost_add_zero (c : Cost) : c.add Cost.zero = c := by
  cases c; simp [Cost.add, Cost.zero]

theorem cost_add_scale_succ (k c : Cost) (n : Nat) :
    (k.add c).add (Cost.scale n c) = k.add (Cost.scale (n + 1) c) := by
  cases k; cases c
  simp only [Cost.add, Cost.scale, Cost.mk.injEq]
  refine ⟨?_, ?_, ?_, ?_⟩ <;> rw [Nat.succ_mul] <;> omega

/-- A counted loop returns exactly when the loop does, with one iteration tally per index. -/
theorem foldlM_counted {σ : Type} (body : σ → Nat → Option σ) (c : Cost) (l : List Nat)
    (s : σ) (k : Cost) :
    l.foldlM (counted body c) (s, k)
      = (l.foldlM body s).map (fun s' => (s', k.add (Cost.scale l.length c))) := by
  induction l generalizing s k with
  | nil =>
    simp only [List.foldlM_nil, Option.pure_def, Option.map_some', List.length_nil]
    congr 2
    cases k; simp [Cost.add, Cost.scale]
  | cons i rest ih =>
    rw [List.foldlM_cons, List.foldlM_cons]
    cases hb : body s i with
    | none => simp [counted, hb]
    | some s1 =>
      simp only [counted, hb, Option.map_some', Option.bind_eq_bind, Option.some_bind]
      rw [ih s1 (k.add c), List.length_cons, cost_add_scale_succ]

/-- The counted pass returns exactly when the pass does, with the same output and the tally
`passCost size`, whatever the values. -/
theorem countingSortByByteCounted_eq (arr : List Nat) (size : Nat) (output : List Nat)
    (byteIndex : Nat) :
    countingSortByByteCounted arr size output byteIndex
      = (countingSortByByte arr size output byteIndex).map (fun o => (o, passCost size)) := by
  unfold countingSortByByteCounted countingSortByByte countLoop cumulLoop placeLoop
  by_cases hb : byteIndex < NUM_PASSES
  · rw [if_pos hb, if_pos hb]
    simp only [Option.bind_eq_bind, Option.pure_def]
    rw [foldlM_counted]
    cases h1 : (List.range size).foldlM (countStep arr (byteIndex * RADIX_BITS))
        (List.replicate RADIX_SIZE 0) with
    | none => rfl
    | some c1 =>
      simp only [Option.map_some', Option.some_bind]
      rw [foldlM_counted]
      cases h2 : (List.range' 1 (RADIX_SIZE - 1)).foldlM cumulStep c1 with
      | none => rfl
      | some c2 =>
        simp only [Option.map_some', Option.some_bind]
        rw [foldlM_counted]
        cases h3 : (List.range' 1 size).reverse.foldlM
            (placeStep arr (byteIndex * RADIX_BITS)) (c2, output) with
        | none => rfl
        | some s3 =>
          simp only [Option.map_some', Option.some_bind, Option.some.injEq, Prod.mk.injEq,
            true_and]
          simp only [Cost.add, Cost.scale, Cost.zero, passCost, List.length_range,
            List.length_range', List.length_reverse, RADIX_SIZE, Cost.mk.injEq]
          omega
  · rw [if_neg hb, if_neg hb]
    rfl

/-- The counted pass loop returns exactly when the pass loop does, with the same state and,
per iteration, the tally of one pass over `size` elements. -/
theorem foldlM_passStepCounted (size : Nat) (l : List Nat) (st : Heap Nat × Buf × Buf)
    (k : Cost) :
    l.foldlM (passStepCounted size) (st, k)
      = (l.foldlM (passStep size) st).map
          (fun s => (s, k.add (Cost.scale l.length ((passCost size).add ⟨1, 0, 0, 0⟩)))) := by
  induction l generalizing st k with
  | nil =>
    simp only [List.foldlM_nil, Option.pure_def, Option.map_some', List.length_nil]
    congr 2
    cases k; simp [Cost.add, Cost.scale]
  | cons i rest ih =>
    rw [List.foldlM_cons, List.foldlM_cons]
    have e : passStepCounted size (st, k) i
        = (passStep size st i).map
            (fun s => (s, k.add ((passCost size).add ⟨1, 0, 0, 0⟩))) := by
      unfold passStepCounted passStep
      simp only [Option.bind_eq_bind, Option.pure_def]
      rw [countingSortByByteCounted_eq]
      cases countingSortByByte (st.1.get st.2.1) size (st.1.get st.2.2) i with
      | none => rfl
      | some o =>
        simp only [Option.map_some', Option.some_bind, Option.some.injEq, Prod.mk.injEq,
          true_and]
        cases k
        simp only [Cost.add, passCost, Cost.mk.injEq]
        exact ⟨trivial, by omega, by omega, by omega⟩
    rw [e]
    cases hb : passStep size st i with
    | none => rfl
    | some s1 =>
      simp only [Option.map_some', Option.bind_eq_bind, Option.some_bind]
      rw [ih s1, List.length_cons, cost_add_scale_succ]

/-- The counted sort returns exactly when the sort does, with the same outcome; its tally is
`sortCost size` when the loops ran (both buffers obtained, hence both freed) and empty on the
paths that return before them. -/
theorem radixSortCounted_eq (al : Allocator Nat) (arr : Option (List Int)) (size : Nat) :
    radixSortCounted al arr size
      = (radixSort al arr size).map
          (fun o => (o, if o.frees = [.temp1, .temp2] then sortCost size else Cost.zero)) := by
  unfold radixSortCounted radixSort transformLoop passLoop copyBackLoop
  cases arr with
  | none => rfl
  | some a =>
    simp only
    split_ifs with h0 h1
    · rfl
    · rfl
    · cases malloc al 0 (size * SIZEOF_U32 % SIZE_MODULUS) with
      | none => rfl
      | some temp1 =>
        simp only
        cases malloc al 1 (size * SIZEOF_U32 % SIZE_MODULUS) with
        | none => rfl
        | some temp2 =>
          simp only [Option.bind_eq_bind, Option.pure_def]
          rw [foldlM_counted]
          cases (List.range size).foldlM (transformStep a) temp1 with
          | none => rfl
          | some t =>
            simp only [Option.map_some', Option.some_bind]
            rw [foldlM_passStepCounted]
            cases (List.range NUM_PASSES).foldlM (passStep size)
                (⟨t, temp2⟩, Buf.temp1, Buf.temp2) with
            | none => rfl
            | some p =>
              simp only [Option.map_some', Option.some_bind]
              rw [foldlM_counted]
              cases (List.range size).foldlM (copyBackStep (p.1.get p.2.1)) a with
              | none => rfl
              | some c =>
                simp only [Option.map_some', Option.some_bind, Option.some.injEq,
                  Prod.mk.injEq, true_and, if_true]
                simp only [Cost.add, Cost.scale, Cost.zero, passCost, sortCost,
                  List.length_range, NUM_PASSES, Cost.mk.injEq]
                exact ⟨by omega, by omega, by omega, by omega⟩

/-- Claim C18 (linear cost), as amended: for every array of `n >= 2` elements, whatever its
values, when both working buffers are granted (and `4 * n` bytes is a representable
`size_t`), `radixSort` returns `SORT_SUCCESS` after exactly 4 calls of `countingSortByByte`,
`14 n` element reads, `6 n` element writes and `8 n + 4 * 255` counter updates, at most
`28 n + 4 * 256` operations in all; it requested exactly two buffers of `4 n` bytes, `n` words
each.  Each pass on `n` elements, whatever their values, works on a histogram of 256 entries
and performs at most `6 n + 256` element reads, element writes and counter updates. -/
theorem radixSort_linear_cost (al : Allocator Nat) (arr : List Int) (h2 : 2 ≤ arr.length)
    (hw : arr.length * SIZEOF_U32 < SIZE_MODULUS)
    (ok1 : al.succeeds 0 (arr.length * SIZEOF_U32) = true)
    (ok2 : al.succeeds 1 (arr.length * SIZEOF_U32) = true) :
    (∃ (out : Outcome Int) (cost : Cost),
      radixSortCounted al (some arr) arr.length = some (out, cost)
        ∧ radixSort al (some arr) arr.length = some out
        ∧ out.result = .SORT_SUCCESS
        ∧ cost.passes = 4
        ∧ cost.elementReads = 14 * arr.length
        ∧ cost.elementWrites = 6 * arr.length
        ∧ cost.counterUpdates = 8 * arr.length + 4 * 255
        ∧ cost.elementReads + cost.elementWrites + cost.counterUpdates
            ≤ 28 * arr.length + 4 * 256
        ∧ out.mallocs = [arr.length * SIZEOF_U32, arr.length * SIZEOF_U32]
        ∧ arr.length * SIZEOF_U32 / SIZEOF_U32 = arr.length)
      ∧ ∀ (pass : Nat) (src dst : List Nat), pass < NUM_PASSES →
          src.length = arr.length → dst.length = arr.length →
          ∃ (o hist : List Nat) (c : Cost),
            countingSortByByteCounted src arr.length dst pass = some (o, c)
              ∧ countingSortByByte src arr.length dst pass = some o
              ∧ c.elementReads + c.elementWrites + c.counterUpdates ≤ 6 * arr.length + 256
              ∧ countLoop src arr.length (pass * RADIX_BITS) (List.replicate RADIX_SIZE 0)
                  = some hist
              ∧ hist.length = 256 := by
  have hrun := radixSort_run al arr h2 hw ok1 ok2
  have hsz : arr.length < SIZE_MODULUS := by unfold SIZEOF_U32 at hw; omega
  constructor
  · refine ⟨_, sortCost arr.length, ?_, hrun, rfl, rfl, rfl, rfl, rfl, ?_, rfl, ?_⟩
    · rw [radixSortCounted_eq, hrun]
      rfl
    · simp only [sortCost]
      omega
    · unfold SIZEOF_U32
      omega
  · intro pass src dst hp hs hd
    have hpass : countingSortByByte src arr.length dst pass
        = some (bucketPass id (pass * RADIX_BITS) src) := by
      rw [countingSortByByte_eq_keyed]
      exact keyed_countingSortByByte_eq id src dst arr.length pass hs hd hsz hp
    refine ⟨_, histogram id (pass * RADIX_BITS) src, passCost arr.length, ?_, hpass, ?_, ?_,
      histogram_length _ _ _⟩
    · rw [countingSortByByteCounted_eq, hpass]
      rfl
    · simp only [passCost]
      omega
    · have := keyed_countLoop_eq id src arr.length (pass * RADIX_BITS) (by omega) hsz
      rw [← hs, List.take_length] at this
      rw [← hs]
      exact this

theorem radixSort_linear_cost_witness :
    2 ≤ ([3, -1, 2] : List Int).length
      ∧ ([3, -1, 2] : List Int).length * SIZEOF_U32 < SIZE_MODULUS
      ∧ grantAll.succeeds 0 (([3, -1, 2] : List Int).length * SIZEOF_U32) = true
      ∧ grantAll.succeeds 1 (([3, -1, 2] : List Int).length * SIZEOF_U32) = true
      ∧ ∃ (out : Outcome Int) (cost : Cost),
          radixSortCounted grantAll (some [3, -1, 2]) ([3, -1, 2] : List Int).length
              = some (out, cost)
            ∧ radixSort grantAll (some [3, -1, 2]) ([3, -1, 2] : List Int).length = some out
            ∧ out.result = .SORT_SUCCESS
            ∧ cost.passes = 4
            ∧ cost.elementReads = 14 * ([3, -1, 2] : List Int).length
            ∧ cost.elementWrites = 6 * ([3, -1, 2] : List Int).length
            ∧ cost.counterUpdates = 8 * ([3, -1, 2] : List Int).length + 4 * 255
            ∧ cost.elementReads + cost.elementWrites + cost.counterUpdates
                ≤ 28 * ([3, -1, 2] : List Int).length + 4 * 256
            ∧ out.mallocs = [([3, -1, 2] : List Int).length * SIZEOF_U32,
                ([3, -1, 2] : List Int).length * SIZEOF_U32]
            ∧ ([3, -1, 2] : List Int).length * SIZEOF_U32 / SIZEOF_U32
                = ([3, -1, 2] : List Int).length :=
  ⟨by decide, by decide, rfl, rfl,
    (radixSort_linear_cost grantAll [3, -1, 2] (by decide) (by decide) rfl rfl).1⟩

/-- Claim C18 as stated fails when a working buffer is refused: on a 3-element array with an
allocator that refuses the first request the call returns `SORT_ERROR_MEMORY` having executed
no pass, not 4, and the one buffer it asked for was not obtained. -/
theorem radixSort_linear_cost_counterexample :
    radixSortCounted refuseAll (some [3, -1, 2]) 3
        = some (⟨.SORT_ERROR_MEMORY, some [3, -1, 2], [12], []⟩, ⟨0, 0, 0, 0⟩)
      ∧ malloc refuseAll 0 12 = none
      ∧ ¬ ∃ (out : Outcome Int) (cost : Cost),
          radixSortCounted refuseAll (some [3, -1, 2]) 3 = some (out, cost)
            ∧ cost.passes = 4 := by
  refine ⟨rfl, rfl, ?_⟩
  rintro ⟨out, cost, h, hp⟩
  have e : radixSortCounted refuseAll (some [3, -1, 2]) 3
      = some (⟨.SORT_ERROR_MEMORY, some [3, -1, 2], [12], []⟩, ⟨0, 0, 0, 0⟩) := rfl
  rw [e] at h
  cases h
  cases hp

/-! ## Per-pass ordering, buffer roles, success, arithmetic form of the transform -/

/-- Claim C21 (per-pass ordering): for every source buffer of `n` words and every byte plane
`p` in `{0, 1, 2, 3}`, `countingSortByByte` returns, and the destination buffer it produces has
`n` elements whose plane-`p` digits `(x >> 8p) & 0xFF` are in non-decreasing order: the digit of
`output[i]` is at most the digit of `output[i+1]` whenever `i + 1 < n`. -/
theorem countingSortByByte_digit_order (src dst : List Nat) (p : Nat) (hp : p < NUM_PASSES)
    (hd : dst.length = src.length) (hlt : src.length < SIZE_MODULUS) :
    ∃ out : List Nat, countingSortByByte src src.length dst p = some out
      ∧ out.length = src.length
      ∧ ∀ (i : Nat) (hi : i + 1 < out.length),
          (out[i] >>> (p * RADIX_BITS)) &&& 0xFF ≤ (out[i + 1] >>> (p * RADIX_BITS)) &&& 0xFF := by
  refine ⟨bucketPass id (p * RADIX_BITS) src, ?_, bucketPass_length _ _ _, ?_⟩
  · rw [countingSortByByte_eq_keyed]
    exact keyed_countingSortByByte_eq id src dst src.length p rfl hd hlt hp
  · intro i hi
    exact List.pairwise_iff_getElem.mp (bucketPass_pairwise_digit id (p * RADIX_BITS) src)
      i (i + 1) (by omega) hi (by omega)

theorem countingSortByByte_digit_order_witness :
    2 < NUM_PASSES ∧ ([0, 0, 0] : List Nat).length = ([65536, 131072, 7] : List Nat).length
      ∧ ([65536, 131072, 7] : List Nat).length < SIZE_MODULUS
      ∧ ∃ out : List Nat,
          countingSortByByte [65536, 131072, 7] ([65536, 131072, 7] : List Nat).length
              [0, 0, 0] 2 = some out
            ∧ out.length = ([65536, 131072, 7] : List Nat).length
            ∧ ∀ (i : Nat) (hi : i + 1 < out.length),
                (out[i] >>> (2 * RADIX_BITS)) &&& 0xFF
                  ≤ (out[i + 1] >>> (2 * RADIX_BITS)) &&& 0xFF :=
  ⟨by decide, rfl, by decide,
    countingSortByByte_digit_order [65536, 131072, 7] [0, 0, 0] 2 (by decide) rfl (by decide)⟩

/-- Claim C25 (buffer-role parity): in a call of `radixSort` on `n >= 2` elements whose two
buffers are granted, the pass loop started with `input = temp1` (holding the transformed
array) and `output = temp2` returns with `input = temp1` and `output = temp2` again; `temp1`
holds the transformed values in sorted order, `temp2` holds the data of the first three passes
only, and the array `radixSort` leaves is the inverse transform of the buffer `input`
designates, which is `temp1`. -/
theorem passLoop_parity (al : Allocator Nat) (arr : List Int) (h2 : 2 ≤ arr.length)
    (hw : arr.length * SIZEOF_U32 < SIZE_MODULUS)
    (ok1 : al.succeeds 0 (arr.length * SIZEOF_U32) = true)
    (ok2 : al.succeeds 1 (arr.length * SIZEOF_U32) = true) :
    ∃ (temp2 : List Nat) (st : Heap Nat × Buf × Buf) (out : Outcome Int),
      malloc al 1 (arr.length * SIZEOF_U32) = some temp2
        ∧ transformLoop arr arr.length ((List.range arr.length).map (al.garbage 0))
            = some (arr.map forwardTransform)
        ∧ passLoop arr.length (⟨arr.map forwardTransform, temp2⟩, .temp1, .temp2) = some st
        ∧ st.2.1 = .temp1 ∧ st.2.2 = .temp2
        ∧ st.1.get st.2.1 = st.1.temp1
        ∧ st.1.temp1.Perm (arr.map forwardTransform)
        ∧ st.1.temp1.Pairwise (· ≤ ·)
        ∧ st.1.temp2 = lsdPasses id 3 (arr.map forwardTransform)
        ∧ radixSort al (some arr) arr.length = some out
        ∧ out.result = .SORT_SUCCESS
        ∧ out.arr = some ((st.1.get st.2.1).map inverseTransform) := by
  have hdiv : arr.length * SIZEOF_U32 / SIZEOF_U32 = arr.length := by
    unfold SIZEOF_U32; omega
  have hsz : arr.length < SIZE_MODULUS := by unfold SIZEOF_U32 at hw; omega
  have m2 : malloc al 1 (arr.length * SIZEOF_U32)
      = some ((List.range arr.length).map (al.garbage 1)) := by
    unfold malloc; rw [if_pos ok2, hdiv]
  have ht : transformLoop arr arr.length ((List.range arr.length).map (al.garbage 0))
      = some (arr.map forwardTransform) := by
    have := copyLoop_eq forwardTransform arr arr.length
      ((List.range arr.length).map (al.garbage 0)) (le_refl _) (by simp)
    rw [List.drop_of_length_le (by simp), List.append_nil, List.take_length] at this
    exact this
  have hpass := keyed_passLoop_eq id arr.length (arr.map forwardTransform)
    ((List.range arr.length).map (al.garbage 1)) (by simp) (by simp) hsz
  rw [← passLoop_eq_keyed] at hpass
  have hk : ∀ x ∈ arr.map forwardTransform, id x < 4294967296 := by
    intro x hx
    rw [List.mem_map] at hx
    obtain ⟨y, _, rfl⟩ := hx
    exact forwardTransform_lt y
  exact ⟨_, _, _, m2, ht, hpass, rfl, rfl, rfl, fourPasses_perm id _,
    fourPasses_sorted id _ hk, rfl, radixSort_run al arr h2 hw ok1 ok2, rfl, rfl⟩

theorem passLoop_parity_witness :
    2 ≤ ([3, -1, 2] : List Int).length
      ∧ ([3, -1, 2] : List Int).length * SIZEOF_U32 < SIZE_MODULUS
      ∧ grantAll.succeeds 0 (([3, -1, 2] : List Int).length * SIZEOF_U32) = true
      ∧ grantAll.succeeds 1 (([3, -1, 2] : List Int).length * SIZEOF_U32) = true
      ∧ ∃ (temp2 : List Nat) (st : Heap Nat × Buf × Buf) (out : Outcome Int),
          malloc grantAll 1 (([3, -1, 2] : List Int).length * SIZEOF_U32) = some temp2
            ∧ transformLoop [3, -1, 2] ([3, -1, 2] : List Int).length
                ((List.range ([3, -1, 2] : List Int).length).map (grantAll.garbage 0))
                = some (([3, -1, 2] : List Int).map forwardTransform)
            ∧ passLoop ([3, -1, 2] : List Int).length
                (⟨([3, -1, 2] : List Int).map forwardTransform, temp2⟩, .temp1, .temp2)
                = some st
            ∧ st.2.1 = .temp1 ∧ st.2.2 = .temp2
            ∧ st.1.get st.2.1 = st.1.temp1
            ∧ st.1.temp1.Perm (([3, -1, 2] : List Int).map forwardTransform)
            ∧ st.1.temp1.Pairwise (· ≤ ·)
            ∧ st.1.temp2 = lsdPasses id 3 (([3, -1, 2] : List Int).map forwardTransform)
            ∧ radixSort grantAll (some [3, -1, 2]) ([3, -1, 2] : List Int).length = some out
            ∧ out.result = .SORT_SUCCESS
            ∧ out.arr = some ((st.1.get st.2.1).map inverseTransform) :=
  ⟨by decide, by decide, rfl, rfl,
    passLoop_parity grantAll [3, -1, 2] (by decide) (by decide) rfl rfl⟩

/-- Claim C28 (arithmetic form of the key transform): for every `int32_t` value `x`, the
forward transform `(uint32_t)x ^ 0x80000000`, read as a natural number, is `x + 2^31`; and
`x < 0` exactly when the transformed value is below `2^31`. -/
theorem forwardTransform_arith (x : Int) (hx : isInt32 x) :
    (forwardTransform x : Int) = x + 2147483648
      ∧ (x < 0 ↔ forwardTransform x < 2147483648) := by
  have e := forwardTransform_eq x hx
  refine ⟨e, ?_⟩
  constructor <;> intro h <;> omega

theorem forwardTransform_arith_witness :
    isInt32 (-5) ∧ (forwardTransform (-5) : Int) = -5 + 2147483648
      ∧ ((-5 : Int) < 0 ↔ forwardTransform (-5) < 2147483648) :=
  ⟨by decide, forwardTransform_arith (-5) (by decide)⟩

/-- The size-`>= 2` path when the first request is refused. -/
theorem radixSort_first_refused (al : Allocator Nat) (a : List Int) (size : Nat)
    (h2 : 2 ≤ size) (h : al.succeeds 0 (size * SIZEOF_U32 % SIZE_MODULUS) = false) :
    radixSort al (some a) size
      = some ⟨.SORT_ERROR_MEMORY, some a, [size * SIZEOF_U32 % SIZE_MODULUS], []⟩ := by
  unfold radixSort
  simp only
  rw [if_neg (by omega), if_neg (by omega)]
  have m1 : malloc al 0 (size * SIZEOF_U32 % SIZE_MODULUS) = none := by
    unfold malloc; rw [h]; rfl
  rw [m1]

/-- The size-`>= 2` path when the first request is granted and the second refused. -/
theorem radixSort_second_refused (al : Allocator Nat) (a : List Int) (size : Nat)
    (h2 : 2 ≤ size) (h1 : al.succeeds 0 (size * SIZEOF_U32 % SIZE_MODULUS) = true)
    (h : al.succeeds 1 (size * SIZEOF_U32 % SIZE_MODULUS) = false) :
    radixSort al (some a) size
      = some ⟨.SORT_ERROR_MEMORY, some a,
          [size * SIZEOF_U32 % SIZE_MODULUS, size * SIZEOF_U32 % SIZE_MODULUS], [.temp1]⟩ := by
  unfold radixSort
  simp only
  rw [if_neg (by omega), if_neg (by omega)]
  have m1 : malloc al 0 (size * SIZEOF_U32 % SIZE_MODULUS)
      = some ((List.range (size * SIZEOF_U32 % SIZE_MODULUS / SIZEOF_U32)).map
          (al.garbage 0)) := by
    unfold malloc; rw [h1]; rfl
  have m2 : malloc al 1 (size * SIZEOF_U32 % SIZE_MODULUS) = none := by
    unfold malloc; rw [h]; rfl
  rw [m1]
  simp only
  rw [m2]

/-- Claim C27 (success characterisation): for a call within the contract of the function (a
non-null `arr` points to at least `size` elements, so that `4 * size` bytes is a representable
`size_t`), `radixSort` always returns a code, and the code is `SORT_SUCCESS` if and only if
the array is non-null and either `size = 1`, or `size >= 2` and both working-buffer
allocations succeed.  In particular, with an allocator that never fails every non-null array
with `size >= 1` yields `SORT_SUCCESS`. -/
theorem radixSort_success_iff (al : Allocator Nat) (arr : Option (List Int)) (size : Nat)
    (hvalid : ∀ a, arr = some a → size ≤ a.length)
    (hw : size * SIZEOF_U32 < SIZE_MODULUS) :
    (∃ out, radixSort al arr size = some out)
      ∧ ((∃ out, radixSort al arr size = some out ∧ out.result = .SORT_SUCCESS)
          ↔ (arr ≠ none ∧ (size = 1 ∨ (2 ≤ size
              ∧ al.succeeds 0 (size * SIZEOF_U32) = true
              ∧ al.succeeds 1 (size * SIZEOF_U32) = true))))
      ∧ ((∀ call bytes, al.succeeds call bytes = true) → arr ≠ none → 1 ≤ size →
          ∃ out, radixSort al arr size = some out ∧ out.result = .SORT_SUCCESS) := by
  have key : (∃ out, radixSort al arr size = some out)
      ∧ ((∃ out, radixSort al arr size = some out ∧ out.result = .SORT_SUCCESS)
          ↔ (arr ≠ none ∧ (size = 1 ∨ (2 ≤ size
              ∧ al.succeeds 0 (size * SIZEOF_U32) = true
              ∧ al.succeeds 1 (size * SIZEOF_U32) = true)))) := by
    cases arr with
    | none =>
      refine ⟨⟨_, rfl⟩, ?_⟩
      constructor
      · rintro ⟨out, h, hs⟩
        have e : radixSort al none size = some ⟨.SORT_ERROR_NULL, none, [], []⟩ := rfl
        rw [e] at h
        cases h
        cases hs
      · rintro ⟨h, _⟩
        exact absurd rfl h
    | some a =>
      have hle := hvalid a rfl
      by_cases h0 : size = 0
      · subst h0
        refine ⟨⟨_, rfl⟩, ?_⟩
        constructor
        · rintro ⟨out, h, hs⟩
          have e : radixSort al (some a) 0 = some ⟨.SORT_ERROR_SIZE, some a, [], []⟩ := rfl
          rw [e] at h
          cases h
          cases hs
        · rintro ⟨_, h | ⟨h, _⟩⟩ <;> omega
      · by_cases h1 : size = 1
        · subst h1
          refine ⟨⟨_, rfl⟩, ?_⟩
          constructor
          · intro _
            exact ⟨by simp, Or.inl rfl⟩
          · intro _
            exact ⟨_, rfl, rfl⟩
        · have h2 : 2 ≤ size := by omega
          cases ok1 : al.succeeds 0 (size * SIZEOF_U32) with
          | false =>
            have hrun := radixSort_first_refused al a size h2
              (by rw [Nat.mod_eq_of_lt hw]; exact ok1)
            refine ⟨⟨_, hrun⟩, ?_⟩
            constructor
            · rintro ⟨out, h, hs⟩
              rw [hrun] at h
              cases h
              cases hs
            · rintro ⟨_, h | ⟨_, h, _⟩⟩
              · omega
              · cases h
          | true =>
            cases ok2 : al.succeeds 1 (size * SIZEOF_U32) with
            | false =>
              have hrun := radixSort_second_refused al a size h2
                (by rw [Nat.mod_eq_of_lt hw]; exact ok1)
                (by rw [Nat.mod_eq_of_lt hw]; exact ok2)
              refine ⟨⟨_, hrun⟩, ?_⟩
              constructor
              · rintro ⟨out, h, hs⟩
                rw [hrun] at h
                cases h
                cases hs
              · rintro ⟨_, h | ⟨_, _, h⟩⟩
                · omega
                · cases h
            | true =>
              have hrun := keyed_radixSort_eq forwardTransform inverseTransform id al a size
                h2 hle hw ok1 ok2
              rw [← radixSort_eq_keyed] at hrun
              refine ⟨⟨_, hrun⟩, ?_⟩
              constructor
              · intro _
                exact ⟨by simp, Or.inr ⟨h2, rfl, rfl⟩⟩
              · intro _
                exact ⟨_, hrun, rfl⟩
  refine ⟨key.1, key.2, ?_⟩
  intro hall hne hsz
  apply key.2.mpr
  refine ⟨hne, ?_⟩
  by_cases h1 : size = 1
  · exact Or.inl h1
  · exact Or.inr ⟨by omega, hall _ _, hall _ _⟩

set_option maxRecDepth 100000 in
theorem radixSort_success_iff_witness :
    (∀ a, (some [3, -1, 2] : Option (List Int)) = some a → 3 ≤ a.length)
      ∧ 3 * SIZEOF_U32 < SIZE_MODULUS
      ∧ ((∃ out, radixSort grantFirst (some [3, -1, 2]) 3 = some out
            ∧ out.result = .SORT_SUCCESS)
          ↔ ((some [3, -1, 2] : Option (List Int)) ≠ none ∧ (3 = 1 ∨ (2 ≤ 3
              ∧ grantFirst.succeeds 0 (3 * SIZEOF_U32) = true
              ∧ grantFirst.succeeds 1 (3 * SIZEOF_U32) = true))))
      ∧ ∃ out, radixSort grantAll (some [3, -1, 2]) 3 = some out
          ∧ out.result = .SORT_SUCCESS :=
  have hv : ∀ a, (some [3, -1, 2] : Option (List Int)) = some a → 3 ≤ a.length := by
    intro a h
    cases h
    decide
  ⟨hv, by decide, (radixSort_success_iff grantFirst (some [3, -1, 2]) 3 hv (by decide)).2.1,
    (radixSort_success_iff grantAll (some [3, -1, 2]) 3 hv (by decide)).2.2
      (fun _ _ => rfl) (by simp) (by decide)⟩

/-! ## The prefix-sum table and the blocks of the destination -/

/-- The output of a pass splits, at the number of elements with digit below `m`, into the
elements with digit below `m` and the elements with digit at least `m`. -/
theorem bucketPass_split {β : Type} (key : β → Nat) (shift : Nat) (l : List β) (m : Nat)
    (hm : m ≤ RADIX_SIZE) :
    ∃ A B : List β, bucketPass key shift l = A ++ B
      ∧ A.length = l.countP (fun x => decide (digitAt shift (key x) < m))
      ∧ (∀ x ∈ A, digitAt shift (key x) < m) ∧ (∀ x ∈ B, m ≤ digitAt shift (key x)) := by
  refine ⟨(List.range m).flatMap (fun d => l.filter (fun x => digitAt shift (key x) == d)),
    (List.range' m (RADIX_SIZE - m)).flatMap
      (fun d => l.filter (fun x => digitAt shift (key x) == d)), ?_, ?_, ?_, ?_⟩
  · unfold bucketPass
    rw [← List.flatMap_append, List.range_eq_range', List.range_eq_range']
    have := List.range'_append 0 m (RADIX_SIZE - m) 1
    simp only [Nat.zero_add, Nat.one_mul] at this
    rw [this]
    congr 2
    omega
  · rw [(flatMap_range_perm (fun x => digitAt shift (key x)) l m).length_eq,
      List.countP_eq_length_filter]
  · intro x hx
    rw [List.mem_flatMap] at hx
    obtain ⟨d, hd, hx⟩ := hx
    rw [List.mem_range] at hd
    simp only [List.mem_filter, beq_iff_eq] at hx
    omega
  · intro x hx
    rw [List.mem_flatMap] at hx
    obtain ⟨d, hd, hx⟩ := hx
    rw [List.mem_range'_1] at hd
    simp only [List.mem_filter, beq_iff_eq] at hx
    omega

/-- In the output of a pass, the slots below the number of elements with digit at most `d`
are exactly the slots that hold a digit at most `d`. -/
theorem bucketPass_block {β : Type} (key : β → Nat) (shift : Nat) (l : List β) (d : Nat)
    (hd : d < RADIX_SIZE) (i : Nat) (hi : i < (bucketPass key shift l).length) :
    i < l.countP (fun x => decide (digitAt shift (key x) ≤ d))
      ↔ digitAt shift (key (bucketPass key shift l)[i]) ≤ d := by
  obtain ⟨A, B, hAB, hlen, hA, hB⟩ := bucketPass_split key shift l (d + 1) hd
  rw [countP_le_eq_lt_succ (fun x => digitAt shift (key x)) l d, ← hlen]
  have hget : (bucketPass key shift l)[i]? = (A ++ B)[i]? := by rw [hAB]
  rw [List.getElem?_eq_getElem hi] at hget
  by_cases h : i < A.length
  · rw [List.getElem?_append_left h, List.getElem?_eq_getElem h] at hget
    have := hA _ (List.getElem_mem h)
    rw [← Option.some.inj hget] at this
    constructor
    · intro _; omega
    · intro _; exact h
  · have hiB : i - A.length < B.length := by
      have := congrArg List.length hAB
      rw [List.length_append] at this
      omega
    rw [List.getElem?_append_right (by omega), List.getElem?_eq_getElem hiB] at hget
    have := hB _ (List.getElem_mem hiB)
    rw [← Option.some.inj hget] at this
    constructor
    · intro h'; exact absurd h' h
    · intro h'; omega

/-- Claim C24 (prefix-sum table): in `countingSortByByte` on a source buffer of `n` words, plane
`p` in `{0, 1, 2, 3}`, the histogram loop and the cumulative-sum loop return, and the table
`count` they leave for the placement loop has 256 entries with `count[d]` equal to the number
of source elements whose plane-`p` digit is at most `d`; `count[255]` is `n`; and `count[d]`
is one past the last destination slot of the block of digit `d`: in the destination the pass
produces, the slots below `count[d]` are exactly the slots that hold a digit at most `d`. -/
theorem prefix_sum_table (src dst : List Nat) (p : Nat) (hp : p < NUM_PASSES)
    (hd : dst.length = src.length) (hlt : src.length < SIZE_MODULUS) :
    ∃ hist count out : List Nat,
      countLoop src src.length (p * RADIX_BITS) (List.replicate RADIX_SIZE 0) = some hist
        ∧ cumulLoop hist = some count
        ∧ count.length = 256
        ∧ (∀ d : Nat, d < 256 →
            count[d]? = some (src.countP (fun x => decide (digitAt (p * RADIX_BITS) x ≤ d))))
        ∧ count[255]? = some src.length
        ∧ countingSortByByte src src.length dst p = some out
        ∧ out.length = src.length
        ∧ ∀ (d : Nat) (c : Nat), d < 256 → count[d]? = some c →
            ∀ (i : Nat) (hi : i < out.length),
              (i < c ↔ digitAt (p * RADIX_BITS) out[i] ≤ d) := by
  have h1 := keyed_countLoop_eq id src src.length (p * RADIX_BITS) (le_refl _) hlt
  rw [List.take_length] at h1
  have h2 := cumulLoop_eq id (p * RADIX_BITS) src hlt
  have h3 : countingSortByByte src src.length dst p
      = some (bucketPass id (p * RADIX_BITS) src) := by
    rw [countingSortByByte_eq_keyed]
    exact keyed_countingSortByByte_eq id src dst src.length p rfl hd hlt hp
  have h4 : ∀ d : Nat, d < 256 → (prefixTable id (p * RADIX_BITS) src)[d]?
      = some (src.countP (fun x => decide (digitAt (p * RADIX_BITS) x ≤ d))) :=
    fun d hd => prefixTable_getElem? id (p * RADIX_BITS) src d hd
  have h5 : src.countP (fun x => decide (digitAt (p * RADIX_BITS) x ≤ 255)) = src.length := by
    rw [List.countP_eq_length]
    intro x _
    have := digitAt_lt (p * RADIX_BITS) x
    unfold RADIX_SIZE at this
    simp only [decide_eq_true_eq]
    omega
  refine ⟨_, _, _, h1, h2, prefixTable_length _ _ _, h4, ?_, h3, bucketPass_length _ _ _, ?_⟩
  · rw [h4 255 (by omega), h5]
  · intro d c hd hc i hi
    rw [h4 d hd] at hc
    rw [← Option.some.inj hc]
    exact bucketPass_block id (p * RADIX_BITS) src d hd i hi

theorem prefix_sum_table_witness :
    0 < NUM_PASSES ∧ ([0, 0, 0] : List Nat).length = ([7, 300, 7] : List Nat).length
      ∧ ([7, 300, 7] : List Nat).length < SIZE_MODULUS
      ∧ ∃ hist count out : List Nat,
          countLoop [7, 300, 7] ([7, 300, 7] : List Nat).length (0 * RADIX_BITS)
              (List.replicate RADIX_SIZE 0) = some hist
            ∧ cumulLoop hist = some count
            ∧ count.length = 256
            ∧ (∀ d : Nat, d < 256 →
                count[d]? = some (([7, 300, 7] : List Nat).countP
                  (fun x => decide (digitAt (0 * RADIX_BITS) x ≤ d))))
            ∧ count[255]? = some ([7, 300, 7] : List Nat).length
            ∧ countingSortByByte [7, 300, 7] ([7, 300, 7] : List Nat).length [0, 0, 0] 0
                = some out
            ∧ out.length = ([7, 300, 7] : List Nat).length
            ∧ ∀ (d : Nat) (c : Nat), d < 256 → count[d]? = some c →
                ∀ (i : Nat) (hi : i < out.length),
                  (i < c ↔ digitAt (0 * RADIX_BITS) out[i] ≤ d) :=
  ⟨by decide, rfl, by decide,
    prefix_sum_table [7, 300, 7] [0, 0, 0] 0 (by decide) rfl (by decide)⟩

/-! ## The recorded placement loop -/

/-- Forgetting the records, a recorded iteration is the iteration. -/
theorem placeStepTraced_fst (arr : List Nat) (shift : Nat) (s : List Nat × List Nat)
    (tr : List Placement) (i : Nat) :
    (placeStepTraced arr shift (s, tr) i).map Prod.fst = placeStep arr shift s i := by
  unfold placeStepTraced placeStep
  simp only [Option.bind_eq_bind, Option.pure_def]
  cases arr[i - 1]? with
  | none => rfl
  | some x =>
    simp only [Option.some_bind]
    cases s.1[(x >>> shift) &&& 0xFF]? with
    | none => rfl
    | some c =>
      simp only [Option.some_bind]
      cases writeAt s.1 ((x >>> shift) &&& 0xFF) ((c + SIZE_MODULUS - 1) % SIZE_MODULUS) with
      | none => rfl
      | some count =>
        simp only [Option.some_bind]
        cases count[(x >>> shift) &&& 0xFF]? with
        | none => rfl
        | some slot =>
          simp only [Option.some_bind]
          cases writeAt s.2 slot x with
          | none => rfl
          | some output => rfl

/-- Forgetting the records, the recorded loop is the loop. -/
theorem foldlM_placeStepTraced_fst (arr : List Nat) (shift : Nat) (l : List Nat)
    (s : List Nat × List Nat) (tr : List Placement) :
    (l.foldlM (placeStepTraced arr shift) (s, tr)).map Prod.fst
      = l.foldlM (placeStep arr shift) s := by
  induction l generalizing s tr with
  | nil => rfl
  | cons i rest ih =>
    rw [List.foldlM_cons, List.foldlM_cons, ← placeStepTraced_fst arr shift s tr i]
    cases placeStepTraced arr shift (s, tr) i with
    | none => rfl
    | some r =>
      obtain ⟨s1, tr1⟩ := r
      simp only [Option.bind_eq_bind, Option.some_bind, Option.map_some']
      exact ih s1 tr1

/-- Forgetting the records, the recorded pass is the pass. -/
theorem countingSortByByteTraced_fst (arr : List Nat) (size : Nat) (output : List Nat)
    (byteIndex : Nat) :
    (countingSortByByteTraced arr size output byteIndex).map Prod.fst
      = countingSortByByte arr size output byteIndex := by
  unfold countingSortByByteTraced countingSortByByte placeLoopTraced placeLoop
  by_cases hb : byteIndex < NUM_PASSES
  · rw [if_pos hb, if_pos hb]
    simp only [Option.bind_eq_bind, Option.pure_def]
    cases countLoop arr size (byteIndex * RADIX_BITS) (List.replicate RADIX_SIZE 0) with
    | none => rfl
    | some c1 =>
      simp only [Option.some_bind]
      cases cumulLoop c1 with
      | none => rfl
      | some c2 =>
        simp only [Option.some_bind]
        rw [← foldlM_placeStepTraced_fst arr (byteIndex * RADIX_BITS) _ (c2, output) []]
        cases (List.range' 1 size).reverse.foldlM
            (placeStepTraced arr (byteIndex * RADIX_BITS)) ((c2, output), []) with
        | none => rfl
        | some r => rfl
  · rw [if_neg hb, if_neg hb]
    rfl

/-- One recorded iteration, from the table `slotTable` of the iterations before it: the table
moves to the next `slotTable`, the element goes to its slot, and the record is `placementAt`. -/
theorem placeStepTraced_eq (shift : Nat) (src : List Nat) (k : Nat) (hk : k < src.length)
    (hlt : src.length < SIZE_MODULUS) (out : List Nat) (hl : out.length = src.length)
    (tr : List Placement) :
    placeStepTraced src shift ((slotTable id shift src (k + 1), out), tr) (k + 1)
      = some ((slotTable id shift src k, out.set (placementAt src shift k).slot src[k]),
          tr ++ [placementAt src shift k]) := by
  have hg : src.getD k 0 = src[k] := by
    rw [List.getD_eq_getElem?_getD, List.getElem?_eq_getElem hk]
    rfl
  unfold placementAt
  rw [hg]
  show placeStepTraced src shift ((slotTable id shift src (k + 1), out), tr) (k + 1)
      = some ((slotTable id shift src k, out.set
          (src.countP (fun x => decide (digitAt shift (id x) ≤ digitAt shift (id src[k])))
            - (src.drop (k + 1)).countP
                (fun x => digitAt shift (id x) == digitAt shift (id src[k])) - 1) src[k]),
          tr ++ [⟨k, digitAt shift (id src[k]),
            src.countP (fun x => decide (digitAt shift (id x) ≤ digitAt shift (id src[k])))
              - (src.drop (k + 1)).countP
                  (fun x => digitAt shift (id x) == digitAt shift (id src[k])),
            src.countP (fun x => decide (digitAt shift (id x) ≤ digitAt shift (id src[k])))
              - (src.drop (k + 1)).countP
                  (fun x => digitAt shift (id x) == digitAt shift (id src[k])) - 1,
            src[k]⟩])
  have hdrop : src.drop k = src[k] :: src.drop (k + 1) := List.drop_eq_getElem_cons hk
  have he := digitAt_lt shift (id src[k])
  have c1 := countP_drop_le (fun x => digitAt shift (id x) == digitAt shift (id src[k])) src k
  have c2 := countP_eq_le_countP_le (fun x => digitAt shift (id x)) src
    (digitAt shift (id src[k]))
  have c3 := List.countP_le_length
    (fun x => decide (digitAt shift (id x) ≤ digitAt shift (id src[k]))) (l := src)
  rw [hdrop, List.countP_cons] at c1
  simp only [beq_self_eq_true, if_true] at c1
  unfold placeStepTraced
  simp only [Nat.add_sub_cancel, List.getElem?_eq_getElem hk, Option.bind_eq_bind,
    Option.some_bind, Option.pure_def]
  rw [show (src[k] >>> shift) &&& 0xFF = digitAt shift (id src[k]) from rfl]
  rw [slotTable_getElem? id shift src (k + 1) _ he]
  simp only [Option.some_bind]
  have hm : (src.countP (fun x => decide (digitAt shift (id x) ≤ digitAt shift (id src[k])))
      - (src.drop (k + 1)).countP
          (fun x => digitAt shift (id x) == digitAt shift (id src[k]))
      + SIZE_MODULUS - 1) % SIZE_MODULUS
      = src.countP (fun x => decide (digitAt shift (id x) ≤ digitAt shift (id src[k])))
      - (src.drop (k + 1)).countP
          (fun x => digitAt shift (id x) == digitAt shift (id src[k])) - 1 := by
    have e : ∀ a m : Nat, 1 ≤ a → a < m → (a + m - 1) % m = a - 1 := by
      intro a m h1 h2
      have : a + m - 1 = (a - 1) + m := by omega
      rw [this, Nat.add_mod_right, Nat.mod_eq_of_lt (by omega)]
    exact e _ _ (by omega) (by omega)
  rw [hm, writeAt_eq_some _ (by rw [slotTable_length]; exact he)]
  simp only [Option.some_bind]
  rw [← slotTable_step id shift src k hk, slotTable_getElem? id shift src k _ he]
  simp only [Option.some_bind]
  rw [hdrop, List.countP_cons]
  simp only [beq_self_eq_true, if_true]
  rw [Nat.sub_add_eq, writeAt_eq_some _ (by omega)]
  rfl

/-- The recorded placement loop from source index `k` down: its records are `placementAt` at
the indices `k - 1, ..., 0` in that order. -/
theorem placeLoopTraced_eq (shift : Nat) (src : List Nat) (hlt : src.length < SIZE_MODULUS)
    (k : Nat) (hk : k ≤ src.length) (out : List Nat) (hl : out.length = src.length)
    (tr : List Placement) :
    ∃ out' : List Nat,
      (List.range' 1 k).reverse.foldlM (placeStepTraced src shift)
          ((slotTable id shift src k, out), tr)
        = some ((slotTable id shift src 0, out'),
            tr ++ (List.range k).reverse.map (placementAt src shift))
      ∧ out'.length = src.length := by
  induction k generalizing out tr with
  | zero => exact ⟨out, by simp, hl⟩
  | succ k ih =>
    obtain ⟨out', h2, hl'⟩ := ih (by omega)
      (out.set (placementAt src shift k).slot src[k]) (by simp [hl])
      (tr ++ [placementAt src shift k])
    refine ⟨out', ?_, hl'⟩
    rw [List.range'_concat, List.reverse_append, List.reverse_singleton, List.singleton_append,
      List.foldlM_cons]
    have e : 1 + 1 * k = k + 1 := by omega
    rw [e, placeStepTraced_eq shift src k (by omega) hlt out hl tr]
    simp only [Option.bind_eq_bind, Option.some_bind]
    rw [h2, List.range_succ, List.reverse_append, List.reverse_singleton,
      List.singleton_append, List.map_cons, List.append_assoc, List.singleton_append]

theorem countingSortByByteTraced_unfold (arr output : List Nat) (size byteIndex : Nat)
    (hb : byteIndex < NUM_PASSES) :
    countingSortByByteTraced arr size output byteIndex
      = (countLoop arr size (byteIndex * RADIX_BITS) (List.replicate RADIX_SIZE 0)).bind
          (fun c => (cumulLoop c).bind (fun c' =>
            (placeLoopTraced arr size (byteIndex * RADIX_BITS) ((c', output), [])).bind
              (fun st => some (st.1.2, st.2)))) := by
  unfold countingSortByByteTraced
  rw [if_pos hb]
  rfl

/-- The recorded pass returns the output of the pass and the records `placementAt` of the
source indices `n - 1, ..., 0`. -/
theorem countingSortByByteTraced_eq (src dst : List Nat) (p : Nat) (hp : p < NUM_PASSES)
    (hd : dst.length = src.length) (hlt : src.length < SIZE_MODULUS) :
    countingSortByByteTraced src src.length dst p
      = some (bucketPass id (p * RADIX_BITS) src,
          (List.range src.length).reverse.map (placementAt src (p * RADIX_BITS))) := by
  have h3 : countingSortByByte src src.length dst p
      = some (bucketPass id (p * RADIX_BITS) src) := by
    rw [countingSortByByte_eq_keyed]
    exact keyed_countingSortByByte_eq id src dst src.length p rfl hd hlt hp
  have h0 := countingSortByByteTraced_fst src src.length dst p
  have h1 := keyed_countLoop_eq id src src.length (p * RADIX_BITS) (le_refl _) hlt
  rw [List.take_length] at h1
  have h1' : countLoop src src.length (p * RADIX_BITS) (List.replicate RADIX_SIZE 0)
      = some (histogram id (p * RADIX_BITS) src) := h1
  obtain ⟨out', h4, _⟩ := placeLoopTraced_eq (p * RADIX_BITS) src hlt src.length (le_refl _)
    dst hd []
  rw [slotTable_at_length] at h4
  have h5 : countingSortByByteTraced src src.length dst p
      = some (out', (List.range src.length).reverse.map (placementAt src (p * RADIX_BITS))) := by
    rw [countingSortByByteTraced_unfold src dst _ _ hp, h1', Option.some_bind,
      cumulLoop_eq id _ src hlt, Option.some_bind]
    unfold placeLoopTraced
    rw [h4]
    rfl
  rw [h5, h3] at h0
  simp only [Option.map_some', Option.some.injEq] at h0
  rw [h5, h0]

/-! ## Where the placement loop puts each element -/

theorem getD_eq_getElem (src : List Nat) (k : Nat) (hk : k < src.length) :
    src.getD k 0 = src[k] := by
  rw [List.getD_eq_getElem?_getD, List.getElem?_eq_getElem hk]
  rfl

/-- The elements with a given digit split into those before index `k`, the element at `k`
and those after it. -/
theorem countP_digit_split (f : Nat → Nat) (src : List Nat) (k : Nat) (hk : k < src.length) :
    src.countP (fun y => f y == f src[k])
      = (src.take k).countP (fun y => f y == f src[k]) + 1
        + (src.drop (k + 1)).countP (fun y => f y == f src[k]) := by
  generalize hv : f src[k] = v
  have h : src = src.take k ++ src[k] :: src.drop (k + 1) := by
    rw [← List.drop_eq_getElem_cons hk, List.take_append_drop]
  have h2 := congrArg (List.countP (fun y => f y == v)) h
  rw [List.countP_append, List.countP_cons] at h2
  simp only [hv, beq_self_eq_true, if_true] at h2
  omega

theorem countP_take_mono (q : Nat → Bool) (src : List Nat) (j k : Nat) (hjk : j ≤ k) :
    (src.take j).countP q ≤ (src.take k).countP q := by
  have h : src.take j = (src.take k).take j := by
    rw [List.take_take, Nat.min_eq_left hjk]
  rw [h]
  exact (List.take_sublist j _).countP_le q

theorem countP_lt_mono (f : Nat → Nat) (src : List Nat) (a b : Nat) (hab : a ≤ b) :
    src.countP (fun y => decide (f y < a)) ≤ src.countP (fun y => decide (f y < b)) := by
  apply List.countP_mono_left
  intro x _ hx
  simp only [decide_eq_true_eq] at hx ⊢
  omega

/-- The slot of the element at source index `k` is its stable rank: the number of elements
with a smaller digit plus the number of elements with the same digit before it. -/
theorem placementAt_slot (src : List Nat) (shift k : Nat) (hk : k < src.length) :
    (placementAt src shift k).slot
      = src.countP (fun y => decide (digitAt shift y < digitAt shift src[k]))
        + (src.take k).countP (fun y => digitAt shift y == digitAt shift src[k]) := by
  unfold placementAt
  simp only
  rw [getD_eq_getElem src k hk]
  have h1 := countP_le_eq_lt_succ (fun y => digitAt shift y) src (digitAt shift src[k])
  have h2 := countP_lt_succ (fun y => digitAt shift y) src (digitAt shift src[k])
  have h3 := countP_digit_split (fun y => digitAt shift y) src k hk
  beta_reduce at h1 h2 h3
  omega

/-- The value of `count[digit]` before the decrement is one more than the slot. -/
theorem placementAt_before (src : List Nat) (shift k : Nat) (hk : k < src.length) :
    (placementAt src shift k).before = (placementAt src shift k).slot + 1 := by
  have hs := placementAt_slot src shift k hk
  unfold placementAt at hs ⊢
  simp only at hs ⊢
  rw [getD_eq_getElem src k hk] at hs ⊢
  have h1 := countP_le_eq_lt_succ (fun y => digitAt shift y) src (digitAt shift src[k])
  have h2 := countP_lt_succ (fun y => digitAt shift y) src (digitAt shift src[k])
  have h3 := countP_digit_split (fun y => digitAt shift y) src k hk
  beta_reduce at h1 h2 h3
  omega

/-- The slot lies in the block of the digit, and the block lies in the destination. -/
theorem placementAt_block (src : List Nat) (shift k : Nat) (hk : k < src.length) :
    src.countP (fun y => decide (digitAt shift y < digitAt shift src[k]))
        ≤ (placementAt src shift k).slot
      ∧ (placementAt src shift k).slot
        < src.countP (fun y => decide (digitAt shift y ≤ digitAt shift src[k]))
      ∧ src.countP (fun y => decide (digitAt shift y ≤ digitAt shift src[k])) ≤ src.length := by
  rw [placementAt_slot src shift k hk]
  have h1 := countP_le_eq_lt_succ (fun y => digitAt shift y) src (digitAt shift src[k])
  have h2 := countP_lt_succ (fun y => digitAt shift y) src (digitAt shift src[k])
  have h3 := countP_digit_split (fun y => digitAt shift y) src k hk
  have h4 := List.countP_le_length
    (fun y => decide (digitAt shift y ≤ digitAt shift src[k])) (l := src)
  beta_reduce at h1 h2 h3
  omega

theorem placementAt_idx (src : List Nat) (shift k : Nat) :
    (placementAt src shift k).idx = k := rfl

theorem placementAt_digit (src : List Nat) (shift k : Nat) (hk : k < src.length) :
    (placementAt src shift k).digit = digitAt shift src[k] := by
  unfold placementAt
  simp only
  rw [getD_eq_getElem src k hk]

theorem placementAt_value (src : List Nat) (shift k : Nat) (hk : k < src.length) :
    (placementAt src shift k).value = src[k] := by
  unfold placementAt
  simp only
  rw [getD_eq_getElem src k hk]

/-- Two source indices never share a slot. -/
theorem placementAt_slot_lt (src : List Nat) (shift j k : Nat) (hjk : j < k)
    (hk : k < src.length) :
    (placementAt src shift j).slot ≠ (placementAt src shift k).slot := by
  have hj : j < src.length := by omega
  rw [placementAt_slot src shift j hj, placementAt_slot src shift k hk]
  have hj3 := countP_digit_split (fun y => digitAt shift y) src j hj
  have hk3 := countP_digit_split (fun y => digitAt shift y) src k hk
  have hj2 := countP_lt_succ (fun y => digitAt shift y) src (digitAt shift src[j])
  have hk2 := countP_lt_succ (fun y => digitAt shift y) src (digitAt shift src[k])
  beta_reduce at hj3 hk3 hj2 hk2
  rcases Nat.lt_trichotomy (digitAt shift src[j]) (digitAt shift src[k]) with h | h | h
  · have m := countP_lt_mono (fun y => digitAt shift y) src (digitAt shift src[j] + 1)
      (digitAt shift src[k]) h
    beta_reduce at m
    omega
  · rw [h] at hj3 ⊢
    have m := countP_take_mono (fun y => digitAt shift y == digitAt shift src[k]) src
      (j + 1) k hjk
    have t : (src.take (j + 1)).countP (fun y => digitAt shift y == digitAt shift src[k])
        = (src.take j).countP (fun y => digitAt shift y == digitAt shift src[k]) + 1 := by
      rw [List.take_succ, List.countP_append, List.getElem?_eq_getElem hj]
      simp [h]
    omega
  · have m := countP_lt_mono (fun y => digitAt shift y) src (digitAt shift src[k] + 1)
      (digitAt shift src[j]) h
    beta_reduce at m
    omega

theorem placementAt_slot_inj (src : List Nat) (shift j k : Nat) (hj : j < src.length)
    (hk : k < src.length)
    (h : (placementAt src shift j).slot = (placementAt src shift k).slot) : j = k := by
  rcases Nat.lt_trichotomy j k with hlt | heq | hgt
  · exact absurd h (placementAt_slot_lt src shift j k hlt hk)
  · exact heq
  · exact absurd h.symm (placementAt_slot_lt src shift k j hgt hj)

/-- The slots of the records of a pass are the destination indices `0, ..., n - 1`, each
once. -/
theorem placement_slots_perm (src : List Nat) (shift : Nat) :
    (((List.range src.length).reverse.map (placementAt src shift)).map
      (fun q => q.slot)).Perm (List.range src.length) := by
  rw [List.map_map]
  have hnd : ((List.range src.length).reverse.map
      ((fun q => q.slot) ∘ placementAt src shift)).Nodup := by
    apply List.Nodup.map_on
    · intro x hx y hy hxy
      rw [List.mem_reverse, List.mem_range] at hx hy
      exact placementAt_slot_inj src shift x y hx hy hxy
    · exact List.nodup_reverse.mpr (List.nodup_range _)
  apply (List.subperm_of_subset hnd ?_).perm_of_length_le
  · simp
  · intro s hs
    rw [List.mem_map] at hs
    obtain ⟨k, hk, rfl⟩ := hs
    rw [List.mem_reverse, List.mem_range] at hk
    rw [List.mem_range]
    have := placementAt_block src shift k hk
    simp only [Function.comp_apply]
    omega

/-! ## The records in the order the loop made them -/

theorem mem_drop_range (n m j : Nat) : j ∈ (List.range n).drop m ↔ m ≤ j ∧ j < n := by
  constructor
  · intro h
    obtain ⟨i, hi⟩ := List.mem_iff_getElem?.mp h
    rw [List.getElem?_drop] at hi
    have hlt : m + i < n := by
      by_contra hge
      rw [List.getElem?_eq_none (by rw [List.length_range]; omega)] at hi
      cases hi
    rw [List.getElem?_range hlt] at hi
    have := Option.some.inj hi
    omega
  · intro ⟨h1, h2⟩
    apply List.mem_iff_getElem?.mpr
    refine ⟨j - m, ?_⟩
    rw [List.getElem?_drop, List.getElem?_range (by omega)]
    congr 1
    omega

/-- The record number `t` is the record of source index `n - 1 - t`. -/
theorem records_getElem? {α : Type} (f : Nat → α) (n t : Nat) (ht : t < n) :
    ((List.range n).reverse.map f)[t]? = some (f (n - 1 - t)) := by
  rw [List.getElem?_map, List.getElem?_reverse (by rw [List.length_range]; exact ht),
    List.length_range, List.getElem?_range (by omega)]
  rfl

theorem records_getElem?_some {α : Type} (f : Nat → α) (n t : Nat) (q : α)
    (h : ((List.range n).reverse.map f)[t]? = some q) : t < n ∧ q = f (n - 1 - t) := by
  have ht : t < n := by
    by_contra hge
    rw [List.getElem?_eq_none (by simp; omega)] at h
    cases h
  rw [records_getElem? f n t ht] at h
  exact ⟨ht, (Option.some.inj h).symm⟩

/-- The first `t` records are the records of the `t` highest source indices. -/
theorem mem_take_records {α : Type} (f : Nat → α) (n t : Nat) (q : α) :
    q ∈ ((List.range n).reverse.map f).take t ↔ ∃ j, n - t ≤ j ∧ j < n ∧ f j = q := by
  rw [← List.map_take, List.take_reverse, List.mem_map, List.length_range]
  constructor
  · intro ⟨j, hj, hq⟩
    rw [List.mem_reverse, mem_drop_range] at hj
    exact ⟨j, hj.1, hj.2, hq⟩
  · intro ⟨j, h1, h2, hq⟩
    exact ⟨j, by rw [List.mem_reverse, mem_drop_range]; exact ⟨h1, h2⟩, hq⟩

theorem mem_records {α : Type} (f : Nat → α) (n : Nat) (q : α) :
    q ∈ (List.range n).reverse.map f ↔ ∃ j, j < n ∧ f j = q := by
  rw [List.mem_map]
  constructor
  · intro ⟨j, hj, hq⟩
    rw [List.mem_reverse, List.mem_range] at hj
    exact ⟨j, hj, hq⟩
  · intro ⟨j, hj, hq⟩
    exact ⟨j, by rw [List.mem_reverse, List.mem_range]; exact hj, hq⟩

/-- Among the elements that satisfy `q`, the one at index `k` is number
`countP q (take k l)`. -/
theorem filter_getElem?_countP_take (q : Nat → Bool) (l : List Nat) (k : Nat)
    (hk : k < l.length) (hq : q l[k] = true) :
    (l.filter q)[(l.take k).countP q]? = some l[k] := by
  have h : l = l.take k ++ l[k] :: l.drop (k + 1) := by
    rw [← List.drop_eq_getElem_cons hk, List.take_append_drop]
  have h2 := congrArg (List.filter q) h
  rw [List.filter_append, List.filter_cons_of_pos hq] at h2
  rw [h2, List.getElem?_append_right (by rw [List.countP_eq_length_filter]),
    List.countP_eq_length_filter, Nat.sub_self, List.getElem?_cons_zero]

/-- Every number below the count of the elements that satisfy `q` is the number of such
elements before one of them. -/
theorem exists_countP_take_eq (q : Nat → Bool) (l : List Nat) (m : Nat)
    (hm : m < l.countP q) :
    ∃ j : Nat, ∃ hj : j < l.length, q l[j] = true ∧ (l.take j).countP q = m := by
  induction l generalizing m with
  | nil => simp at hm
  | cons a t ih =>
    rw [List.countP_cons] at hm
    by_cases ha : q a = true
    · rw [if_pos ha] at hm
      cases m with
      | zero => exact ⟨0, by simp, by simpa using ha, by simp⟩
      | succ m =>
        obtain ⟨j, hj, h1, h2⟩ := ih m (by omega)
        refine ⟨j + 1, by simp; omega, by simpa using h1, ?_⟩
        rw [List.take_succ_cons, List.countP_cons, if_pos ha, h2]
    · rw [if_neg ha] at hm
      obtain ⟨j, hj, h1, h2⟩ := ih m (by omega)
      refine ⟨j + 1, by simp; omega, by simpa using h1, ?_⟩
      rw [List.take_succ_cons, List.countP_cons, if_neg ha, h2]
      rfl

/-- The output of a pass holds, at the slot of source index `k`, the element `src[k]`. -/
theorem bucketPass_at_slot (src : List Nat) (shift k : Nat) (hk : k < src.length)
    (hlt : src.length < SIZE_MODULUS) :
    (bucketPass id shift src)[(placementAt src shift k).slot]? = some src[k] := by
  obtain ⟨st', _, inv⟩ := keyed_placeLoop_inv id shift src hlt src.length (le_refl _) _
    (placeInv_init id shift src src rfl)
  have hf := placeInv_final id shift src st' inv
  have hp := inv.placed (digitAt shift src[k]) (digitAt_lt shift src[k])
    ((src.take k).countP (fun y => digitAt shift y == digitAt shift src[k]))
    (by
      rw [List.drop_zero]
      have h3 := countP_digit_split (fun y => digitAt shift y) src k hk
      beta_reduce at h3
      show (src.take k).countP (fun y => digitAt shift y == digitAt shift src[k])
        < src.countP (fun y => digitAt shift y == digitAt shift src[k])
      omega)
  rw [hf, List.drop_zero] at hp
  have hq := filter_getElem?_countP_take (fun y => digitAt shift y == digitAt shift src[k])
    src k hk (by simp)
  have hs := placementAt_slot src shift k hk
  have h1 := countP_le_eq_lt_succ (fun y => digitAt shift y) src (digitAt shift src[k])
  have h2 := countP_lt_succ (fun y => digitAt shift y) src (digitAt shift src[k])
  beta_reduce at h1 h2
  have e : (placementAt src shift k).slot
      = src.countP (fun y => decide (digitAt shift y ≤ digitAt shift src[k]))
        - src.countP (fun y => digitAt shift y == digitAt shift src[k])
        + (src.take k).countP (fun y => digitAt shift y == digitAt shift src[k]) := by
    omega
  rw [e]
  exact hp.trans hq

/-- Every slot of the block above the slot of source index `k` is the slot of a later source
index. -/
theorem placementAt_higher_slots (src : List Nat) (shift k : Nat) (hk : k < src.length)
    (s : Nat) (h1 : (placementAt src shift k).slot < s)
    (h2 : s < src.countP (fun y => decide (digitAt shift y ≤ digitAt shift src[k]))) :
    ∃ j, k < j ∧ j < src.length ∧ (placementAt src shift j).slot = s := by
  rw [placementAt_slot src shift k hk] at h1
  have e1 := countP_le_eq_lt_succ (fun y => digitAt shift y) src (digitAt shift src[k])
  have e2 := countP_lt_succ (fun y => digitAt shift y) src (digitAt shift src[k])
  beta_reduce at e1 e2
  obtain ⟨j, hj, hq, hc⟩ := exists_countP_take_eq
    (fun y => digitAt shift y == digitAt shift src[k]) src
    (s - src.countP (fun y => decide (digitAt shift y < digitAt shift src[k]))) (by omega)
  simp only [beq_iff_eq] at hq
  refine ⟨j, ?_, hj, ?_⟩
  · by_contra hle
    have m := countP_take_mono (fun y => digitAt shift y == digitAt shift src[k]) src j k
      (by omega)
    omega
  · rw [placementAt_slot src shift j hj, hq, hc]
    omega

/-! ## Claims C22, C23, C26: the writes of the placement loop -/

/-- Claim C22 (per-pass permutation): for every source buffer of `n` words, every destination
buffer of `n` words of any content and every byte plane `p`, the placement loop of
`countingSortByByte` handles the source indices `n - 1, ..., 0`, one write each; the
destination indices of these writes are the indices `0, ..., n - 1`, each exactly once; every
value written is the value of the source element handled; the destination the pass returns is
a permutation of the source, and each of its slots holds the value written there by its one
write, so that no slot keeps its prior content. -/
theorem countingSortByByte_placement_perm (src dst : List Nat) (p : Nat)
    (hp : p < NUM_PASSES) (hd : dst.length = src.length) (hlt : src.length < SIZE_MODULUS) :
    ∃ (out : List Nat) (recs : List Placement),
      countingSortByByteTraced src src.length dst p = some (out, recs)
        ∧ countingSortByByte src src.length dst p = some out
        ∧ recs.map (fun q => q.idx) = (List.range src.length).reverse
        ∧ (recs.map (fun q => q.slot)).Perm (List.range src.length)
        ∧ (∀ q ∈ recs, src[q.idx]? = some q.value)
        ∧ out.Perm src
        ∧ out.length = src.length
        ∧ ∀ i : Nat, i < src.length →
            ∃ q ∈ recs, q.slot = i ∧ out[i]? = some q.value := by
  have hperm := placement_slots_perm src (p * RADIX_BITS)
  refine ⟨bucketPass id (p * RADIX_BITS) src,
    (List.range src.length).reverse.map (placementAt src (p * RADIX_BITS)),
    countingSortByByteTraced_eq src dst p hp hd hlt, ?_, ?_, hperm, ?_,
    bucketPass_perm _ _ _, bucketPass_length _ _ _, ?_⟩
  · rw [countingSortByByte_eq_keyed]
    exact keyed_countingSortByByte_eq id src dst src.length p rfl hd hlt hp
  · rw [List.map_map]
    exact List.map_id _
  · intro q hq
    obtain ⟨k, hk, rfl⟩ := (mem_records _ _ _).mp hq
    rw [placementAt_idx, placementAt_value src _ k hk, List.getElem?_eq_getElem hk]
  · intro i hi
    have hmem : i ∈ ((List.range src.length).reverse.map
        (placementAt src (p * RADIX_BITS))).map (fun q => q.slot) :=
      hperm.mem_iff.mpr (List.mem_range.mpr hi)
    obtain ⟨q, hq, hqi⟩ := List.mem_map.mp hmem
    refine ⟨q, hq, hqi, ?_⟩
    obtain ⟨k, hk, rfl⟩ := (mem_records _ _ _).mp hq
    rw [← hqi, placementAt_value src _ k hk]
    exact bucketPass_at_slot src (p * RADIX_BITS) k hk hlt

theorem countingSortByByte_placement_perm_witness :
    1 < NUM_PASSES ∧ ([9, 9, 9] : List Nat).length = ([775, 300, 7] : List Nat).length
      ∧ ([775, 300, 7] : List Nat).length < SIZE_MODULUS
      ∧ ∃ (out : List Nat) (recs : List Placement),
          countingSortByByteTraced [775, 300, 7] ([775, 300, 7] : List Nat).length
              [9, 9, 9] 1 = some (out, recs)
            ∧ countingSortByByte [775, 300, 7] ([775, 300, 7] : List Nat).length
                [9, 9, 9] 1 = some out
            ∧ recs.map (fun q => q.idx)
                = (List.range ([775, 300, 7] : List Nat).length).reverse
            ∧ (recs.map (fun q => q.slot)).Perm
                (List.range ([775, 300, 7] : List Nat).length)
            ∧ (∀ q ∈ recs, ([775, 300, 7] : List Nat)[q.idx]? = some q.value)
            ∧ out.Perm [775, 300, 7]
            ∧ out.length = ([775, 300, 7] : List Nat).length
            ∧ ∀ i : Nat, i < ([775, 300, 7] : List Nat).length →
                ∃ q ∈ recs, q.slot = i ∧ out[i]? = some q.value :=
  ⟨by decide, rfl, by decide,
    countingSortByByte_placement_perm [775, 300, 7] [9, 9, 9] 1 (by decide) rfl (by decide)⟩

set_option maxRecDepth 100000 in
/-- Claim C23, counterexample: on the source `[5, 5, 5]` and plane 0 the block of digit 5 is
the whole destination, slots 0 to 2. The first iteration handles the last source element and
writes it to slot 2, while the slot 0 of the block is lower and has not been written: the
slot assigned is not the lowest slot still available. -/
theorem placeLoop_lowest_slot_counterexample :
    countingSortByByteTraced [5, 5, 5] 3 [0, 0, 0] 0
        = some ([5, 5, 5], [⟨2, 5, 3, 2, 5⟩, ⟨1, 5, 2, 1, 5⟩, ⟨0, 5, 1, 0, 5⟩])
      ∧ ∃ s : Nat,
          ([5, 5, 5] : List Nat).countP (fun y => decide (digitAt (0 * RADIX_BITS) y < 5)) ≤ s
            ∧ s < ([5, 5, 5] : List Nat).countP
                (fun y => decide (digitAt (0 * RADIX_BITS) y ≤ 5))
            ∧ (∀ q ∈ ([⟨2, 5, 3, 2, 5⟩, ⟨1, 5, 2, 1, 5⟩, ⟨0, 5, 1, 0, 5⟩]
                  : List Placement).take 0, q.slot ≠ s)
            ∧ s < (⟨2, 5, 3, 2, 5⟩ : Placement).slot := by
  refine ⟨?_, 0, by decide, by decide, by decide, by decide⟩
  exact (countingSortByByteTraced_eq [5, 5, 5] [0, 0, 0] 0 (by decide) rfl (by decide)).trans
    (by decide)

/-- Claim C23, amended (slot assignment in the placement loop): the loop scans the source from
the last index to the first, and the iteration number `t` handles the source element that
appears latest among the elements not yet placed; it decrements `count[digit]` before the
write; the slot it assigns lies in the block of the digit in the destination, has not been
written by an earlier iteration, and every higher slot of the block has been written by an
earlier iteration: the slot assigned is the highest slot of the block still available. -/
theorem placeLoop_highest_slot (src dst : List Nat) (p : Nat)
    (hp : p < NUM_PASSES) (hd : dst.length = src.length) (hlt : src.length < SIZE_MODULUS) :
    ∃ (out : List Nat) (recs : List Placement),
      countingSortByByteTraced src src.length dst p = some (out, recs)
        ∧ recs.length = src.length
        ∧ ∀ (t : Nat) (pl : Placement), recs[t]? = some pl →
            pl.idx + t + 1 = src.length
              ∧ src[pl.idx]? = some pl.value
              ∧ pl.digit = (pl.value >>> (p * RADIX_BITS)) &&& 0xFF
              ∧ pl.slot + 1 = pl.before
              ∧ (∀ j : Nat, j < src.length → (∀ q ∈ recs.take t, q.idx ≠ j) → j ≤ pl.idx)
              ∧ src.countP (fun y => decide (digitAt (p * RADIX_BITS) y < pl.digit)) ≤ pl.slot
              ∧ pl.slot < src.countP (fun y => decide (digitAt (p * RADIX_BITS) y ≤ pl.digit))
              ∧ (∀ q ∈ recs.take t, q.slot ≠ pl.slot)
              ∧ ∀ s : Nat, pl.slot < s →
                  s < src.countP (fun y => decide (digitAt (p * RADIX_BITS) y ≤ pl.digit)) →
                  ∃ q ∈ recs.take t, q.slot = s := by
  refine ⟨bucketPass id (p * RADIX_BITS) src,
    (List.range src.length).reverse.map (placementAt src (p * RADIX_BITS)),
    countingSortByByteTraced_eq src dst p hp hd hlt, by simp, ?_⟩
  intro t pl hpl
  obtain ⟨ht, rfl⟩ := records_getElem?_some _ _ _ _ hpl
  generalize hkdef : src.length - 1 - t = k
  have hk : k < src.length := by omega
  have hkt : src.length - t = k + 1 := by omega
  have hblock := placementAt_block src (p * RADIX_BITS) k hk
  rw [placementAt_idx, placementAt_value src _ k hk, placementAt_digit src _ k hk]
  refine ⟨by omega, List.getElem?_eq_getElem hk, rfl,
    (placementAt_before src _ k hk).symm, ?_, hblock.1, hblock.2.1, ?_, ?_⟩
  · intro j hj hfree
    by_contra hgt
    exact hfree (placementAt src (p * RADIX_BITS) j)
      ((mem_take_records _ _ _ _).mpr ⟨j, by omega, hj, rfl⟩) rfl
  · intro q hq
    obtain ⟨j, h1, h2, rfl⟩ := (mem_take_records _ _ _ _).mp hq
    exact (placementAt_slot_lt src (p * RADIX_BITS) k j (by omega) h2).symm
  · intro s h1 h2
    obtain ⟨j, hkj, hj, hs⟩ := placementAt_higher_slots src (p * RADIX_BITS) k hk s h1 h2
    exact ⟨placementAt src (p * RADIX_BITS) j,
      (mem_take_records _ _ _ _).mpr ⟨j, by omega, hj, rfl⟩, hs⟩

theorem placeLoop_highest_slot_witness :
    0 < NUM_PASSES ∧ ([0, 0, 0] : List Nat).length = ([5, 5, 5] : List Nat).length
      ∧ ([5, 5, 5] : List Nat).length < SIZE_MODULUS
      ∧ ∃ (out : List Nat) (recs : List Placement),
          countingSortByByteTraced [5, 5, 5] ([5, 5, 5] : List Nat).length [0, 0, 0] 0
              = some (out, recs)
            ∧ recs.length = ([5, 5, 5] : List Nat).length
            ∧ ∀ (t : Nat) (pl : Placement), recs[t]? = some pl →
                pl.idx + t + 1 = ([5, 5, 5] : List Nat).length
                  ∧ ([5, 5, 5] : List Nat)[pl.idx]? = some pl.value
                  ∧ pl.digit = (pl.value >>> (0 * RADIX_BITS)) &&& 0xFF
                  ∧ pl.slot + 1 = pl.before
                  ∧ (∀ j : Nat, j < ([5, 5, 5] : List Nat).length →
                      (∀ q ∈ recs.take t, q.idx ≠ j) → j ≤ pl.idx)
                  ∧ ([5, 5, 5] : List Nat).countP
                      (fun y => decide (digitAt (0 * RADIX_BITS) y < pl.digit)) ≤ pl.slot
                  ∧ pl.slot < ([5, 5, 5] : List Nat).countP
                      (fun y => decide (digitAt (0 * RADIX_BITS) y ≤ pl.digit))
                  ∧ (∀ q ∈ recs.take t, q.slot ≠ pl.slot)
                  ∧ ∀ s : Nat, pl.slot < s →
                      s < ([5, 5, 5] : List Nat).countP
                        (fun y => decide (digitAt (0 * RADIX_BITS) y ≤ pl.digit)) →
                      ∃ q ∈ recs.take t, q.slot = s :=
  ⟨by decide, rfl, by decide,
    placeLoop_highest_slot [5, 5, 5] [0, 0, 0] 0 (by decide) rfl (by decide)⟩

/-- Claim C26 (index safety of a pass): for every source buffer of `n` words, every
destination buffer of `n` words and every byte plane `p` in `{0, 1, 2, 3}`, every digit
`(x >> 8p) & 0xFF` is below 256, the length of the table `count`; the histogram loop and the
prefix-sum loop return; in the placement loop every digit extracted is below 256,
`count[digit]` is at least 1 when it is decremented, so that the decrement modulo `2^64` is
the decrement, and the destination index `count[digit]` of every write is below `n`; hence
`countingSortByByte` returns a destination and never takes the out-of-bounds branch. -/
theorem countingSortByByte_index_safety (src dst : List Nat) (p : Nat)
    (hp : p < NUM_PASSES) (hd : dst.length = src.length) (hlt : src.length < SIZE_MODULUS) :
    (∀ x : Nat, (x >>> (p * RADIX_BITS)) &&& 0xFF < RADIX_SIZE)
      ∧ (∃ hist count : List Nat,
          countLoop src src.length (p * RADIX_BITS) (List.replicate RADIX_SIZE 0) = some hist
            ∧ hist.length = RADIX_SIZE
            ∧ cumulLoop hist = some count
            ∧ count.length = RADIX_SIZE)
      ∧ (countingSortByByte src src.length dst p).isSome = true
      ∧ ∃ (out : List Nat) (recs : List Placement),
          countingSortByByteTraced src src.length dst p = some (out, recs)
            ∧ countingSortByByte src src.length dst p = some out
            ∧ recs.length = src.length
            ∧ ∀ q ∈ recs,
                q.digit < RADIX_SIZE
                  ∧ 1 ≤ q.before
                  ∧ (q.before + SIZE_MODULUS - 1) % SIZE_MODULUS = q.before - 1
                  ∧ q.slot = q.before - 1
                  ∧ q.slot < src.length := by
  have h1 := keyed_countLoop_eq id src src.length (p * RADIX_BITS) (le_refl _) hlt
  rw [List.take_length] at h1
  have h2 := cumulLoop_eq id (p * RADIX_BITS) src hlt
  have h3 : countingSortByByte src src.length dst p
      = some (bucketPass id (p * RADIX_BITS) src) := by
    rw [countingSortByByte_eq_keyed]
    exact keyed_countingSortByByte_eq id src dst src.length p rfl hd hlt hp
  refine ⟨fun x => digitAt_lt (p * RADIX_BITS) x,
    ⟨_, _, h1, histogram_length _ _ _, h2, prefixTable_length _ _ _⟩,
    by rw [h3]; rfl,
    bucketPass id (p * RADIX_BITS) src,
    (List.range src.length).reverse.map (placementAt src (p * RADIX_BITS)),
    countingSortByByteTraced_eq src dst p hp hd hlt, h3, by simp, ?_⟩
  intro q hq
  obtain ⟨k, hk, rfl⟩ := (mem_records _ _ _).mp hq
  have hblock := placementAt_block src (p * RADIX_BITS) k hk
  have hbefore := placementAt_before src (p * RADIX_BITS) k hk
  rw [placementAt_digit src _ k hk]
  refine ⟨digitAt_lt _ _, by omega, ?_, by omega, by omega⟩
  have e : (placementAt src (p * RADIX_BITS) k).before + SIZE_MODULUS - 1
      = (placementAt src (p * RADIX_BITS) k).before - 1 + SIZE_MODULUS := by omega
  rw [e, Nat.add_mod_right, Nat.mod_eq_of_lt (by omega)]

theorem countingSortByByte_index_safety_witness :
    3 < NUM_PASSES ∧ ([0, 0, 0] : List Nat).length = ([4294967295, 0, 16777216] : List Nat).length
      ∧ ([4294967295, 0, 16777216] : List Nat).length < SIZE_MODULUS
      ∧ (∀ x : Nat, (x >>> (3 * RADIX_BITS)) &&& 0xFF < RADIX_SIZE)
      ∧ (∃ hist count : List Nat,
          countLoop [4294967295, 0, 16777216] ([4294967295, 0, 16777216] : List Nat).length
              (3 * RADIX_BITS) (List.replicate RADIX_SIZE 0) = some hist
            ∧ hist.length = RADIX_SIZE
            ∧ cumulLoop hist = some count
            ∧ count.length = RADIX_SIZE)
      ∧ (countingSortByByte [4294967295, 0, 16777216]
          ([4294967295, 0, 16777216] : List Nat).length [0, 0, 0] 3).isSome = true
      ∧ ∃ (out : List Nat) (recs : List Placement),
          countingSortByByteTraced [4294967295, 0, 16777216]
              ([4294967295, 0, 16777216] : List Nat).length [0, 0, 0] 3 = some (out, recs)
            ∧ countingSortByByte [4294967295, 0, 16777216]
                ([4294967295, 0, 16777216] : List Nat).length [0, 0, 0] 3 = some out
            ∧ recs.length = ([4294967295, 0, 16777216] : List Nat).length
            ∧ ∀ q ∈ recs,
                q.digit < RADIX_SIZE
                  ∧ 1 ≤ q.before
                  ∧ (q.before + SIZE_MODULUS - 1) % SIZE_MODULUS = q.before - 1
                  ∧ q.slot = q.before - 1
                  ∧ q.slot < ([4294967295, 0, 16777216] : List Nat).length :=
  ⟨by decide, rfl, by decide,
    countingSortByByte_index_safety [4294967295, 0, 16777216] [0, 0, 0] 3
      (by decide) rfl (by decide)⟩

end RadixSort
